import Mathlib

/-! SerialConnect: a checksummed line protocol over a serial stream.

A shallow embedding of `SerialConnect.cpp` / `SerialConnect.h`.

Target conventions (the library includes avr-libc's `<util/crc16.h>`, so the
target is an 8-bit AVR): `char` is one byte, `int` and `size_t` are 16 bits,
`long`, `unsigned long` and `uint32_t` are 32 bits.  Machine integers are
natural numbers reduced explicitly where the C code wraps.

Bytes are natural numbers; a C string is the list of bytes before the first
NUL.  The environment (the Arduino `Stream` bound by `init`, the optional
diagnostic stream and the `millis()` clock) is an explicit `World` value that
every operation threads through.  Time is modelled by the clock function:
the k-th time-dependent environment call (`millis`, `read`, `peek`,
`available`) happens at time `clk k`, and a byte of the input can be read once
its arrival time has been reached.  Loops that wait for the clock take a
number of passes (`fuel`) and return `none` when it is used up.
-/

namespace SerialConnect

/-! ## Character constants -/

/-- The byte of a comma. -/
def COMMA : Nat := 44
/-- The byte of a carriage return. -/
def CR : Nat := 13
/-- The byte of a line feed. -/
def LF : Nat := 10
/-- The byte that ends a C string. -/
def NUL : Nat := 0

/-- One more than the largest `uint16_t` / `size_t` value. -/
def U16 : Nat := 65536
/-- One more than the largest `uint32_t` / `unsigned long` value. -/
def U32 : Nat := 4294967296

/-- Default of the `timeout` parameters declared in `SerialConnect.h`. -/
def DEFAULT_TIMEOUT : Nat := 1000

/-! ## CRC (avr-libc `util/crc16.h`) -/

/-- One round of the bit loop that avr-libc documents as the C equivalent of
`_crc_xmodem_update`: `if (crc & 0x8000) crc = (crc << 1) ^ 0x1021; else crc <<= 1;`
on a `uint16_t`. -/
def crc_xmodem_bit (crc : Nat) : Nat :=
  if crc &&& 0x8000 ≠ 0 then ((crc <<< 1) ^^^ 0x1021) % U16 else (crc <<< 1) % U16

/-- The avr-libc `_crc_xmodem_update(crc, data)`, after its documented
equivalent: `crc = crc ^ ((uint16_t)data << 8)` followed by eight bit rounds. -/
def crc_xmodem_update (crc data : Nat) : Nat :=
  crc_xmodem_bit^[8] ((crc ^^^ (((data % 256) <<< 8) % U16)) % U16)

/-- Loop of `SerialConnect::crc16_xmodem`: `while (len--) crc = _crc_xmodem_update(crc, *buf++);`. -/
def crc16_xmodem_loop : List Nat → Nat → Nat
  | [], crc => crc
  | b :: bs, crc => crc16_xmodem_loop bs (crc_xmodem_update crc b)

/-- `SerialConnect::crc16_xmodem(buf, len)`: the register starts at 0. -/
def crc16_xmodem (buf : List Nat) : Nat :=
  crc16_xmodem_loop buf 0

/-! ## Number formatting and parsing (Arduino `Print`, C library `strtoul`) -/

/-- The do-while loop of Arduino's `Print::printNumber(unsigned long n, uint8_t base)`:
digits are produced from the least significant one and stored right to left.
The loop counter bounds the iterations by the size of the local buffer. -/
def printNumberLoop (base : Nat) : Nat → Nat → List Nat → List Nat
  | 0, _, str => str
  | fuel + 1, n, str =>
    let m := n
    let n1 := n / base
    let c := m - base * n1
    let str1 := (if c < 10 then c + 48 else c + 65 - 10) :: str
    if n1 = 0 then str1 else printNumberLoop base fuel n1 str1

/-- Arduino `Print::printNumber`: `if (base < 2) base = 10;` then the digit loop
(the local buffer has room for `8 * sizeof(long)` digits). -/
def printNumber (n base : Nat) : List Nat :=
  printNumberLoop (if base < 2 then 10 else base) 32 n []

/-- Arduino `Print::print(unsigned int n)`, which is what `print(crc)` resolves
to for a `uint16_t`: the number in base `DEC`. -/
def printUnsigned (n : Nat) : List Nat :=
  printNumber n 10

/-- C library `isspace` in the "C" locale. -/
def isspace (c : Nat) : Bool :=
  c = 32 || (9 ≤ c && c ≤ 13)

/-- Value of a byte as a digit of `strtoul`: `0-9`, then letters of either case
from ten upwards. -/
def digitVal (c : Nat) : Option Nat :=
  if 48 ≤ c ∧ c ≤ 57 then some (c - 48)
  else if 65 ≤ c ∧ c ≤ 90 then some (c - 65 + 10)
  else if 97 ≤ c ∧ c ≤ 122 then some (c - 97 + 10)
  else none

/-- Digit loop of `strtoul`: consumes digits below `base`; returns the
accumulated (unbounded) value and the number of digits consumed. -/
def strtoulDigits (base : Nat) : List Nat → Nat → Nat → Nat × Nat
  | [], acc, n => (acc, n)
  | c :: cs, acc, n =>
    match digitVal c with
    | some d => if d < base then strtoulDigits base cs (acc * base + d) (n + 1) else (acc, n)
    | none => (acc, n)

/-- Whether the text starts with `0x` or `0X` followed by a hexadecimal digit. -/
def hasHexPrefix : List Nat → Bool
  | 48 :: x :: d :: _ =>
    (x = 120 || x = 88) &&
      (match digitVal d with
       | some v => decide (v < 16)
       | none => false)
  | _ => false

/-- C library `strtoul(nptr, &endptr, base)` as ISO C specifies it, for a text
given as the bytes before its terminating NUL and `base` 0 or 2..36: optional
white space, an optional sign, an optional `0x` when the base is 0 or 16, then
the longest run of digits of the base; base 0 selects 16, 8 or 10 from the
text.  Returns the value as an `unsigned long` (`ULONG_MAX` when out of range,
negated modulo 2^32 after a minus sign) and `endptr - nptr`, which is 0 when
no conversion was performed. -/
def strtoul (nptr : List Nat) (base : Nat) : Nat × Nat :=
  let ws := (nptr.takeWhile isspace).length
  let s1 := nptr.drop ws
  let neg := s1.head? = some 45
  let sg := if s1.head? = some 45 ∨ s1.head? = some 43 then 1 else 0
  let s2 := s1.drop sg
  let hex := (base = 0 ∨ base = 16) ∧ hasHexPrefix s2 = true
  let px := if hex then 2 else 0
  let b := if hex then 16 else if base = 0 then (if s2.head? = some 48 then 8 else 10) else base
  let r := strtoulDigits b (s2.drop px) 0 0
  if r.2 = 0 then (0, 0)
  else
    let v := if U32 ≤ r.1 then U32 - 1 else if neg then (U32 - r.1) % U32 else r.1
    (v, ws + sg + px + r.2)

/-! ## `findCrc` -/

/-- The `while (ptr > txt)` loop of `SerialConnect::findCrc`, on the C string
`txt`; the last argument is `ptr - txt`.  Returns the return value, the `crc`
out-parameter and the `cptr` out-parameter (as an index into `txt`); `crc0`
and `cptr0` are what the out-parameters held before.  `crc = strtoul(ptr, &eptr, 0)`
truncates to `uint16_t`. -/
def findCrcLoop (txt : List Nat) (crc0 : Nat) : Nat → Nat → Bool × Nat × Nat
  | cptr0, 0 => (false, crc0, cptr0)
  | _, ptr + 1 =>
    let cptr := ptr
    if txt.getD cptr NUL = COMMA then
      let r := strtoul (txt.drop (ptr + 1)) 0
      let crc := r.1 % U16
      if r.2 ≠ 0 then (true, crc, cptr) else (false, crc, cptr)
    else findCrcLoop txt crc0 cptr ptr

/-- `SerialConnect::findCrc(txt, crc, cptr)`: `ptr = txt + strlen(txt)` and the
backward scan for the last comma. -/
def findCrc (txt : List Nat) (crc0 cptr0 : Nat) : Bool × Nat × Nat :=
  findCrcLoop txt crc0 cptr0 txt.length

/-! ## Environment: clock, stream, diagnostic stream -/

/-- The clock: the time in milliseconds since start-up at which the k-th
time-dependent environment call (`millis`, `read`, `peek`, `available`) takes
place.  Any schedule of a deterministic run is such a function. -/
abbrev Clock := Nat → Nat

/-- The environment seen by a `SerialConnect` bound to a stream.
`ops` counts the time-dependent environment calls made so far; `input` is the
bytes that have not been read yet, in wire order, each with the time at which
it reaches the receive queue; `output` is what has been printed to the stream
and `diag` what has been printed to the diagnostic stream, oldest first. -/
structure World where
  ops : Nat
  input : List (Nat × Nat)
  output : List Nat
  diag : List Nat
  deriving DecidableEq

/-- Arduino `millis()`: the clock as an `unsigned long`. -/
def millis (clk : Clock) (w : World) : Nat × World :=
  (clk w.ops % U32, { w with ops := w.ops + 1 })

/-- Arduino `Stream::peek()`: the next byte if one has arrived, without
consuming it; `none` stands for the result -1. -/
def peek (clk : Clock) (w : World) : Option Nat × World :=
  match w.input with
  | [] => (none, { w with ops := w.ops + 1 })
  | (t, b) :: _ =>
    if t ≤ clk w.ops then (some b, { w with ops := w.ops + 1 })
    else (none, { w with ops := w.ops + 1 })

/-- Arduino `Stream::read()`: the next byte if one has arrived, consuming it;
`none` stands for the result -1. -/
def read (clk : Clock) (w : World) : Option Nat × World :=
  match w.input with
  | [] => (none, { w with ops := w.ops + 1 })
  | (t, b) :: rest =>
    if t ≤ clk w.ops then (some b, { w with ops := w.ops + 1, input := rest })
    else (none, { w with ops := w.ops + 1 })

/-- Arduino `Stream::available()`: how many bytes wait in the receive queue. -/
def available (clk : Clock) (w : World) : Nat × World :=
  ((w.input.takeWhile (fun x => decide (x.1 ≤ clk w.ops))).length, { w with ops := w.ops + 1 })

/-- Arduino `Print::print` of a byte sequence on the bound stream. -/
def print (bytes : List Nat) (w : World) : World :=
  { w with output := w.output ++ bytes }

/-- `SerialConnect::isTimedOut(ts)`: `(long)(millis() - ts) >= 0`, the
difference taken in `unsigned long` and read as a 32-bit two's complement
number. -/
def isTimedOut (clk : Clock) (ts : Nat) (w : World) : Bool × World :=
  let r := millis clk w
  (decide ((r.1 + U32 - ts) % U32 < 2147483648), r.2)

/-- The members of `class SerialConnect` other than the stream itself, which
is the `World`: `_eol`, and whether `_diagStream` is set. -/
structure Conn where
  eol : Nat
  hasDiag : Bool
  deriving DecidableEq

/-- The constructor `SerialConnect::SerialConnect()`: `_diagStream = 0; _eol = LF`. -/
def Conn.new : Conn :=
  { eol := LF, hasDiag := false }

/-- `SerialConnect::init(stream, eol)`. -/
def Conn.init (c : Conn) (eol : Nat) : Conn :=
  { c with eol := eol }

/-- `SerialConnect::init(stream)` with the declared default `eol` of LF. -/
def Conn.initDefault (c : Conn) : Conn :=
  c.init LF

/-- `SerialConnect::setDiag(stream)`. -/
def Conn.setDiag (c : Conn) : Conn :=
  { c with hasDiag := true }

/-- `SerialConnect::diagPrint(str)`: `if (_diagStream) _diagStream->print(str);`. -/
def diagPrint (c : Conn) (str : List Nat) (w : World) : World :=
  if c.hasDiag then { w with diag := w.diag ++ str } else w

/-- `SerialConnect::diagPrintLn(str)`: `println` appends CR LF. -/
def diagPrintLn (c : Conn) (str : List Nat) (w : World) : World :=
  if c.hasDiag then { w with diag := w.diag ++ str ++ [CR, LF] } else w

/-! ## The caller's buffer -/

/-- The caller's `char *buffer`: the cells the caller owns, and the indices
the code has stored to so far (latest first), whether or not they lie inside
`cells`. -/
structure Buffer where
  cells : List Nat
  writes : List Nat
  deriving DecidableEq

/-- The assignment `buffer[i] = v`. -/
def Buffer.write (b : Buffer) (i v : Nat) : Buffer :=
  { cells := b.cells.set i v, writes := i :: b.writes }

/-- The buffer read as a C string: the bytes before the first NUL. -/
def Buffer.cstr (b : Buffer) : List Nat :=
  b.cells.takeWhile (fun x => decide (x ≠ NUL))

/-- Stores `vs` at consecutive indices from `i` on. -/
def Buffer.writeFrom (b : Buffer) : Nat → List Nat → Buffer
  | _, [] => b
  | i, v :: vs => (b.write i v).writeFrom (i + 1) vs

/-- What the C library in use leaves in the buffer when `strcpy(buffer, buffer + len)`
is called with bytes to read and bytes to write that overlap.  ISO C leaves
that call undefined, so the model takes it as a parameter. -/
abbrev OverlapCopy := Buffer → Nat → Buffer

/-- The copy of a forward byte loop, which is how avr-libc implements `strcpy`:
the rest of the string and its NUL are copied to the front, lowest index
first; no byte is overwritten before it has been read. -/
def strcpyForward : OverlapCopy := fun b len =>
  b.writeFrom 0 (b.cstr.drop len ++ [NUL])

/-- Another behaviour that ISO C allows on overlapping arguments, that of a
`strcpy` that moves a short string as two machine words: when five to eight
bytes are to be copied, NUL included, the first four and the last four of
them are moved as one word each, and the second word is read after the first
has been stored.  Other lengths are copied forward. -/
def strcpyTwoWords : OverlapCopy := fun b len =>
  let n := (b.cstr.drop len).length + 1
  if 5 ≤ n ∧ n ≤ 8 then
    let b1 := b.writeFrom 0 ((b.cells.drop len).take 4)
    b1.writeFrom (n - 4) ((b1.cells.drop (len + (n - 4))).take 4)
  else strcpyForward b len

/-- C library `strcpy(buffer, buffer + len)` for `len` within the string.
When the `strlen(buffer) - len + 1` bytes read, from index `len` on, lie
wholly behind the bytes written (`strlen(buffer) < 2 * len`), the rest of the
string and its NUL are copied to the front.  With `len = 0` source and
destination are the same bytes and each byte is stored where it was read.
Otherwise the two overlap, ISO C leaves the call undefined, and the result is
that of the C library in use, `lib`. -/
def strcpyFromOffset (lib : OverlapCopy) (b : Buffer) (len : Nat) : Buffer :=
  if len = 0 ∨ b.cstr.length < 2 * len then b.writeFrom 0 (b.cstr.drop len ++ [NUL])
  else lib b len

/-- Whether C library `strncmp(a, b, n)` returns 0, on two C strings. -/
def strncmpEq : List Nat → List Nat → Nat → Bool
  | _, _, 0 => true
  | [], [], _ + 1 => true
  | x :: a, y :: b, n + 1 => x == y && strncmpEq a b n
  | _, _, _ + 1 => false

/-! ## `sendData` -/

/-- The flash string `sendLine: ` followed by a single quote. -/
def sendLineLabel : List Nat := [115, 101, 110, 100, 76, 105, 110, 101, 58, 32, 39]

/-- The flash string `readLine timed out`. -/
def timedOutLabel : List Nat :=
  [114, 101, 97, 100, 76, 105, 110, 101, 32, 116, 105, 109, 101, 100, 32, 111, 117, 116]

/-- `SerialConnect::sendData(line)`; `line` is the memory the pointer refers to,
of which `print` and `strlen` see the bytes before the first NUL. -/
def sendData (c : Conn) (line : List Nat) (w : World) : World :=
  let txt := line.takeWhile (fun x => decide (x ≠ NUL))
  let w := diagPrint c sendLineLabel w
  let w := diagPrint c txt w
  let w := diagPrintLn c [39] w
  let crc := crc16_xmodem txt
  let w := print txt w
  let w := print [COMMA] w
  let w := print (printUnsigned crc) w
  print [c.eol] w

/-! ## `readLine` -/

/-- The local variables of `readLine` that live across loop iterations, with
the buffer and the environment. -/
structure ReadLineState where
  len : Nat
  seenCR : Bool
  ts_waitLF : Nat
  buffer : Buffer
  world : World
  deriving DecidableEq

/-- What a call returns: the boolean, the buffer and the environment. -/
abbrev Outcome := Bool × Buffer × World

/-- The label `ok:` of `readLine`: `buffer[len++] = 0; return true;`. -/
def readLineOk (len : Nat) (buffer : Buffer) (w : World) : Outcome :=
  (true, buffer.write len NUL, w)

/-- The block `if (seenCR) { c = peek(); if (c != LF || isTimedOut(ts_waitLF)) goto ok; }`:
whether control goes to `ok`, and the environment afterwards.  The second
test is only evaluated when the peeked byte is LF. -/
def readLinePeek (clk : Clock) (s : ReadLineState) (w : World) : Bool × World :=
  if s.seenCR then
    let p := peek clk w
    if p.1 ≠ some LF then (true, p.2) else isTimedOut clk s.ts_waitLF p.2
  else (false, w)

/-- The rest of a loop pass of `readLine` once `read()` has returned the byte
`ch` (`c >= 0`): `seenCR = c == CR`, then the three-way branch on `c`.
`size - 1` is computed in `size_t`. -/
def readLineByte (clk : Clock) (size : Nat) (s : ReadLineState) (ch : Nat) (w : World) :
    ReadLineState ⊕ Outcome :=
  if ch = CR then
    let m := millis clk w
    .inl { s with seenCR := true, ts_waitLF := (m.1 + 50) % U32, world := m.2 }
  else if ch = LF then
    if s.len > 0 then .inr (readLineOk s.len s.buffer w)
    else .inl { s with seenCR := false, world := w }
  else if s.len < (size + U16 - 1) % U16 then
    .inl { s with len := s.len + 1, seenCR := false, buffer := s.buffer.write s.len ch, world := w }
  else
    .inl { s with seenCR := false, world := w }

/-- One pass through `while (!isTimedOut(ts_max)) { ... }` of `readLine`:
either the next loop state or what the function returns. -/
def readLineStep (clk : Clock) (c : Conn) (size ts_max : Nat) (s : ReadLineState) :
    ReadLineState ⊕ Outcome :=
  let t := isTimedOut clk ts_max s.world
  if t.1 then
    .inr (false, s.buffer, diagPrintLn c timedOutLabel t.2)
  else
    let pk := readLinePeek clk s t.2
    if pk.1 then
      .inr (readLineOk s.len s.buffer pk.2)
    else
      let r := read clk pk.2
      match r.1 with
      | none => .inl { s with world := r.2 }
      | some ch => readLineByte clk size s ch r.2

/-- The loop of `readLine`, run for at most `fuel` passes; `none` when the
passes are used up before the function returns. -/
def readLineLoop (clk : Clock) (c : Conn) (size ts_max : Nat) :
    Nat → ReadLineState → Option Outcome
  | 0, _ => none
  | fuel + 1, s =>
    match readLineStep clk c size ts_max s with
    | .inl s1 => readLineLoop clk c size ts_max fuel s1
    | .inr r => some r

/-- The deadline `ts_max = millis() + timeout` that `readLine`, `receiveData`
and `waitUntilAvailable` compute on entry, as a `uint32_t`. -/
def deadline (clk : Clock) (timeout : Nat) (w : World) : Nat :=
  ((millis clk w).1 + timeout) % U32

/-- The state in which `readLine` enters its loop: `len = 0`, `seenCR = false`,
`ts_waitLF = 0`, after the call of `millis()` for `ts_max`. -/
def readLineInit (clk : Clock) (buffer : Buffer) (w : World) : ReadLineState :=
  { len := 0, seenCR := false, ts_waitLF := 0, buffer := buffer, world := (millis clk w).2 }

/-- `SerialConnect::readLine(buffer, size, timeout)`. -/
def readLine (clk : Clock) (c : Conn) (fuel : Nat) (buffer : Buffer) (size timeout : Nat)
    (w : World) : Option Outcome :=
  readLineLoop clk c size (deadline clk timeout w) fuel (readLineInit clk buffer w)

/-- The loop state of `readLine` at the start of pass `n` (counted from 0), if
the function has not returned before. -/
def readLineIter (clk : Clock) (c : Conn) (size ts_max : Nat) :
    Nat → ReadLineState → Option ReadLineState
  | 0, s => some s
  | n + 1, s =>
    match readLineStep clk c size ts_max s with
    | .inl s1 => readLineIter clk c size ts_max n s1
    | .inr _ => none

/-! ## `receiveData` -/

/-- The checks `receiveData` makes on a line that `readLine` has stored:
`findCrc`, `*ptr = 0`, and the comparison with the recomputed CRC.  Returns
whether the line is accepted, and the buffer. -/
def verifyLine (buffer : Buffer) : Bool × Buffer :=
  let f := findCrc buffer.cstr 0 0
  if f.1 then
    let b := buffer.write f.2.2 NUL
    let crc1 := crc16_xmodem b.cstr
    (decide (crc1 = f.2.1), b)
  else (false, buffer)

/-- The loop of `SerialConnect::receiveData(buffer, size, timeout)`, for at
most `fuel` passes, each inner `readLine` (called with its default timeout)
running for at most `inner` passes. -/
def receiveDataLoop (clk : Clock) (c : Conn) (size ts_max inner : Nat) :
    Nat → Buffer → World → Option Outcome
  | 0, _, _ => none
  | fuel + 1, buffer, w =>
    let t := isTimedOut clk ts_max w
    if t.1 then some (false, buffer, t.2)
    else
      match readLine clk c inner buffer size DEFAULT_TIMEOUT t.2 with
      | none => none
      | some (false, b, w1) => receiveDataLoop clk c size ts_max inner fuel b w1
      | some (true, b, w1) =>
        let v := verifyLine b
        if v.1 then some (true, v.2, w1)
        else receiveDataLoop clk c size ts_max inner fuel v.2 w1

/-- `SerialConnect::receiveData(buffer, size, timeout)`. -/
def receiveData (clk : Clock) (c : Conn) (fuel : Nat) (buffer : Buffer) (size timeout : Nat)
    (w : World) : Option Outcome :=
  receiveDataLoop clk c size (deadline clk timeout w) fuel fuel buffer (millis clk w).2

/-- The loop of the overload of `receiveData` that takes the text a line has
to start with (`pfx`, a C string); `lib` is the behaviour of the C library's
`strcpy` on overlapping arguments. -/
def receiveDataPfxLoop (lib : OverlapCopy) (clk : Clock) (c : Conn) (pfx : List Nat)
    (size ts_max inner : Nat) : Nat → Buffer → World → Option Outcome
  | 0, _, _ => none
  | fuel + 1, buffer, w =>
    let t := isTimedOut clk ts_max w
    if t.1 then some (false, buffer, t.2)
    else
      match readLine clk c inner buffer size DEFAULT_TIMEOUT t.2 with
      | none => none
      | some (false, b, w1) => receiveDataPfxLoop lib clk c pfx size ts_max inner fuel b w1
      | some (true, b, w1) =>
        let v := verifyLine b
        if v.1 then
          let len := pfx.length
          if strncmpEq v.2.cstr pfx len then
            some (true, strcpyFromOffset lib v.2 len, w1)
          else receiveDataPfxLoop lib clk c pfx size ts_max inner fuel v.2 w1
        else receiveDataPfxLoop lib clk c pfx size ts_max inner fuel v.2 w1

/-- The overload `SerialConnect::receiveData(pfx, buffer, size, timeout)`. -/
def receiveDataPfx (lib : OverlapCopy) (clk : Clock) (c : Conn) (fuel : Nat) (pfx : List Nat)
    (buffer : Buffer) (size timeout : Nat) (w : World) : Option Outcome :=
  receiveDataPfxLoop lib clk c (pfx.takeWhile (fun x => decide (x ≠ NUL))) size
    (deadline clk timeout w) fuel fuel buffer (millis clk w).2

/-! ## `waitUntilAvailable` -/

/-- The loop of `SerialConnect::waitUntilAvailable`. -/
def waitUntilAvailableLoop (clk : Clock) (ts_max : Nat) : Nat → World → Option (Bool × World)
  | 0, _ => none
  | fuel + 1, w =>
    let t := isTimedOut clk ts_max w
    if t.1 then some (false, t.2)
    else
      let a := available clk t.2
      if a.1 > 0 then some (true, a.2)
      else waitUntilAvailableLoop clk ts_max fuel a.2

/-- `SerialConnect::waitUntilAvailable(timeout)`. -/
def waitUntilAvailable (clk : Clock) (fuel : Nat) (timeout : Nat) (w : World) :
    Option (Bool × World) :=
  waitUntilAvailableLoop clk (deadline clk timeout w) fuel (millis clk w).2

/-! ## Notions used to state the properties -/

/-- Value of a run of decimal digit bytes read left to right, starting from `init`. -/
def decimalValue (init : Nat) (ds : List Nat) : Nat :=
  ds.foldl (fun a d => 10 * a + (d - 48)) init

/-- A byte in `0`..`9`. -/
def IsDecimalDigit (d : Nat) : Prop := 48 ≤ d ∧ d ≤ 57

/-- What `findCrc` returns on a text whose last comma is followed by `suf`. -/
def findCrcAtLastComma (pre suf : List Nat) : Bool × Nat × Nat :=
  (decide ((strtoul suf 0).2 ≠ 0), (strtoul suf 0).1 % U16, pre.length)

/-- The bound that `readLine` keeps: the length is at most `size - 1` and
every index stored to so far is below `size`. -/
def ReadLineBound (size : Nat) (s : ReadLineState) : Prop :=
  s.len ≤ size - 1 ∧ ∀ i ∈ s.buffer.writes, i < size

/-- Whether `isTimedOut(ts)` holds when its `millis()` is environment call `k`. -/
def expired (clk : Clock) (ts k : Nat) : Prop :=
  (clk k % U32 + U32 - ts) % U32 < 2147483648

instance (clk : Clock) (ts k : Nat) : Decidable (expired clk ts k) := by
  unfold expired
  infer_instance

/-- The environment after `n` more time-dependent calls that consume nothing. -/
def World.tick (w : World) (n : Nat) : World :=
  { w with ops := w.ops + n }

/-- The loop state with another environment. -/
def ReadLineState.withWorld (s : ReadLineState) (w : World) : ReadLineState :=
  { s with world := w }

/-- What the loop of `readLine` does to the length and the buffer while it
consumes the bytes `bs`, none of them CR or LF: a byte is stored while
`len < size - 1` (in `size_t`) and dropped otherwise. -/
def storeBytes (size : Nat) : List Nat → Nat → Buffer → Nat × Buffer
  | [], len, buf => (len, buf)
  | b :: bs, len, buf =>
    if len < (size + U16 - 1) % U16 then storeBytes size bs (len + 1) (buf.write len b)
    else storeBytes size bs len buf

/-- The budget that keeps a read of `m` more bytes inside the window of
environment calls `0..B`: the bytes have arrived by call `K`, and both the
current call `k` and `K` leave room for two calls per byte. -/
def Budget (K B k m : Nat) : Prop :=
  k + 2 * m ≤ B ∧ K + 2 * m ≤ B

/-- Largest advance of the clock between two consecutive environment calls
that the liveness properties allow for (2^28 ms, about three days). -/
def MAX_STEP : Nat := 268435456

/-- A clock that runs forward, never stops for good, and does not skip more
than `MAX_STEP` milliseconds between two consecutive environment calls. -/
structure SaneClock (clk : Clock) : Prop where
  mono : Monotone clk
  unbounded : ∀ t, ∃ k, t ≤ clk k
  step : ∀ k, clk (k + 1) ≤ clk k + MAX_STEP

/-- Whether `available()` reports at least one byte when it is environment
call `k` and the input of `w` is pending. -/
def readyAt (clk : Clock) (w : World) (k : Nat) : Bool :=
  decide (0 < (available clk { w with ops := k }).1)

/-- Generator polynomial of CRC-16/XMODEM, `x^16 + x^12 + x^5 + 1`, without
its leading term. -/
def CRC16_POLY : Nat := 0x1021

/-- Reference shift register of an MSB-first CRC of width 16: one message bit
is shifted in; the feedback is the bit that leaves the register at the top,
combined with the message bit, and it selects whether the polynomial is
added. -/
def crcShiftIn (reg : Nat) (bit : Bool) : Nat :=
  if (reg.testBit 15 != bit) = true then ((reg <<< 1) % U16) ^^^ CRC16_POLY
  else (reg <<< 1) % U16

/-- The bits of a byte, most significant first (no reflection). -/
def bitsMsbFirst (byte : Nat) : List Bool :=
  (List.range 8).map (fun j => byte.testBit (7 - j))

/-- Reference CRC-16/XMODEM of the spec: polynomial 0x1021, register
initially 0x0000, message bits taken MSB-first, no reflection, no final XOR. -/
def crc16XmodemReference (bytes : List Nat) : Nat :=
  (bytes.flatMap bitsMsbFirst).foldl crcShiftIn 0

/-! # Properties -/

set_option maxRecDepth 100000

/-! ## Checksum range -/

theorem crc_xmodem_bit_lt (x : Nat) : crc_xmodem_bit x < U16 := by
  unfold crc_xmodem_bit
  split <;> exact Nat.mod_lt _ (by decide)

theorem crc_xmodem_update_lt (crc data : Nat) : crc_xmodem_update crc data < U16 := by
  unfold crc_xmodem_update
  rw [show (8 : Nat) = 7 + 1 from rfl, Function.iterate_succ_apply']
  exact crc_xmodem_bit_lt _

theorem crc16_xmodem_loop_lt (buf : List Nat) (crc : Nat) (h : crc < U16) :
    crc16_xmodem_loop buf crc < U16 := by
  induction buf generalizing crc with
  | nil => simpa [crc16_xmodem_loop] using h
  | cons b bs ih =>
    simp only [crc16_xmodem_loop]
    exact ih _ (crc_xmodem_update_lt crc b)

theorem crc16_xmodem_lt (buf : List Nat) : crc16_xmodem buf < U16 :=
  crc16_xmodem_loop_lt buf 0 (by decide)

/-! ## Decimal rendering -/

theorem printNumberLoop_value (fuel n : Nat) (str : List Nat) (h : n < 10 ^ fuel) :
    decimalValue 0 (printNumberLoop 10 fuel n str) = decimalValue n str := by
  induction fuel generalizing n str with
  | zero =>
    have : n = 0 := by simpa using h
    subst this
    simp [printNumberLoop]
  | succ fuel ih =>
    simp only [printNumberLoop]
    have hc : n - 10 * (n / 10) < 10 := by omega
    split
    · rename_i h0
      have hn : n - 10 * (n / 10) = n := by omega
      simp [decimalValue, hc, hn]
    · have h1 : n / 10 < 10 ^ fuel := by
        rw [Nat.div_lt_iff_lt_mul (by decide)]
        simpa [pow_succ] using h
      rw [ih _ _ h1]
      simp only [decimalValue, hc, if_true, List.foldl_cons]
      congr 1
      omega

theorem printNumberLoop_digits (fuel n : Nat) (str : List Nat)
    (hs : ∀ d ∈ str, IsDecimalDigit d) :
    ∀ d ∈ printNumberLoop 10 fuel n str, IsDecimalDigit d := by
  induction fuel generalizing n str with
  | zero => simpa [printNumberLoop] using hs
  | succ fuel ih =>
    simp only [printNumberLoop]
    have hc : n - 10 * (n / 10) < 10 := by omega
    have hs1 : ∀ d ∈ (n - 10 * (n / 10) + 48) :: str, IsDecimalDigit d := by
      intro d hd
      rcases List.mem_cons.mp hd with rfl | hd
      · constructor <;> omega
      · exact hs d hd
    simp only [hc, if_true]
    split
    · exact hs1
    · exact ih _ _ hs1

theorem printNumberLoop_length (fuel n k : Nat) (str : List Nat) (hk : 0 < k) (hkf : k ≤ fuel)
    (h : n < 10 ^ k) :
    str.length < (printNumberLoop 10 fuel n str).length ∧
      (printNumberLoop 10 fuel n str).length ≤ str.length + k := by
  induction fuel generalizing n k str with
  | zero => omega
  | succ fuel ih =>
    simp only [printNumberLoop]
    split
    · simp
      omega
    · rename_i h0
      have hk2 : 2 ≤ k := by
        by_contra hlt
        have : k = 1 := by omega
        subst this
        have : n / 10 = 0 := by
          have : n < 10 := by simpa using h
          omega
        exact h0 this
      have h1 : n / 10 < 10 ^ (k - 1) := by
        rw [Nat.div_lt_iff_lt_mul (by decide), ← pow_succ]
        have : k - 1 + 1 = k := by omega
        rwa [this]
      have := ih (n / 10) (k - 1)
        ((if n - 10 * (n / 10) < 10 then n - 10 * (n / 10) + 48 else n - 10 * (n / 10) + 65 - 10) :: str)
        (by omega) (by omega) h1
      simp only [List.length_cons] at this
      omega

theorem printNumberLoop_head (fuel n : Nat) (str : List Nat) (hn : 0 < n) (h : n < 10 ^ fuel) :
    ∃ d rest, printNumberLoop 10 fuel n str = d :: rest ∧ 49 ≤ d ∧ d ≤ 57 := by
  induction fuel generalizing n str with
  | zero =>
    have : n = 0 := by simpa using h
    omega
  | succ fuel ih =>
    simp only [printNumberLoop]
    have hc : n - 10 * (n / 10) < 10 := by omega
    simp only [hc, if_true]
    split
    · exact ⟨_, _, rfl, by omega, by omega⟩
    · have h1 : n / 10 < 10 ^ fuel := by
        rw [Nat.div_lt_iff_lt_mul (by decide)]
        simpa [pow_succ] using h
      exact ih _ _ (by omega) h1

theorem printUnsigned_eq (n : Nat) : printUnsigned n = printNumberLoop 10 32 n [] := by
  simp [printUnsigned, printNumber]

theorem U16_lt_pow : U16 < 10 ^ 5 := by decide

theorem printUnsigned_value (n : Nat) (h : n < U16) : decimalValue 0 (printUnsigned n) = n := by
  rw [printUnsigned_eq, printNumberLoop_value]
  · simp [decimalValue]
  · have := U16_lt_pow
    have h2 : (10 : Nat) ^ 5 ≤ 10 ^ 32 := Nat.pow_le_pow_right (by decide) (by decide)
    omega

theorem printUnsigned_digits (n : Nat) : ∀ d ∈ printUnsigned n, IsDecimalDigit d := by
  rw [printUnsigned_eq]
  exact printNumberLoop_digits 32 n [] (by simp)

theorem printUnsigned_length (n : Nat) (h : n < U16) :
    1 ≤ (printUnsigned n).length ∧ (printUnsigned n).length ≤ 5 := by
  rw [printUnsigned_eq]
  have := printNumberLoop_length 32 n 5 [] (by decide) (by decide) (by have := U16_lt_pow; omega)
  simpa using this

theorem printUnsigned_head (n : Nat) (hn : 0 < n) (h : n < U16) :
    ∃ d rest, printUnsigned n = d :: rest ∧ 49 ≤ d ∧ d ≤ 57 := by
  rw [printUnsigned_eq]
  apply printNumberLoop_head 32 n [] hn
  have := U16_lt_pow
  have h2 : (10 : Nat) ^ 5 ≤ 10 ^ 32 := Nat.pow_le_pow_right (by decide) (by decide)
  omega

theorem printUnsigned_zero : printUnsigned 0 = [48] := by decide

/-! ## sendData -/

theorem takeWhile_ne_NUL_of_forall (p : List Nat) (hp : ∀ b ∈ p, b ≠ NUL) :
    p.takeWhile (fun x => decide (x ≠ NUL)) = p := by
  rw [List.takeWhile_eq_self_iff]
  intro x hx
  simpa using hp x hx

theorem sendData_output (c : Conn) (line : List Nat) (w : World) :
    (sendData c line w).output =
      w.output ++ line.takeWhile (fun x => decide (x ≠ NUL)) ++ [COMMA] ++
        printUnsigned (crc16_xmodem (line.takeWhile (fun x => decide (x ≠ NUL)))) ++ [c.eol] := by
  simp only [sendData, print, diagPrint, diagPrintLn]
  cases c.hasDiag <;> simp

/-- C4: `sendData(p)` writes to the stream exactly the payload, a comma, the
shortest unsigned decimal rendering of `crc16_xmodem(p)` (decimal digits only,
one to five of them, no leading zero, of value the checksum) and the configured
terminator; the terminator is LF after construction and after `init` without a
character, and is the character given to `init` otherwise. -/
theorem sendData_wire_format (c : Conn) (p : List Nat) (w : World) (hp : ∀ b ∈ p, b ≠ NUL) :
    (sendData c p w).output =
        w.output ++ p ++ [COMMA] ++ printUnsigned (crc16_xmodem p) ++ [c.eol] ∧
      (∀ d ∈ printUnsigned (crc16_xmodem p), IsDecimalDigit d) ∧
      1 ≤ (printUnsigned (crc16_xmodem p)).length ∧
      (printUnsigned (crc16_xmodem p)).length ≤ 5 ∧
      decimalValue 0 (printUnsigned (crc16_xmodem p)) = crc16_xmodem p ∧
      (1 < (printUnsigned (crc16_xmodem p)).length →
        (printUnsigned (crc16_xmodem p)).head? ≠ some 48) ∧
      Conn.new.eol = LF ∧ Conn.new.initDefault.eol = LF ∧
      ∀ e, (Conn.new.init e).eol = e := by
  have hlt := crc16_xmodem_lt p
  refine ⟨?_, printUnsigned_digits _, (printUnsigned_length _ hlt).1,
    (printUnsigned_length _ hlt).2, printUnsigned_value _ hlt, ?_, rfl, rfl, fun _ => rfl⟩
  · rw [sendData_output, takeWhile_ne_NUL_of_forall p hp]
  · intro hlen
    rcases Nat.eq_zero_or_pos (crc16_xmodem p) with h0 | hpos
    · rw [h0, printUnsigned_zero] at hlen
      simp at hlen
    · obtain ⟨d, rest, hd, h1, _⟩ := printUnsigned_head _ hpos hlt
      rw [hd]
      simp
      omega

/-- C4 at the payload `CMD` on a fresh connection. -/
theorem sendData_wire_format_witness :
    (sendData Conn.new [67, 77, 68] ⟨0, [], [], []⟩).output =
        [67, 77, 68, 44, 49, 52, 49, 50, 53, 10] ∧
      decimalValue 0 (printUnsigned (crc16_xmodem [67, 77, 68])) = 14125 := by
  have h := sendData_wire_format Conn.new [67, 77, 68] ⟨0, [], [], []⟩ (by decide)
  refine ⟨?_, ?_⟩
  · rw [h.1]
    decide
  · rw [h.2.2.2.2.1]
    decide

/-! ## findCrc -/

theorem findCrcLoop_no_comma (txt : List Nat) (crc0 cptr0 ptr : Nat) (h : COMMA ∉ txt) :
    (findCrcLoop txt crc0 cptr0 ptr).1 = false := by
  induction ptr generalizing cptr0 with
  | zero => rfl
  | succ ptr ih =>
    simp only [findCrcLoop]
    have hne : txt.getD ptr NUL ≠ COMMA := by
      intro he
      by_cases hlt : ptr < txt.length
      · simp only [List.getD_eq_getElem?_getD, List.getElem?_eq_getElem hlt,
          Option.getD_some] at he
        exact h (he ▸ List.getElem_mem hlt)
      · rw [List.getD_eq_default _ _ (by omega)] at he
        exact absurd he (by decide)
    rw [if_neg hne]
    exact ih ptr


theorem findCrcLoop_last_comma (pre suf : List Nat) (crc0 cptr0 k : Nat)
    (h : COMMA ∉ suf) (hk : k ≤ suf.length) :
    findCrcLoop (pre ++ COMMA :: suf) crc0 cptr0 (pre.length + 1 + k) =
      findCrcAtLastComma pre suf := by
  induction k generalizing cptr0 with
  | zero =>
    simp only [Nat.add_zero, findCrcLoop]
    have hg : (pre ++ COMMA :: suf).getD pre.length NUL = COMMA := by
      rw [List.getD_eq_getElem?_getD, List.getElem?_append_right (le_refl _)]
      simp
    have hd : (pre ++ COMMA :: suf).drop (pre.length + 1) = suf := by
      rw [show pre ++ COMMA :: suf = (pre ++ [COMMA]) ++ suf by simp]
      rw [List.drop_append_of_le_length (by simp)]
      simp
    rw [if_pos hg, hd]
    by_cases hc : (strtoul suf 0).2 = 0 <;> simp [findCrcAtLastComma, hc]
  | succ k ih =>
    rw [show pre.length + 1 + (k + 1) = (pre.length + 1 + k) + 1 by omega]
    simp only [findCrcLoop]
    have hlt : k < suf.length := by omega
    have hg : (pre ++ COMMA :: suf).getD (pre.length + 1 + k) NUL = suf[k] := by
      rw [show pre ++ COMMA :: suf = (pre ++ [COMMA]) ++ suf by simp]
      rw [List.getD_eq_getElem?_getD, List.getElem?_append_right (by simp)]
      simp [List.getElem?_eq_getElem hlt]
    have hne : suf[k] ≠ COMMA := fun he => h (he ▸ List.getElem_mem hlt)
    rw [hg, if_neg hne]
    exact ih _ (by omega)

theorem findCrc_eq_of_last_comma (pre suf : List Nat) (crc0 cptr0 : Nat) (h : COMMA ∉ suf) :
    findCrc (pre ++ COMMA :: suf) crc0 cptr0 = findCrcAtLastComma pre suf := by
  unfold findCrc
  rw [show (pre ++ COMMA :: suf).length = pre.length + 1 + suf.length by simp; omega]
  exact findCrcLoop_last_comma pre suf crc0 cptr0 suf.length h le_rfl

theorem strtoul_no_conversion (c : Nat) (rest : List Nat) (hs : isspace c = false)
    (hm : c ≠ 45) (hp : c ≠ 43) (hd : ¬ IsDecimalDigit c) :
    (strtoul (c :: rest) 0).2 = 0 := by
  have hd1 : ¬ (48 ≤ c ∧ c ≤ 57) := hd
  have h48 : c ≠ 48 := fun h => hd1 (by omega)
  have hdig : strtoulDigits 10 (c :: rest) 0 0 = (0, 0) := by
    simp only [strtoulDigits, digitVal, hd1, if_false]
    split_ifs <;> simp
  simp [strtoul, List.takeWhile_cons, hs, hm, hp, hasHexPrefix, h48, hdig]

theorem strtoul_nil : (strtoul [] 0).2 = 0 := by decide

/-- C10: `findCrc` returns false on a text without a comma; on a text whose
last comma is followed by `suf` it returns true exactly when `strtoul` converts
something at the start of `suf`, so it returns false when `suf` is empty or
starts with a byte that is neither white space, a sign nor a decimal digit,
whatever stands before that comma; and when it returns true, `cptr` is the
position of the last comma, the payload is everything before it (earlier
commas included) and `crc` is the parsed value as a `uint16_t`. -/
theorem findCrc_last_comma_rule (txt : List Nat) (crc0 cptr0 : Nat) :
    (COMMA ∉ txt → (findCrc txt crc0 cptr0).1 = false) ∧
    (∀ pre suf, txt = pre ++ COMMA :: suf → COMMA ∉ suf →
      ((findCrc txt crc0 cptr0).1 = true ↔ (strtoul suf 0).2 ≠ 0) ∧
      ((suf = [] ∨ ∃ c rest, suf = c :: rest ∧ isspace c = false ∧ c ≠ 45 ∧ c ≠ 43 ∧
          ¬ IsDecimalDigit c) → (findCrc txt crc0 cptr0).1 = false) ∧
      ((findCrc txt crc0 cptr0).1 = true →
        (findCrc txt crc0 cptr0).2.2 = pre.length ∧
        txt.take (findCrc txt crc0 cptr0).2.2 = pre ∧
        (findCrc txt crc0 cptr0).2.1 = (strtoul suf 0).1 % U16)) := by
  refine ⟨fun h => findCrcLoop_no_comma txt crc0 cptr0 _ h, ?_⟩
  intro pre suf htxt hsuf
  subst htxt
  rw [findCrc_eq_of_last_comma pre suf crc0 cptr0 hsuf]
  refine ⟨by simp [findCrcAtLastComma], ?_, ?_⟩
  · rintro (rfl | ⟨c, rest, rfl, hs, hm, hp, hd⟩)
    · simp [findCrcAtLastComma, strtoul_nil]
    · simp [findCrcAtLastComma, strtoul_no_conversion c rest hs hm hp hd]
  · intro _
    simp [findCrcAtLastComma]

/-- C10 on the texts `a,b,12345`, `noComma` and `a,1,x`. -/
theorem findCrc_last_comma_rule_witness :
    ((findCrc [97, 44, 98, 44, 49, 50, 51, 52, 53] 0 0).2.2 = 3 ∧
      List.take (findCrc [97, 44, 98, 44, 49, 50, 51, 52, 53] 0 0).2.2
        [97, 44, 98, 44, 49, 50, 51, 52, 53] = [97, 44, 98] ∧
      (findCrc [97, 44, 98, 44, 49, 50, 51, 52, 53] 0 0).2.1 = 12345) ∧
    (findCrc [110, 111, 67, 111, 109, 109, 97] 0 0).1 = false ∧
    (findCrc [97, 44, 49, 44, 120] 0 0).1 = false := by
  have h1 := (findCrc_last_comma_rule [97, 44, 98, 44, 49, 50, 51, 52, 53] 0 0).2
    [97, 44, 98] [49, 50, 51, 52, 53] (by decide) (by decide)
  have h2 := (findCrc_last_comma_rule [110, 111, 67, 111, 109, 109, 97] 0 0).1 (by decide)
  have h3 := ((findCrc_last_comma_rule [97, 44, 49, 44, 120] 0 0).2
    [97, 44, 49] [120] (by decide) (by decide)).2.1
    (Or.inr ⟨120, [], rfl, by decide, by decide, by decide, by unfold IsDecimalDigit; decide⟩)
  have ht := h1.1.mpr (by decide)
  have h4 := h1.2.2 ht
  exact ⟨⟨h4.1, h4.2.1, by rw [h4.2.2]; decide⟩, h2, h3⟩

/-! ## Buffer bound of readLine -/

theorem size_minus_one_le (size : Nat) (h : 1 ≤ size) : (size + U16 - 1) % U16 ≤ size - 1 := by
  have : size + U16 - 1 = (size - 1) + U16 := by omega
  rw [this, Nat.add_mod_right]
  exact Nat.mod_le _ _

theorem readLineOk_bound (size : Nat) (h : 1 ≤ size) (s : ReadLineState) (w : World)
    (hs : ReadLineBound size s) :
    (∀ i ∈ (readLineOk s.len s.buffer w).2.1.writes, i < size) ∧
      ((readLineOk s.len s.buffer w).1 = true →
        (readLineOk s.len s.buffer w).2.1 = s.buffer.write s.len NUL) := by
  refine ⟨?_, fun _ => rfl⟩
  intro i hi
  simp only [readLineOk, Buffer.write, List.mem_cons] at hi
  rcases hi with rfl | hi
  · have := hs.1
    omega
  · exact hs.2 i hi

theorem readLineByte_bound (clk : Clock) (size : Nat) (h : 1 ≤ size) (s : ReadLineState)
    (ch : Nat) (w : World) (hs : ReadLineBound size s) :
    match readLineByte clk size s ch w with
    | .inl s1 => ReadLineBound size s1
    | .inr r => (∀ i ∈ r.2.1.writes, i < size) ∧
        (r.1 = true → r.2.1 = s.buffer.write s.len NUL) := by
  have hcap := size_minus_one_le size h
  unfold readLineByte
  by_cases h1 : ch = CR
  · simp only [h1, if_true]
    exact hs
  · by_cases h2 : ch = LF
    · by_cases h3 : s.len > 0
      · simp only [h1, h2, h3, if_true, if_false]
        exact readLineOk_bound size h s w hs
      · simp only [h1, h2, h3, if_true, if_false]
        exact hs
    · by_cases h3 : s.len < (size + U16 - 1) % U16
      · simp only [h1, h2, h3, if_true, if_false]
        refine ⟨by simp only; omega, ?_⟩
        intro i hi
        simp only [Buffer.write, List.mem_cons] at hi
        rcases hi with rfl | hi
        · omega
        · exact hs.2 i hi
      · simp only [h1, h2, h3, if_false]
        exact hs

theorem readLineStep_bound (clk : Clock) (c : Conn) (size ts_max : Nat) (h : 1 ≤ size)
    (s : ReadLineState) (hs : ReadLineBound size s) :
    match readLineStep clk c size ts_max s with
    | .inl s1 => ReadLineBound size s1
    | .inr r => (∀ i ∈ r.2.1.writes, i < size) ∧
        (r.1 = true → r.2.1 = s.buffer.write s.len NUL) := by
  unfold readLineStep
  simp only
  by_cases h1 : (isTimedOut clk ts_max s.world).1 = true
  · simp only [h1, if_true]
    exact ⟨hs.2, by simp⟩
  · simp only [h1, if_false]
    by_cases h2 : (readLinePeek clk s (isTimedOut clk ts_max s.world).2).1 = true
    · simp only [h2, if_true]
      exact readLineOk_bound size h s _ hs
    · simp only [h2, if_false]
      cases hr : (read clk (readLinePeek clk s (isTimedOut clk ts_max s.world).2).2).1 with
      | none => exact hs
      | some ch => exact readLineByte_bound clk size h s ch _ hs

theorem readLineIter_bound (clk : Clock) (c : Conn) (size ts_max : Nat) (h : 1 ≤ size)
    (n : Nat) (s0 s : ReadLineState) (hs : ReadLineBound size s0)
    (hn : readLineIter clk c size ts_max n s0 = some s) : ReadLineBound size s := by
  induction n generalizing s0 with
  | zero =>
    simp only [readLineIter, Option.some.injEq] at hn
    exact hn ▸ hs
  | succ n ih =>
    simp only [readLineIter] at hn
    have hstep := readLineStep_bound clk c size ts_max h s0 hs
    cases hr : readLineStep clk c size ts_max s0 with
    | inl s1 =>
      rw [hr] at hn hstep
      exact ih s1 hstep hn
    | inr r =>
      rw [hr] at hn
      exact absurd hn (by simp)

theorem readLineLoop_bound (clk : Clock) (c : Conn) (size ts_max : Nat) (h : 1 ≤ size)
    (fuel : Nat) (s0 : ReadLineState) (r : Outcome) (hs : ReadLineBound size s0)
    (hr : readLineLoop clk c size ts_max fuel s0 = some r) :
    (∀ i ∈ r.2.1.writes, i < size) ∧
      (r.1 = true → ∃ n b, n ≤ size - 1 ∧ r.2.1 = Buffer.write b n NUL) := by
  induction fuel generalizing s0 with
  | zero => exact absurd hr (by simp [readLineLoop])
  | succ fuel ih =>
    simp only [readLineLoop] at hr
    have hstep := readLineStep_bound clk c size ts_max h s0 hs
    cases hq : readLineStep clk c size ts_max s0 with
    | inl s1 =>
      rw [hq] at hr hstep
      exact ih s1 hstep hr
    | inr r1 =>
      rw [hq] at hr hstep
      simp only [Option.some.injEq] at hr
      subst hr
      exact ⟨hstep.1, fun ht => ⟨s0.len, s0.buffer, hs.1, hstep.2 ht⟩⟩

/-- C9: for every capacity `size ≥ 1`, every input and every clock, `readLine`
stores only at buffer indices below `size`: at the start of every loop pass
the length is at most `size - 1` and all indices stored to are below `size`,
and when the call returns all indices stored to are below `size`; on success
the last store is the terminating NUL at an index of at most `size - 1`. -/
theorem readLine_buffer_bound (clk : Clock) (c : Conn) (size timeout : Nat) (cells : List Nat)
    (w : World) (h : 1 ≤ size) :
    (∀ n s, readLineIter clk c size (deadline clk timeout w) n
        (readLineInit clk ⟨cells, []⟩ w) = some s →
      s.len ≤ size - 1 ∧ ∀ i ∈ s.buffer.writes, i < size) ∧
    (∀ fuel r, readLine clk c fuel ⟨cells, []⟩ size timeout w = some r →
      (∀ i ∈ r.2.1.writes, i < size) ∧
      (r.1 = true → ∃ n b, n ≤ size - 1 ∧ r.2.1 = Buffer.write b n NUL)) := by
  have h0 : ReadLineBound size (readLineInit clk ⟨cells, []⟩ w) := by
    simp [ReadLineBound, readLineInit]
  exact ⟨fun n s hn => readLineIter_bound clk c size _ h n _ s h0 hn,
    fun fuel r hr => readLineLoop_bound clk c size _ h fuel _ r h0 hr⟩

/-- C9 at capacity 3 with the line `ABCD` and LF waiting on the stream: the
stores go to indices 0, 1 and 2. -/
theorem readLine_buffer_bound_witness :
    readLine (fun k => k) Conn.new 20 ⟨[255, 255, 255], []⟩ 3 1000
        ⟨0, [(0, 65), (0, 66), (0, 67), (0, 68), (0, 10)], [], []⟩ =
      some (true, ⟨[65, 66, 0], [2, 1, 0]⟩, ⟨11, [], [], []⟩) ∧
    ∀ i ∈ [2, 1, 0], i < 3 := by
  have hr : readLine (fun k => k) Conn.new 20 ⟨[255, 255, 255], []⟩ 3 1000
      ⟨0, [(0, 65), (0, 66), (0, 67), (0, 68), (0, 10)], [], []⟩ =
      some (true, ⟨[65, 66, 0], [2, 1, 0]⟩, ⟨11, [], [], []⟩) := by decide
  exact ⟨hr, ((readLine_buffer_bound (fun k => k) Conn.new 3 1000 [255, 255, 255]
    ⟨0, [(0, 65), (0, 66), (0, 67), (0, 68), (0, 10)], [], []⟩ (by decide)).2 20 _ hr).1⟩

/-! ## Verification of a stored line -/

theorem exists_last_comma (txt : List Nat) (h : COMMA ∈ txt) :
    ∃ pre suf, txt = pre ++ COMMA :: suf ∧ COMMA ∉ suf := by
  induction txt with
  | nil => exact absurd h (by simp)
  | cons x xs ih =>
    by_cases hx : COMMA ∈ xs
    · obtain ⟨pre, suf, hxs, hsuf⟩ := ih hx
      exact ⟨x :: pre, suf, by simp [hxs], hsuf⟩
    · have : x = COMMA := by
        rcases List.mem_cons.mp h with h1 | h1
        · exact h1.symm
        · exact absurd h1 hx
      exact ⟨[], xs, by simp [this], hx⟩

theorem takeWhile_set_nul (cells pre suf : List Nat)
    (h : cells.takeWhile (fun x => decide (x ≠ NUL)) = pre ++ COMMA :: suf) :
    (cells.set pre.length NUL).takeWhile (fun x => decide (x ≠ NUL)) = pre := by
  have hsplit := List.takeWhile_append_dropWhile (fun x => decide (x ≠ NUL)) cells
  rw [h] at hsplit
  have hpre : ∀ x ∈ pre, decide (x ≠ NUL) = true := by
    intro x hx
    have hmem : x ∈ cells.takeWhile (fun x => decide (x ≠ NUL)) := by
      rw [h]
      exact List.mem_append_left _ hx
    have h2 := List.mem_takeWhile_imp hmem
    simpa using h2
  rw [← hsplit]
  rw [show pre ++ COMMA :: suf ++ List.dropWhile (fun x => decide (x ≠ NUL)) cells =
    pre ++ (COMMA :: (suf ++ List.dropWhile (fun x => decide (x ≠ NUL)) cells)) by simp]
  rw [List.set_append_right _ _ (le_refl _)]
  simp only [Nat.sub_self, List.set_cons_zero]
  rw [List.takeWhile_append_of_pos hpre]
  simp [NUL]

theorem verifyLine_true (b : Buffer) (h : (verifyLine b).1 = true) :
    ∃ p suf, b.cstr = p ++ COMMA :: suf ∧ COMMA ∉ suf ∧ (strtoul suf 0).2 ≠ 0 ∧
      (strtoul suf 0).1 % U16 = crc16_xmodem p ∧
      (verifyLine b).2 = b.write p.length NUL ∧ (verifyLine b).2.cstr = p := by
  by_cases hf : (findCrc b.cstr 0 0).1 = true
  · have hc : COMMA ∈ b.cstr := by
      by_contra hn
      have := findCrcLoop_no_comma b.cstr 0 0 b.cstr.length hn
      unfold findCrc at hf
      rw [this] at hf
      exact absurd hf (by simp)
    obtain ⟨p, suf, htxt, hsuf⟩ := exists_last_comma _ hc
    have hfc := findCrc_eq_of_last_comma p suf 0 0 hsuf
    rw [← htxt] at hfc
    have hcs : (b.write p.length NUL).cstr = p := by
      unfold Buffer.cstr Buffer.write
      exact takeWhile_set_nul b.cells p suf htxt
    have hconv : (strtoul suf 0).2 ≠ 0 := by
      simpa [hfc, findCrcAtLastComma] using hf
    have hv : verifyLine b =
        (decide (crc16_xmodem p = (strtoul suf 0).1 % U16), b.write p.length NUL) := by
      unfold verifyLine
      simp only [hf, if_true]
      rw [hfc]
      simp only [findCrcAtLastComma, hcs]
    rw [hv] at h ⊢
    simp only [decide_eq_true_eq] at h
    exact ⟨p, suf, htxt, hsuf, hconv, h.symm, rfl, hcs⟩
  · unfold verifyLine at h
    simp only [hf] at h
    exact absurd h (by simp)

theorem receiveDataLoop_sound (clk : Clock) (c : Conn) (size ts_max inner fuel : Nat)
    (buffer : Buffer) (w : World) (r : Outcome)
    (hr : receiveDataLoop clk c size ts_max inner fuel buffer w = some r) (ht : r.1 = true) :
    ∃ b0 w0 b1, readLine clk c inner b0 size DEFAULT_TIMEOUT w0 = some (true, b1, r.2.2) ∧
      (verifyLine b1).1 = true ∧ (verifyLine b1).2 = r.2.1 := by
  induction fuel generalizing buffer w with
  | zero => exact absurd hr (by simp [receiveDataLoop])
  | succ fuel ih =>
    simp only [receiveDataLoop] at hr
    by_cases h1 : (isTimedOut clk ts_max w).1 = true
    · simp only [h1, if_true, Option.some.injEq] at hr
      subst hr
      exact absurd ht (by simp)
    · rw [if_neg h1] at hr
      cases hq : readLine clk c inner buffer size DEFAULT_TIMEOUT (isTimedOut clk ts_max w).2 with
      | none => simp [hq] at hr
      | some q =>
        obtain ⟨ok, b, w1⟩ := q
        cases ok with
        | false =>
          simp only [hq] at hr
          exact ih b w1 hr
        | true =>
          simp only [hq] at hr
          by_cases hv : (verifyLine b).1 = true
          · simp only [hv, if_true, Option.some.injEq] at hr
            subst hr
            exact ⟨buffer, _, b, hq, hv, rfl⟩
          · simp only [hv] at hr
            exact ih _ w1 hr

/-- C2: whenever `receiveData` returns true, its last call of `readLine`
succeeded with a line (the buffer read as a C string) of the form `p`, comma,
`suf` with no comma in `suf`, on which `strtoul` performed a conversion whose
value as a `uint16_t` equals `crc16_xmodem(p)`, and the buffer handed back holds
`p`: that line with the NUL stored over its last comma.  So no line without
a comma-delimited checksum, and no line whose checksum differs from the CRC of
its payload, is returned with true. -/
theorem receiveData_sound (clk : Clock) (c : Conn) (fuel size timeout : Nat) (buffer : Buffer)
    (w : World) (r : Outcome)
    (hr : receiveData clk c fuel buffer size timeout w = some r) (ht : r.1 = true) :
    ∃ b0 w0 b1 p suf,
      readLine clk c fuel b0 size DEFAULT_TIMEOUT w0 = some (true, b1, r.2.2) ∧
      b1.cstr = p ++ COMMA :: suf ∧ COMMA ∉ suf ∧ (strtoul suf 0).2 ≠ 0 ∧
      (strtoul suf 0).1 % U16 = crc16_xmodem p ∧
      r.2.1 = b1.write p.length NUL ∧ r.2.1.cstr = p := by
  obtain ⟨b0, w0, b1, hrl, hv, hb⟩ := receiveDataLoop_sound clk c size _ fuel fuel buffer _ r hr ht
  obtain ⟨p, suf, h1, h2, h3, h4, h5, h6⟩ := verifyLine_true b1 hv
  exact ⟨b0, w0, b1, p, suf, hrl, h1, h2, h3, h4, hb ▸ h5, hb ▸ h6⟩

/-- C2 on the frame `CMD=1,15478` and LF: the call returns true with `CMD=1`. -/
theorem receiveData_sound_witness :
    ∃ b0 w0 b1 p suf,
      readLine (fun k => k) Conn.new 40 b0 16 DEFAULT_TIMEOUT w0 =
        some (true, b1, ⟨27, [], [], []⟩) ∧
      b1.cstr = p ++ COMMA :: suf ∧ COMMA ∉ suf ∧ (strtoul suf 0).2 ≠ 0 ∧
      (strtoul suf 0).1 % U16 = crc16_xmodem p ∧
      (⟨[67, 77, 68, 61, 49, 0, 49, 53, 52, 55, 56, 0, 255, 255, 255, 255],
        [5, 11, 10, 9, 8, 7, 6, 5, 4, 3, 2, 1, 0]⟩ : Buffer) = b1.write p.length NUL ∧
      (⟨[67, 77, 68, 61, 49, 0, 49, 53, 52, 55, 56, 0, 255, 255, 255, 255],
        [5, 11, 10, 9, 8, 7, 6, 5, 4, 3, 2, 1, 0]⟩ : Buffer).cstr = p :=
  receiveData_sound (fun k => k) Conn.new 40 16 1000 ⟨List.replicate 16 255, []⟩
    ⟨0, [(0, 67), (0, 77), (0, 68), (0, 61), (0, 49), (0, 44), (0, 49), (0, 53), (0, 52),
      (0, 55), (0, 56), (0, 10)], [], []⟩
    (true, ⟨[67, 77, 68, 61, 49, 0, 49, 53, 52, 55, 56, 0, 255, 255, 255, 255],
        [5, 11, 10, 9, 8, 7, 6, 5, 4, 3, 2, 1, 0]⟩, ⟨27, [], [], []⟩)
    (by decide) rfl

/-! ## The environment calls, one at a time -/

theorem isTimedOut_eq (clk : Clock) (ts : Nat) (w : World) :
    isTimedOut clk ts w = (decide (expired clk ts w.ops), w.tick 1) := rfl

theorem millis_eq (clk : Clock) (w : World) : millis clk w = (clk w.ops % U32, w.tick 1) := rfl

theorem read_nil (clk : Clock) (w : World) (h : w.input = []) : read clk w = (none, w.tick 1) := by
  simp [read, h, World.tick]

theorem read_late (clk : Clock) (w : World) (a b : Nat) (rest : List (Nat × Nat))
    (h : w.input = (a, b) :: rest) (hl : clk w.ops < a) : read clk w = (none, w.tick 1) := by
  simp [read, h, World.tick, Nat.not_le.mpr hl]

theorem read_ready (clk : Clock) (w : World) (a b : Nat) (rest : List (Nat × Nat))
    (h : w.input = (a, b) :: rest) (hl : a ≤ clk w.ops) :
    read clk w = (some b, { w with ops := w.ops + 1, input := rest }) := by
  simp [read, h, hl]

theorem peek_nil (clk : Clock) (w : World) (h : w.input = []) : peek clk w = (none, w.tick 1) := by
  simp [peek, h, World.tick]

theorem peek_late (clk : Clock) (w : World) (a b : Nat) (rest : List (Nat × Nat))
    (h : w.input = (a, b) :: rest) (hl : clk w.ops < a) : peek clk w = (none, w.tick 1) := by
  simp [peek, h, World.tick, Nat.not_le.mpr hl]

theorem peek_ready (clk : Clock) (w : World) (a b : Nat) (rest : List (Nat × Nat))
    (h : w.input = (a, b) :: rest) (hl : a ≤ clk w.ops) : peek clk w = (some b, w.tick 1) := by
  simp [peek, h, hl, World.tick]

@[simp] theorem tick_ops (w : World) (n : Nat) : (w.tick n).ops = w.ops + n := rfl
@[simp] theorem tick_input (w : World) (n : Nat) : (w.tick n).input = w.input := rfl
@[simp] theorem tick_output (w : World) (n : Nat) : (w.tick n).output = w.output := rfl
@[simp] theorem tick_diag (w : World) (n : Nat) : (w.tick n).diag = w.diag := rfl
@[simp] theorem tick_tick (w : World) (n m : Nat) : (w.tick n).tick m = w.tick (n + m) := by
  simp [World.tick, Nat.add_assoc]

/-! ## The passes of the readLine loop, case by case -/

theorem readLineStep_expired (clk : Clock) (c : Conn) (size ts : Nat) (s : ReadLineState)
    (h : expired clk ts s.world.ops) :
    readLineStep clk c size ts s =
      .inr (false, s.buffer, diagPrintLn c timedOutLabel (s.world.tick 1)) := by
  simp [readLineStep, isTimedOut_eq, h]

theorem readLineStep_idle (clk : Clock) (c : Conn) (size ts : Nat) (s : ReadLineState)
    (hcr : s.seenCR = false) (h : ¬ expired clk ts s.world.ops)
    (hin : s.world.input = [] ∨
      ∃ a b rest, s.world.input = (a, b) :: rest ∧ clk (s.world.ops + 1) < a) :
    readLineStep clk c size ts s = .inl (s.withWorld (s.world.tick 2)) := by
  have hr : read clk (s.world.tick 1) = (none, s.world.tick 2) := by
    rcases hin with hin | ⟨a, b, rest, hin, hl⟩
    · simpa using read_nil clk (s.world.tick 1) (by simpa using hin)
    · simpa using read_late clk (s.world.tick 1) a b rest (by simpa using hin) (by simpa using hl)
  simp [readLineStep, isTimedOut_eq, h, readLinePeek, hcr, hr, ReadLineState.withWorld]

theorem readLineStep_byte (clk : Clock) (c : Conn) (size ts : Nat) (s : ReadLineState)
    (a b : Nat) (rest : List (Nat × Nat))
    (hcr : s.seenCR = false) (h : ¬ expired clk ts s.world.ops)
    (hin : s.world.input = (a, b) :: rest) (hl : a ≤ clk (s.world.ops + 1)) :
    readLineStep clk c size ts s =
      readLineByte clk size s b { s.world with ops := s.world.ops + 2, input := rest } := by
  have hr : read clk (s.world.tick 1) =
      (some b, { s.world with ops := s.world.ops + 2, input := rest }) := by
    simpa [World.tick] using
      read_ready clk (s.world.tick 1) a b rest (by simpa using hin) (by simpa using hl)
  simp [readLineStep, isTimedOut_eq, h, readLinePeek, hcr, hr]

theorem readLineByte_store (clk : Clock) (size : Nat) (s : ReadLineState) (b : Nat) (w : World)
    (h1 : b ≠ CR) (h2 : b ≠ LF) (h3 : s.len < (size + U16 - 1) % U16) :
    readLineByte clk size s b w =
      .inl { s with len := s.len + 1, seenCR := false, buffer := s.buffer.write s.len b,
                    world := w } := by
  simp [readLineByte, h1, h2, h3]

theorem readLineByte_drop (clk : Clock) (size : Nat) (s : ReadLineState) (b : Nat) (w : World)
    (h1 : b ≠ CR) (h2 : b ≠ LF) (h3 : ¬ s.len < (size + U16 - 1) % U16) :
    readLineByte clk size s b w = .inl { s with seenCR := false, world := w } := by
  simp [readLineByte, h1, h2, h3]

theorem readLineByte_lf (clk : Clock) (size : Nat) (s : ReadLineState) (w : World)
    (h : 0 < s.len) :
    readLineByte clk size s LF w = .inr (readLineOk s.len s.buffer w) := by
  simp [readLineByte, h, show LF ≠ CR by decide]

theorem readLineByte_lf_blank (clk : Clock) (size : Nat) (s : ReadLineState) (w : World)
    (h : s.len = 0) :
    readLineByte clk size s LF w = .inl { s with seenCR := false, world := w } := by
  simp [readLineByte, h, show LF ≠ CR by decide]

theorem readLineByte_cr (clk : Clock) (size : Nat) (s : ReadLineState) (w : World) :
    readLineByte clk size s CR w =
      .inl { s with seenCR := true, ts_waitLF := (clk w.ops % U32 + 50) % U32,
                    world := w.tick 1 } := by
  simp [readLineByte, millis_eq]

theorem readLineStep_cr_end (clk : Clock) (c : Conn) (size ts : Nat) (s : ReadLineState)
    (hcr : s.seenCR = true) (h : ¬ expired clk ts s.world.ops)
    (hin : s.world.input = [] ∨
      (∃ a b rest, s.world.input = (a, b) :: rest ∧ clk (s.world.ops + 1) < a) ∨
      (∃ a b rest, s.world.input = (a, b) :: rest ∧ b ≠ LF)) :
    readLineStep clk c size ts s = .inr (readLineOk s.len s.buffer (s.world.tick 2)) := by
  have hp : (peek clk (s.world.tick 1)).1 ≠ some LF ∧
      (peek clk (s.world.tick 1)).2 = s.world.tick 2 := by
    rcases hin with hin | ⟨a, b, rest, hin, hl⟩ | ⟨a, b, rest, hin, hb⟩
    · rw [peek_nil clk (s.world.tick 1) (by simpa using hin)]
      simp
    · rw [peek_late clk (s.world.tick 1) a b rest (by simpa using hin) (by simpa using hl)]
      simp
    · by_cases hl : a ≤ clk (s.world.ops + 1)
      · rw [peek_ready clk (s.world.tick 1) a b rest (by simpa using hin) (by simpa using hl)]
        simpa using hb
      · rw [peek_late clk (s.world.tick 1) a b rest (by simpa using hin) (by simpa using hl)]
        simp
  simp [readLineStep, isTimedOut_eq, h, readLinePeek, hcr, hp.1, hp.2]

theorem readLineStep_cr_lf_late (clk : Clock) (c : Conn) (size ts : Nat) (s : ReadLineState)
    (a : Nat) (rest : List (Nat × Nat))
    (hcr : s.seenCR = true) (h : ¬ expired clk ts s.world.ops)
    (hin : s.world.input = (a, LF) :: rest) (hl : a ≤ clk (s.world.ops + 1))
    (hw : expired clk s.ts_waitLF (s.world.ops + 2)) :
    readLineStep clk c size ts s = .inr (readLineOk s.len s.buffer (s.world.tick 3)) := by
  have hp := peek_ready clk (s.world.tick 1) a LF rest (by simpa using hin) (by simpa using hl)
  simp [readLineStep, isTimedOut_eq, h, readLinePeek, hcr, hp, hw]

theorem readLineStep_cr_lf (clk : Clock) (c : Conn) (size ts : Nat) (s : ReadLineState)
    (a : Nat) (rest : List (Nat × Nat))
    (hcr : s.seenCR = true) (h : ¬ expired clk ts s.world.ops)
    (hin : s.world.input = (a, LF) :: rest) (hl : a ≤ clk (s.world.ops + 1))
    (hl3 : a ≤ clk (s.world.ops + 3))
    (hw : ¬ expired clk s.ts_waitLF (s.world.ops + 2)) :
    readLineStep clk c size ts s =
      readLineByte clk size s LF { s.world with ops := s.world.ops + 4, input := rest } := by
  have hp := peek_ready clk (s.world.tick 1) a LF rest (by simpa using hin) (by simpa using hl)
  have hr : read clk (s.world.tick 3) =
      (some LF, { s.world with ops := s.world.ops + 4, input := rest }) := by
    simpa [World.tick] using
      read_ready clk (s.world.tick 3) a LF rest (by simpa using hin) (by simpa using hl3)
  simp [readLineStep, isTimedOut_eq, h, readLinePeek, hcr, hp, hw, hr]

/-! ## Running the readLine loop -/

theorem readLineIter_trans (clk : Clock) (c : Conn) (size ts : Nat) (n m : Nat)
    (s s1 s2 : ReadLineState) (h1 : readLineIter clk c size ts n s = some s1)
    (h2 : readLineIter clk c size ts m s1 = some s2) :
    readLineIter clk c size ts (n + m) s = some s2 := by
  induction n generalizing s with
  | zero =>
    simp only [readLineIter, Option.some.injEq] at h1
    subst h1
    simpa using h2
  | succ n ih =>
    rw [show n + 1 + m = (n + m) + 1 by omega]
    simp only [readLineIter] at h1 ⊢
    cases hq : readLineStep clk c size ts s with
    | inl s3 =>
      rw [hq] at h1
      exact ih s3 h1
    | inr r =>
      rw [hq] at h1
      exact absurd h1 (by simp)

theorem readLineLoop_of_iter (clk : Clock) (c : Conn) (size ts : Nat) (n f : Nat)
    (s s1 : ReadLineState) (h1 : readLineIter clk c size ts n s = some s1) :
    readLineLoop clk c size ts (n + f) s = readLineLoop clk c size ts f s1 := by
  induction n generalizing s with
  | zero =>
    simp only [readLineIter, Option.some.injEq] at h1
    subst h1
    simp
  | succ n ih =>
    rw [show n + 1 + f = (n + f) + 1 by omega]
    simp only [readLineIter] at h1
    simp only [readLineLoop]
    cases hq : readLineStep clk c size ts s with
    | inl s3 =>
      rw [hq] at h1
      exact ih s3 h1
    | inr r =>
      rw [hq] at h1
      exact absurd h1 (by simp)

theorem readLineLoop_of_iter_exit (clk : Clock) (c : Conn) (size ts : Nat) (n f : Nat)
    (s s1 : ReadLineState) (r : Outcome) (h1 : readLineIter clk c size ts n s = some s1)
    (h2 : readLineStep clk c size ts s1 = .inr r) :
    readLineLoop clk c size ts (n + (f + 1)) s = some r := by
  rw [readLineLoop_of_iter clk c size ts n (f + 1) s s1 h1]
  simp [readLineLoop, h2]

theorem readLineIter_one (clk : Clock) (c : Conn) (size ts : Nat) (s s1 : ReadLineState)
    (h : readLineStep clk c size ts s = .inl s1) :
    readLineIter clk c size ts 1 s = some s1 := by
  simp [readLineIter, h]

/-- Waiting for the next byte: the loop polls, two environment calls per
pass, until the byte at the head of the input has arrived. -/
theorem readLine_wait (clk : Clock) (hm : Monotone clk) (c : Conn) (size ts K B m : Nat)
    (a b : Nat) (rest : List (Nat × Nat)) (ha : a ≤ clk K) (n : Nat) (s : ReadLineState)
    (hn : K ≤ s.world.ops + n)
    (hcr : s.seenCR = false) (hin : s.world.input = (a, b) :: rest)
    (hnt : ∀ k, s.world.ops ≤ k → k ≤ B → ¬ expired clk ts k)
    (hB : Budget K B s.world.ops (m + 1)) :
    ∃ j, readLineIter clk c size ts j s = some (s.withWorld (s.world.tick (2 * j))) ∧
      a ≤ clk (s.world.ops + 2 * j + 1) ∧ Budget K B (s.world.ops + 2 * j) (m + 1) := by
  induction n generalizing s with
  | zero =>
    refine ⟨0, ?_, ?_, by simpa using hB⟩
    · simp [readLineIter, ReadLineState.withWorld, World.tick]
    · exact le_trans ha (hm (by omega))
  | succ n ih =>
    by_cases hl : a ≤ clk (s.world.ops + 1)
    · refine ⟨0, ?_, by simpa using hl, by simpa using hB⟩
      simp [readLineIter, ReadLineState.withWorld, World.tick]
    · have hlt : s.world.ops + 1 < K := by
        by_contra hge
        exact hl (le_trans ha (hm (by omega)))
      have hstep := readLineStep_idle clk c size ts s hcr
        (hnt _ le_rfl (by unfold Budget at hB; omega))
        (Or.inr ⟨a, b, rest, hin, by omega⟩)
      obtain ⟨j, hj, haj, hbj⟩ := ih (s.withWorld (s.world.tick 2))
        (by simp [ReadLineState.withWorld]; omega)
        (by simpa [ReadLineState.withWorld] using hcr)
        (by simpa [ReadLineState.withWorld] using hin)
        (fun k hk1 hk2 => hnt k (by simp [ReadLineState.withWorld] at hk1; omega) hk2)
        (by unfold Budget at hB ⊢; simp [ReadLineState.withWorld]; omega)
      refine ⟨1 + j, ?_, ?_, ?_⟩
      · have h1 := readLineIter_one clk c size ts s _ hstep
        have := readLineIter_trans clk c size ts 1 j s _ _ h1 hj
        rw [this]
        simp [ReadLineState.withWorld, Nat.mul_add]
      · simp [ReadLineState.withWorld] at haj
        rw [show s.world.ops + 2 * (1 + j) + 1 = s.world.ops + 2 + 2 * j + 1 by omega]
        exact haj
      · simp [ReadLineState.withWorld] at hbj
        rw [show s.world.ops + 2 * (1 + j) = s.world.ops + 2 + 2 * j by omega]
        exact hbj

/-- Reading the body of a line: the loop consumes the bytes of `body` (none
of them CR or LF), storing them as `storeBytes` says. -/
theorem readLine_body (clk : Clock) (hm : Monotone clk) (c : Conn) (size ts K B m : Nat)
    (rest : List (Nat × Nat)) (body : List (Nat × Nat)) (s : ReadLineState)
    (hcr : s.seenCR = false) (hin : s.world.input = body ++ rest)
    (hb : ∀ x ∈ body, x.1 ≤ clk K ∧ x.2 ≠ CR ∧ x.2 ≠ LF)
    (hnt : ∀ k, s.world.ops ≤ k → k ≤ B → ¬ expired clk ts k)
    (hB : Budget K B s.world.ops (body.length + m)) :
    ∃ n k, readLineIter clk c size ts n s = some
        { len := (storeBytes size (body.map Prod.snd) s.len s.buffer).1,
          seenCR := false, ts_waitLF := s.ts_waitLF,
          buffer := (storeBytes size (body.map Prod.snd) s.len s.buffer).2,
          world := { s.world with ops := k, input := rest } } ∧
      s.world.ops + 2 * n ≤ k ∧ Budget K B k m := by
  induction body generalizing s with
  | nil =>
    refine ⟨0, s.world.ops, ?_, by omega, by simpa using hB⟩
    obtain ⟨len, cr, tw, buf, w⟩ := s
    obtain ⟨k, inp, out, dg⟩ := w
    simp only at hcr hin
    subst hcr
    simp only [List.nil_append] at hin
    subst hin
    simp [readLineIter, storeBytes]
  | cons x body ih =>
    obtain ⟨a, b⟩ := x
    have hx := hb (a, b) (List.mem_cons_self _ _)
    have hB1 : Budget K B s.world.ops ((body.length + m) + 1) := by
      unfold Budget at hB ⊢
      simp only [List.length_cons] at hB
      omega
    obtain ⟨j, hj, haj, hbj⟩ := readLine_wait clk hm c size ts K B (body.length + m) a b
      (body ++ rest) hx.1 K s (by omega) hcr (by simpa using hin) hnt hB1
    have hstep := readLineStep_byte clk c size ts (s.withWorld (s.world.tick (2 * j))) a b
      (body ++ rest) hcr
      (hnt _ (Nat.le_add_right _ _) (by
        unfold Budget at hbj
        show s.world.ops + 2 * j ≤ B
        omega))
      (by simpa using hin) haj
    have hnt2 : ∀ (w2 : World), w2.ops = s.world.ops + 2 * j + 2 →
        ∀ k, w2.ops ≤ k → k ≤ B → ¬ expired clk ts k := by
      intro w2 hw2 k hk1 hk2
      exact hnt k (by omega) hk2
    have hB2 : Budget K B (s.world.ops + 2 * j + 2) (body.length + m) := by
      unfold Budget at hbj ⊢
      omega
    have hb2 : ∀ y ∈ body, y.1 ≤ clk K ∧ y.2 ≠ CR ∧ y.2 ≠ LF :=
      fun y hy => hb y (List.mem_cons_of_mem _ hy)
    by_cases hcap : s.len < (size + U16 - 1) % U16
    · rw [readLineByte_store clk size (s.withWorld (s.world.tick (2 * j))) b _
        hx.2.1 hx.2.2 hcap] at hstep
      obtain ⟨n, k, hn, hk, hbk⟩ := ih
        { len := s.len + 1, seenCR := false, ts_waitLF := s.ts_waitLF,
          buffer := s.buffer.write s.len b,
          world := { s.world with ops := s.world.ops + 2 * j + 2, input := body ++ rest } }
        rfl rfl hb2 (hnt2 _ rfl) hB2
      refine ⟨j + (1 + n), k, ?_, ?_, hbk⟩
      · have h1 := readLineIter_one clk c size ts _ _ hstep
        have h2 := readLineIter_trans clk c size ts 1 n _ _ _ h1 hn
        have h3 := readLineIter_trans clk c size ts j (1 + n) _ _ _ hj h2
        rw [h3]
        simp [storeBytes, hcap]
      · simp only at hk
        omega
    · rw [readLineByte_drop clk size (s.withWorld (s.world.tick (2 * j))) b _
        hx.2.1 hx.2.2 hcap] at hstep
      obtain ⟨n, k, hn, hk, hbk⟩ := ih
        { len := s.len, seenCR := false, ts_waitLF := s.ts_waitLF,
          buffer := s.buffer,
          world := { s.world with ops := s.world.ops + 2 * j + 2, input := body ++ rest } }
        rfl rfl hb2 (hnt2 _ rfl) hB2
      refine ⟨j + (1 + n), k, ?_, ?_, hbk⟩
      · have h1 := readLineIter_one clk c size ts _ _ hstep
        have h2 := readLineIter_trans clk c size ts 1 n _ _ _ h1 hn
        have h3 := readLineIter_trans clk c size ts j (1 + n) _ _ _ hj h2
        rw [h3]
        simp [storeBytes, hcap]
      · simp only at hk
        omega

/-- Reading a line that ends in LF: once the body is consumed and something
has been stored, the LF makes the loop leave through `ok`. -/
theorem readLine_line_lf (clk : Clock) (hm : Monotone clk) (c : Conn) (size ts K B m : Nat)
    (rest : List (Nat × Nat)) (body : List (Nat × Nat)) (a : Nat) (s : ReadLineState)
    (hcr : s.seenCR = false) (hin : s.world.input = body ++ (a, LF) :: rest)
    (hb : ∀ x ∈ body, x.1 ≤ clk K ∧ x.2 ≠ CR ∧ x.2 ≠ LF) (ha : a ≤ clk K)
    (hnt : ∀ k, s.world.ops ≤ k → k ≤ B → ¬ expired clk ts k)
    (hB : Budget K B s.world.ops (body.length + 1 + m))
    (hlen : 0 < (storeBytes size (body.map Prod.snd) s.len s.buffer).1) :
    ∃ n k, (∀ f, readLineLoop clk c size ts (n + (f + 1)) s = some
        (readLineOk (storeBytes size (body.map Prod.snd) s.len s.buffer).1
          (storeBytes size (body.map Prod.snd) s.len s.buffer).2
          { s.world with ops := k, input := rest })) ∧
      s.world.ops + 2 * n + 2 ≤ k ∧ Budget K B k m := by
  obtain ⟨n, k, hn, hk, hbk⟩ := readLine_body clk hm c size ts K B (m + 1) ((a, LF) :: rest) body s
    hcr hin hb hnt (by
      unfold Budget at hB ⊢
      omega)
  have hnt1 : ∀ k1, k ≤ k1 → k1 ≤ B → ¬ expired clk ts k1 :=
    fun k1 hk1 hk2 => hnt k1 (by omega) hk2
  obtain ⟨j, hj, haj, hbj⟩ := readLine_wait clk hm c size ts K B m a LF rest ha K
    { len := (storeBytes size (body.map Prod.snd) s.len s.buffer).1,
      seenCR := false, ts_waitLF := s.ts_waitLF,
      buffer := (storeBytes size (body.map Prod.snd) s.len s.buffer).2,
      world := { s.world with ops := k, input := (a, LF) :: rest } }
    (Nat.le_add_left _ _) rfl rfl hnt1 hbk
  have hbj1 : Budget K B (k + 2 * j) (m + 1) := hbj
  have hstep := readLineStep_byte clk c size ts
    (ReadLineState.withWorld
      { len := (storeBytes size (body.map Prod.snd) s.len s.buffer).1,
        seenCR := false, ts_waitLF := s.ts_waitLF,
        buffer := (storeBytes size (body.map Prod.snd) s.len s.buffer).2,
        world := { s.world with ops := k, input := (a, LF) :: rest } }
      (World.tick { s.world with ops := k, input := (a, LF) :: rest } (2 * j)))
    a LF rest rfl
    (hnt1 (k + 2 * j) (by omega) (by
      unfold Budget at hbj1
      omega))
    rfl haj
  rw [readLineByte_lf clk size _ _ hlen] at hstep
  refine ⟨n + j, k + 2 * j + 2, ?_, ?_, ?_⟩
  · intro f
    have h3 := readLineIter_trans clk c size ts n j _ _ _ hn hj
    rw [readLineLoop_of_iter_exit clk c size ts (n + j) f s _ _ h3 hstep]
    rfl
  · omega
  · unfold Budget at hbj1 ⊢
    omega

/-! ## Deadlines -/

theorem deadline_eq (clk : Clock) (t : Nat) (w : World) :
    deadline clk t w = (clk w.ops % U32 + t) % U32 := rfl

/-- Before the deadline: a call made less than `t` milliseconds after the
deadline was set does not see it expired. -/
theorem not_expired_of_lt (clk : Clock) (t k0 k : Nat) (ht : t ≤ 2147483648)
    (h1 : clk k0 ≤ clk k) (h2 : clk k < clk k0 + t) :
    ¬ expired clk ((clk k0 % U32 + t) % U32) k := by
  unfold expired U32
  omega

/-- After the deadline: a call made at least `t` and less than `t + 2^31`
milliseconds after the deadline was set sees it expired. -/
theorem expired_of_le (clk : Clock) (t k0 k : Nat)
    (h1 : clk k0 + t ≤ clk k) (h2 : clk k < clk k0 + t + 2147483648) :
    expired clk ((clk k0 % U32 + t) % U32) k := by
  unfold expired U32
  omega

/-- With a sane clock, polls made every second environment call from `k1` on
reach the deadline `t` milliseconds after call `k0`: there is a first poll
that sees it expired, and it happens no earlier than the deadline and less
than two clock steps after it. -/
theorem exists_first_expired (clk : Clock) (h : SaneClock clk) (t k0 k1 : Nat)
    (ht : t ≤ 2147483648) (hk : k0 ≤ k1) (hk1 : clk k1 < clk k0 + t + 2 * MAX_STEP) :
    ∃ i, (∀ j, j < i → ¬ expired clk ((clk k0 % U32 + t) % U32) (k1 + 2 * j)) ∧
      expired clk ((clk k0 % U32 + t) % U32) (k1 + 2 * i) ∧
      clk k0 + t ≤ clk (k1 + 2 * i) ∧ clk (k1 + 2 * i) < clk k0 + t + 2 * MAX_STEP := by
  have hex : ∃ i, clk k0 + t ≤ clk (k1 + 2 * i) := by
    obtain ⟨k, hk2⟩ := h.unbounded (clk k0 + t)
    exact ⟨k, le_trans hk2 (h.mono (by omega))⟩
  classical
  have hup : clk (k1 + 2 * Nat.find hex) < clk k0 + t + 2 * MAX_STEP := by
    rcases Nat.eq_zero_or_pos (Nat.find hex) with h0 | hpos
    · rw [h0]
      simpa using hk1
    · have hlt : ¬ (clk k0 + t ≤ clk (k1 + 2 * (Nat.find hex - 1))) :=
        Nat.find_min hex (by omega)
      have e : k1 + 2 * Nat.find hex = (k1 + 2 * (Nat.find hex - 1) + 1) + 1 := by omega
      have s1 := h.step (k1 + 2 * (Nat.find hex - 1))
      have s2 := h.step (k1 + 2 * (Nat.find hex - 1) + 1)
      rw [e]
      omega
  refine ⟨Nat.find hex, ?_, ?_, Nat.find_spec hex, hup⟩
  · intro j hj
    have hlt : ¬ (clk k0 + t ≤ clk (k1 + 2 * j)) := Nat.find_min hex hj
    exact not_expired_of_lt clk t k0 _ ht (h.mono (by omega)) (by omega)
  · apply expired_of_le clk t k0 _ (Nat.find_spec hex)
    simp only [MAX_STEP] at hup
    omega

/-- A pass of the loop with nothing stored, no CR pending and only LF bytes
(if any) left on the stream keeps things that way. -/
theorem readLineStep_blank (clk : Clock) (c : Conn) (size ts : Nat) (s : ReadLineState)
    (hlen : s.len = 0) (hcr : s.seenCR = false) (hin : ∀ x ∈ s.world.input, x.2 = LF)
    (h : ¬ expired clk ts s.world.ops) :
    ∃ s1, readLineStep clk c size ts s = .inl s1 ∧ s1.len = 0 ∧ s1.seenCR = false ∧
      (∀ x ∈ s1.world.input, x.2 = LF) ∧ s1.world.ops = s.world.ops + 2 ∧
      s1.buffer = s.buffer ∧ s1.world.output = s.world.output ∧
      s1.world.diag = s.world.diag := by
  cases hi : s.world.input with
  | nil =>
    exact ⟨_, readLineStep_idle clk c size ts s hcr h (Or.inl hi), hlen, hcr,
      by simp [ReadLineState.withWorld, hi], rfl, rfl, rfl, rfl⟩
  | cons x rest =>
    obtain ⟨a, b⟩ := x
    have hb : b = LF := hin (a, b) (by simp [hi])
    subst hb
    by_cases hl : a ≤ clk (s.world.ops + 1)
    · have hstep := readLineStep_byte clk c size ts s a LF rest hcr h hi hl
      rw [readLineByte_lf_blank clk size s _ hlen] at hstep
      refine ⟨_, hstep, hlen, rfl, ?_, rfl, rfl, rfl, rfl⟩
      intro x hx
      exact hin x (by simp only [hi]; exact List.mem_cons_of_mem _ hx)
    · refine ⟨_, readLineStep_idle clk c size ts s hcr h
        (Or.inr ⟨a, LF, rest, hi, by omega⟩), hlen, hcr, ?_, rfl, rfl, rfl, rfl⟩
      simpa [ReadLineState.withWorld] using hin

/-- The loop with nothing stored and nothing but LF bytes to come runs until
the first poll that sees the deadline expired, and returns false there. -/
theorem readLineLoop_blank (clk : Clock) (c : Conn) (size ts : Nat) (i : Nat)
    (s : ReadLineState) (hlen : s.len = 0) (hcr : s.seenCR = false)
    (hin : ∀ x ∈ s.world.input, x.2 = LF)
    (hne : ∀ j, j < i → ¬ expired clk ts (s.world.ops + 2 * j))
    (he : expired clk ts (s.world.ops + 2 * i)) :
    ∃ w1, (∀ f, readLineLoop clk c size ts (i + (f + 1)) s = some (false, s.buffer, w1)) ∧
      w1.ops = s.world.ops + 2 * i + 1 ∧ w1.output = s.world.output := by
  induction i generalizing s with
  | zero =>
    refine ⟨diagPrintLn c timedOutLabel (s.world.tick 1), ?_, ?_, ?_⟩
    · intro f
      have := readLineStep_expired clk c size ts s (by simpa using he)
      simp [readLineLoop, this]
    · unfold diagPrintLn
      split <;> simp
    · unfold diagPrintLn
      split <;> simp
  | succ i ih =>
    obtain ⟨s1, hstep, h1, h2, h3, h4, h5, h6, _⟩ :=
      readLineStep_blank clk c size ts s hlen hcr hin (by simpa using hne 0 (by omega))
    obtain ⟨w1, hw1, hops, hout⟩ := ih s1 h1 h2 h3
      (fun j hj => by
        have := hne (j + 1) (by omega)
        rw [h4]
        rwa [show s.world.ops + 2 * (j + 1) = s.world.ops + 2 + 2 * j by omega] at this)
      (by
        rw [h4]
        rwa [show s.world.ops + 2 * (i + 1) = s.world.ops + 2 + 2 * i by omega] at he)
    refine ⟨w1, ?_, by omega, by rw [hout, h6]⟩
    intro f
    rw [show i + 1 + (f + 1) = 1 + (i + (f + 1)) by omega]
    rw [readLineLoop_of_iter clk c size ts 1 _ s s1 (readLineIter_one clk c size ts s s1 hstep)]
    rw [hw1 f, h5]

/-- With nothing but LF bytes (if any) to come and a sane clock, `readLine`
returns false, no earlier than its deadline and less than four clock steps
after it, and leaves the buffer alone. -/
theorem readLine_blank_times_out (clk : Clock) (h : SaneClock clk) (c : Conn) (size t : Nat)
    (buf : Buffer) (w : World) (ht : t ≤ 2147483648) (hin : ∀ x ∈ w.input, x.2 = LF) :
    ∃ fuel0 w1, (∀ fuel, fuel0 ≤ fuel → readLine clk c fuel buf size t w = some (false, buf, w1)) ∧
      clk w.ops + t ≤ clk w1.ops ∧ clk w1.ops < clk w.ops + t + 3 * MAX_STEP ∧
      w.ops ≤ w1.ops ∧ w1.output = w.output := by
  obtain ⟨i, hne, he, hd, hu⟩ := exists_first_expired clk h t w.ops (w.ops + 1) ht (by omega)
    (by
      have := h.step w.ops
      simp only [MAX_STEP] at this ⊢
      omega)
  obtain ⟨w1, hw1, hops, hout⟩ := readLineLoop_blank clk c size (deadline clk t w) i
    (readLineInit clk buf w) rfl rfl hin hne he
  have hops1 : w1.ops = (w.ops + 1 + 2 * i) + 1 := hops
  refine ⟨i + 1, w1, ?_, ?_, ?_, by omega, hout⟩
  · intro fuel hf
    have := hw1 (fuel - (i + 1))
    rw [show i + (fuel - (i + 1) + 1) = fuel by omega] at this
    exact this
  · rw [hops1]
    exact le_trans hd (h.mono (by omega))
  · rw [hops1]
    have := h.step (w.ops + 1 + 2 * i)
    omega

/-! ## What the stores leave in the buffer -/

theorem storeBytes_fits (size : Nat) (bytes : List Nat) (len : Nat) (buf : Buffer)
    (h : len + bytes.length ≤ (size + U16 - 1) % U16) :
    storeBytes size bytes len buf = (len + bytes.length, buf.writeFrom len bytes) := by
  induction bytes generalizing len buf with
  | nil => simp [storeBytes, Buffer.writeFrom]
  | cons b bs ih =>
    simp only [List.length_cons] at h
    have hlt : len < (size + U16 - 1) % U16 := by omega
    simp only [storeBytes, hlt, if_true, Buffer.writeFrom, List.length_cons]
    rw [ih (len + 1) _ (by omega)]
    congr 1
    omega

theorem writeFrom_cells_aux (buf : Buffer) (pre old post bytes : List Nat)
    (hl : old.length = bytes.length) (h : buf.cells = pre ++ old ++ post) :
    (buf.writeFrom pre.length bytes).cells = pre ++ bytes ++ post := by
  induction bytes generalizing pre old buf with
  | nil =>
    have : old = [] := List.length_eq_zero.mp (by simpa using hl)
    subst this
    simpa [Buffer.writeFrom] using h
  | cons b bs ih =>
    cases old with
    | nil => simp at hl
    | cons o old =>
      rw [Buffer.writeFrom]
      have hw : (buf.write pre.length b).cells = (pre ++ [b]) ++ old ++ post := by
        simp only [Buffer.write, h, List.append_assoc]
        rw [List.set_append_right _ _ (le_refl _)]
        simp
      have := ih (buf.write pre.length b) (pre ++ [b]) old (by simpa using hl) hw
      simpa using this

theorem writeFrom_cells (buf : Buffer) (bytes : List Nat)
    (h : bytes.length ≤ buf.cells.length) :
    (buf.writeFrom 0 bytes).cells = bytes ++ buf.cells.drop bytes.length := by
  have := writeFrom_cells_aux buf [] (buf.cells.take bytes.length)
    (buf.cells.drop bytes.length) bytes (by simp; omega) (by simp)
  simpa using this

theorem writeFrom_write_eq (buf : Buffer) (i : Nat) (bytes : List Nat) (v : Nat) :
    (buf.writeFrom i bytes).write (i + bytes.length) v = buf.writeFrom i (bytes ++ [v]) := by
  induction bytes generalizing i buf with
  | nil => simp [Buffer.writeFrom]
  | cons b bs ih =>
    rw [List.cons_append, Buffer.writeFrom, Buffer.writeFrom, ← ih (buf.write i b) (i + 1)]
    congr 1
    simp only [List.length_cons]
    omega

theorem cstr_of_cells (buf : Buffer) (bytes rest : List Nat) (hb : ∀ x ∈ bytes, x ≠ NUL)
    (h : buf.cells = bytes ++ NUL :: rest) : buf.cstr = bytes := by
  unfold Buffer.cstr
  rw [h, List.takeWhile_append_of_pos (by simpa using hb)]
  simp

/-- The buffer after `readLine` has stored a line that fits: the line, its
NUL, and what the buffer held beyond. -/
theorem stored_line_cells (size : Nat) (bytes : List Nat) (buf : Buffer)
    (h1 : bytes.length + 1 ≤ size) (h2 : size ≤ buf.cells.length) (h3 : size < U16) :
    (storeBytes size bytes 0 buf).1 = bytes.length ∧
    ((storeBytes size bytes 0 buf).2.write (storeBytes size bytes 0 buf).1 NUL).cells =
      bytes ++ NUL :: buf.cells.drop (bytes.length + 1) := by
  have hcap : (size + U16 - 1) % U16 = size - 1 := by
    simp only [U16] at h3 ⊢
    omega
  rw [storeBytes_fits size bytes 0 buf (by omega)]
  simp only [Nat.zero_add, true_and]
  have := writeFrom_write_eq buf 0 bytes NUL
  simp only [Nat.zero_add] at this
  rw [this, writeFrom_cells buf (bytes ++ [NUL]) (by simp; omega)]
  simp

/-- The pass of the loop that follows a CR: the line ends there; an LF that
is already waiting is consumed with it unless the grace deadline has passed. -/
theorem readLineStep_after_cr (clk : Clock) (hm : Monotone clk) (c : Conn) (size ts : Nat)
    (s : ReadLineState) (hcr : s.seenCR = true) (hlen : 0 < s.len)
    (h : ¬ expired clk ts s.world.ops) :
    ∃ k inp, readLineStep clk c size ts s =
        .inr (readLineOk s.len s.buffer { s.world with ops := k, input := inp }) ∧
      (inp = s.world.input ∨ ∃ a, s.world.input = (a, LF) :: inp) ∧
      s.world.ops + 2 ≤ k ∧ k ≤ s.world.ops + 4 := by
  cases hi : s.world.input with
  | nil =>
    refine ⟨s.world.ops + 2, [], ?_, Or.inl rfl, by omega, by omega⟩
    rw [readLineStep_cr_end clk c size ts s hcr h (Or.inl hi)]
    simp [World.tick, hi]
  | cons x rest =>
    obtain ⟨a, b⟩ := x
    by_cases hb : b = LF
    · subst hb
      by_cases hl : a ≤ clk (s.world.ops + 1)
      · by_cases hw : expired clk s.ts_waitLF (s.world.ops + 2)
        · refine ⟨s.world.ops + 3, (a, LF) :: rest, ?_, Or.inl rfl, by omega, by omega⟩
          rw [readLineStep_cr_lf_late clk c size ts s a rest hcr h hi hl hw]
          simp [World.tick, hi]
        · refine ⟨s.world.ops + 4, rest, ?_, Or.inr ⟨a, rfl⟩, by omega, by omega⟩
          rw [readLineStep_cr_lf clk c size ts s a rest hcr h hi hl
            (le_trans hl (hm (by omega))) hw]
          rw [readLineByte_lf clk size s _ hlen]
      · refine ⟨s.world.ops + 2, (a, LF) :: rest, ?_, Or.inl rfl, by omega, by omega⟩
        rw [readLineStep_cr_end clk c size ts s hcr h
          (Or.inr (Or.inl ⟨a, LF, rest, hi, by omega⟩))]
        simp [World.tick, hi]
    · refine ⟨s.world.ops + 2, (a, b) :: rest, ?_, Or.inl rfl, by omega, by omega⟩
      rw [readLineStep_cr_end clk c size ts s hcr h (Or.inr (Or.inr ⟨a, b, rest, hi, hb⟩))]
      simp [World.tick, hi]

/-- Reading a line that ends in CR: once the body is consumed and something
has been stored, the CR ends the line; an LF that follows is either consumed
with it or left on the stream. -/
theorem readLine_line_cr (clk : Clock) (hm : Monotone clk) (c : Conn) (size ts K B m : Nat)
    (rest : List (Nat × Nat)) (body : List (Nat × Nat)) (a : Nat) (s : ReadLineState)
    (hcr : s.seenCR = false) (hin : s.world.input = body ++ (a, CR) :: rest)
    (hb : ∀ x ∈ body, x.1 ≤ clk K ∧ x.2 ≠ CR ∧ x.2 ≠ LF) (ha : a ≤ clk K)
    (hnt : ∀ k, s.world.ops ≤ k → k ≤ B → ¬ expired clk ts k)
    (hB : Budget K B s.world.ops (body.length + 4 + m))
    (hlen : 0 < (storeBytes size (body.map Prod.snd) s.len s.buffer).1) :
    ∃ n k inp, (∀ f, readLineLoop clk c size ts (n + (f + 1)) s = some
        (readLineOk (storeBytes size (body.map Prod.snd) s.len s.buffer).1
          (storeBytes size (body.map Prod.snd) s.len s.buffer).2
          { s.world with ops := k, input := inp })) ∧
      (inp = rest ∨ ∃ a2, rest = (a2, LF) :: inp) ∧
      s.world.ops ≤ k ∧ Budget K B k m := by
  obtain ⟨n, k, hn, hk, hbk⟩ := readLine_body clk hm c size ts K B (m + 3 + 1) ((a, CR) :: rest)
    body s hcr hin hb hnt (by
      unfold Budget at hB ⊢
      omega)
  have hnt1 : ∀ k1, k ≤ k1 → k1 ≤ B → ¬ expired clk ts k1 :=
    fun k1 hk1 hk2 => hnt k1 (by omega) hk2
  obtain ⟨j, hj, haj, hbj⟩ := readLine_wait clk hm c size ts K B (m + 3) a CR rest ha K
    { len := (storeBytes size (body.map Prod.snd) s.len s.buffer).1,
      seenCR := false, ts_waitLF := s.ts_waitLF,
      buffer := (storeBytes size (body.map Prod.snd) s.len s.buffer).2,
      world := { s.world with ops := k, input := (a, CR) :: rest } }
    (Nat.le_add_left _ _) rfl rfl hnt1 hbk
  have hbj1 : Budget K B (k + 2 * j) (m + 3 + 1) := hbj
  have hstep := readLineStep_byte clk c size ts
    (ReadLineState.withWorld
      { len := (storeBytes size (body.map Prod.snd) s.len s.buffer).1,
        seenCR := false, ts_waitLF := s.ts_waitLF,
        buffer := (storeBytes size (body.map Prod.snd) s.len s.buffer).2,
        world := { s.world with ops := k, input := (a, CR) :: rest } }
      (World.tick { s.world with ops := k, input := (a, CR) :: rest } (2 * j)))
    a CR rest rfl
    (hnt1 (k + 2 * j) (by omega) (by
      unfold Budget at hbj1
      omega))
    rfl haj
  rw [readLineByte_cr] at hstep
  have h1 := readLineIter_one clk c size ts _ _ hstep
  have h2 := readLineIter_trans clk c size ts j 1 _ _ _ hj h1
  have h3 := readLineIter_trans clk c size ts n (j + 1) _ _ _ hn h2
  obtain ⟨k2, inp, hfin, hinp, hk2a, hk2b⟩ := readLineStep_after_cr clk hm c size ts
    { len := (storeBytes size (body.map Prod.snd) s.len s.buffer).1,
      seenCR := true,
      ts_waitLF := (clk (k + 2 * j + 2) % U32 + 50) % U32,
      buffer := (storeBytes size (body.map Prod.snd) s.len s.buffer).2,
      world := { s.world with ops := k + 2 * j + 2 + 1, input := rest } }
    rfl hlen
    (hnt1 (k + 2 * j + 2 + 1) (by omega) (by
      unfold Budget at hbj1
      omega))
  refine ⟨n + (j + 1), k2, inp, ?_, hinp, ?_, ?_⟩
  · intro f
    exact readLineLoop_of_iter_exit clk c size ts (n + (j + 1)) f s _ _ h3 hfin
  · simp only at hk2a
    omega
  · unfold Budget at hbj1 ⊢
    simp only at hk2b
    omega

/-! ## Terminator equivalence -/

theorem not_expired_window (clk : Clock) (hm : Monotone clk) (t B : Nat) (w : World)
    (ht : t ≤ 2147483648) (hwin : clk B < clk w.ops + t) :
    ∀ k, w.ops + 1 ≤ k → k ≤ B → ¬ expired clk (deadline clk t w) k := by
  intro k hk1 hk2
  rw [deadline_eq]
  exact not_expired_of_lt clk t w.ops k ht (hm (by omega)) (lt_of_le_of_lt (hm hk2) hwin)

theorem pairs_of_map_snd (inp : List (Nat × Nat)) (body term : List Nat)
    (h : inp.map Prod.snd = body ++ term) :
    ∃ bp tp, inp = bp ++ tp ∧ bp.map Prod.snd = body ∧ tp.map Prod.snd = term := by
  refine ⟨inp.take body.length, inp.drop body.length, (List.take_append_drop _ _).symm, ?_, ?_⟩
  · rw [List.map_take, h, List.take_left' rfl]
  · rw [List.map_drop, h, List.drop_left' rfl]

/-- One successful `readLine` on `body` followed by a terminator, stated for
the three terminators at once. -/
theorem readLine_one_line (clk : Clock) (hm : Monotone clk) (c : Conn)
    (size t K : Nat) (body term : List Nat) (buf : Buffer) (w : World)
    (hterm : term = [CR, LF] ∨ term = [CR] ∨ term = [LF])
    (hne : body ≠ []) (hbody : ∀ b ∈ body, b ≠ CR ∧ b ≠ LF)
    (hfit : body.length ≤ size - 1) (hsize : size < U16) (hcells : size ≤ buf.cells.length)
    (ht : t ≤ U16)
    (hin : w.input.map Prod.snd = body ++ term)
    (harr : ∀ x ∈ w.input, x.1 ≤ clk K)
    (hwin : clk (max w.ops K + 2 * body.length + 9) < clk w.ops + t) :
    ∃ fuel0 buf1 w1,
      (∀ fuel, fuel0 ≤ fuel → readLine clk c fuel buf size t w = some (true, buf1, w1)) ∧
      buf1.cells = body ++ NUL :: buf.cells.drop (body.length + 1) ∧
      (∀ x ∈ w1.input, x.2 = LF) := by
  obtain ⟨bp, tp, hsplit, hbp, htp⟩ := pairs_of_map_snd w.input body term hin
  have hlenb : bp.length = body.length := by rw [← hbp, List.length_map]
  have hpos : 0 < body.length := List.length_pos.mpr hne
  have hst := stored_line_cells size body buf (by omega) hcells hsize
  have hb : ∀ x ∈ bp, x.1 ≤ clk K ∧ x.2 ≠ CR ∧ x.2 ≠ LF := by
    intro x hx
    refine ⟨harr x (by rw [hsplit]; exact List.mem_append_left _ hx), ?_⟩
    exact hbody x.2 (by rw [← hbp]; exact List.mem_map_of_mem _ hx)
  have hnt := not_expired_window clk hm t (max w.ops K + 2 * body.length + 9) w
    (by simp only [U16] at ht; omega) hwin
  have hlen0 : 0 < (storeBytes size (bp.map Prod.snd) 0 buf).1 := by
    rw [hbp, hst.1]
    exact hpos
  have hfin : ∀ n k inp,
      (∀ f, readLineLoop clk c size (deadline clk t w) (n + (f + 1)) (readLineInit clk buf w) =
        some (readLineOk (storeBytes size (bp.map Prod.snd) 0 buf).1
          (storeBytes size (bp.map Prod.snd) 0 buf).2
          { (readLineInit clk buf w).world with ops := k, input := inp })) →
      (∀ x ∈ inp, x.2 = LF) →
      ∃ fuel0 buf1 w1,
        (∀ fuel, fuel0 ≤ fuel → readLine clk c fuel buf size t w = some (true, buf1, w1)) ∧
        buf1.cells = body ++ NUL :: buf.cells.drop (body.length + 1) ∧
        (∀ x ∈ w1.input, x.2 = LF) := by
    intro n k inp hloop hinp
    refine ⟨n + 1, (storeBytes size (bp.map Prod.snd) 0 buf).2.write
      (storeBytes size (bp.map Prod.snd) 0 buf).1 NUL,
      { (readLineInit clk buf w).world with ops := k, input := inp }, ?_, ?_, hinp⟩
    · intro fuel hf
      have := hloop (fuel - (n + 1))
      rw [show n + (fuel - (n + 1) + 1) = fuel by omega] at this
      exact this
    · simp only [hbp]
      exact hst.2
  rcases hterm with h | h | h
  · -- CR LF
    subst h
    obtain ⟨a1, a2, rfl⟩ : ∃ a1 a2, tp = [(a1, CR), (a2, LF)] := by
      match tp, htp with
      | [(a1, b1), (a2, b2)], htp =>
        simp only [List.map_cons, List.map_nil, List.cons.injEq, and_true] at htp
        exact ⟨a1, a2, by rw [← htp.1, ← htp.2]⟩
    obtain ⟨n, k, inp, hloop, hinp, _, _⟩ := readLine_line_cr clk hm c size (deadline clk t w) K
      (max w.ops K + 2 * body.length + 9) 0 [(a2, LF)] bp a1 (readLineInit clk buf w) rfl hsplit hb
      (harr (a1, CR) (by rw [hsplit]; simp)) hnt
      (by
        unfold Budget
        show w.ops + 1 + 2 * (bp.length + 4 + 0) ≤ _ ∧ _
        omega)
      hlen0
    refine hfin n k inp hloop ?_
    rcases hinp with rfl | ⟨a3, h3⟩
    · simp
    · simp only [List.cons.injEq] at h3
      rw [← h3.2]
      simp
  · -- CR
    subst h
    obtain ⟨a1, rfl⟩ : ∃ a1, tp = [(a1, CR)] := by
      match tp, htp with
      | [(a1, b1)], htp =>
        simp only [List.map_cons, List.map_nil, List.cons.injEq, and_true] at htp
        exact ⟨a1, by rw [← htp]⟩
    obtain ⟨n, k, inp, hloop, hinp, _, _⟩ := readLine_line_cr clk hm c size (deadline clk t w) K
      (max w.ops K + 2 * body.length + 9) 0 [] bp a1 (readLineInit clk buf w) rfl hsplit hb
      (harr (a1, CR) (by rw [hsplit]; simp)) hnt
      (by
        unfold Budget
        show w.ops + 1 + 2 * (bp.length + 4 + 0) ≤ _ ∧ _
        omega)
      hlen0
    refine hfin n k inp hloop ?_
    rcases hinp with rfl | ⟨a3, h3⟩
    · simp
    · simp at h3
  · -- LF
    subst h
    obtain ⟨a1, rfl⟩ : ∃ a1, tp = [(a1, LF)] := by
      match tp, htp with
      | [(a1, b1)], htp =>
        simp only [List.map_cons, List.map_nil, List.cons.injEq, and_true] at htp
        exact ⟨a1, by rw [← htp]⟩
    obtain ⟨n, k, hloop, _, _⟩ := readLine_line_lf clk hm c size (deadline clk t w) K
      (max w.ops K + 2 * body.length + 9) 0 [] bp a1 (readLineInit clk buf w) rfl hsplit hb
      (harr (a1, LF) (by rw [hsplit]; simp)) hnt
      (by
        unfold Budget
        show w.ops + 1 + 2 * (bp.length + 1 + 0) ≤ _ ∧ _
        omega)
      hlen0
    exact hfin n k [] hloop (by simp)

theorem saneClock_id : SaneClock (fun k => k) :=
  ⟨fun _ _ h => h, fun t => ⟨t, le_rfl⟩, fun k => by simp [MAX_STEP]⟩

/-- C3: for a non-empty `body` without CR or LF that fits (`len(body) ≤ size - 1`),
followed on the stream by CR LF, by CR or by LF, the bytes having arrived by
some environment call `K` with the deadline still ahead once `readLine` has had
its calls to consume them: `readLine` returns true and the buffer holds exactly
`body` and its NUL (so read as a C string it is `body` when `body` has no NUL),
and a second `readLine` on what is left of the stream returns false, leaving
the buffer as it is: the line comes out once, with no empty line before or
after it. -/
theorem readLine_terminator_equivalence (clk : Clock) (hclk : SaneClock clk) (c : Conn)
    (size t t2 K : Nat) (body term : List Nat) (buf : Buffer) (w : World)
    (hterm : term = [CR, LF] ∨ term = [CR] ∨ term = [LF])
    (hne : body ≠ []) (hbody : ∀ b ∈ body, b ≠ CR ∧ b ≠ LF)
    (hfit : body.length ≤ size - 1) (hsize : size < U16) (hcells : size ≤ buf.cells.length)
    (ht : t ≤ U16) (ht2 : t2 ≤ U16)
    (hin : w.input.map Prod.snd = body ++ term)
    (harr : ∀ x ∈ w.input, x.1 ≤ clk K)
    (hwin : clk (max w.ops K + 2 * body.length + 9) < clk w.ops + t) :
    ∃ fuel0 buf1 w1,
      (∀ fuel, fuel0 ≤ fuel → readLine clk c fuel buf size t w = some (true, buf1, w1)) ∧
      buf1.cells = body ++ NUL :: buf.cells.drop (body.length + 1) ∧
      ((∀ b ∈ body, b ≠ NUL) → buf1.cstr = body) ∧
      ∃ fuel1 w2, ∀ fuel, fuel1 ≤ fuel →
        readLine clk c fuel buf1 size t2 w1 = some (false, buf1, w2) := by
  obtain ⟨fuel0, buf1, w1, h1, h2, h3⟩ := readLine_one_line clk hclk.mono c size t K body term
    buf w hterm hne hbody hfit hsize hcells ht hin harr hwin
  obtain ⟨fuel1, w2, h4, _⟩ := readLine_blank_times_out clk hclk c size t2 buf1 w1
    (by simp only [U16] at ht2; omega) h3
  exact ⟨fuel0, buf1, w1, h1, h2, fun hb => cstr_of_cells buf1 body _ hb h2, fuel1, w2, h4⟩

/-- C3 on `AB` followed by CR LF, by CR and by LF, all bytes waiting, with a
clock that advances one millisecond per environment call. -/
theorem readLine_terminator_equivalence_witness :
    (∃ fuel0 buf1 w1,
      (∀ fuel, fuel0 ≤ fuel → readLine (fun k => k) Conn.new fuel ⟨List.replicate 8 255, []⟩
        8 1000 ⟨0, [(0, 65), (0, 66), (0, 13), (0, 10)], [], []⟩ = some (true, buf1, w1)) ∧
      buf1.cells = [65, 66] ++ NUL :: (List.replicate 8 255).drop 3 ∧
      ((∀ b ∈ [65, 66], b ≠ NUL) → buf1.cstr = [65, 66]) ∧
      ∃ fuel1 w2, ∀ fuel, fuel1 ≤ fuel →
        readLine (fun k => k) Conn.new fuel buf1 8 1000 w1 = some (false, buf1, w2)) ∧
    (∃ fuel0 buf1 w1,
      (∀ fuel, fuel0 ≤ fuel → readLine (fun k => k) Conn.new fuel ⟨List.replicate 8 255, []⟩
        8 1000 ⟨0, [(0, 65), (0, 66), (0, 13)], [], []⟩ = some (true, buf1, w1)) ∧
      buf1.cells = [65, 66] ++ NUL :: (List.replicate 8 255).drop 3 ∧
      ((∀ b ∈ [65, 66], b ≠ NUL) → buf1.cstr = [65, 66]) ∧
      ∃ fuel1 w2, ∀ fuel, fuel1 ≤ fuel →
        readLine (fun k => k) Conn.new fuel buf1 8 1000 w1 = some (false, buf1, w2)) ∧
    (∃ fuel0 buf1 w1,
      (∀ fuel, fuel0 ≤ fuel → readLine (fun k => k) Conn.new fuel ⟨List.replicate 8 255, []⟩
        8 1000 ⟨0, [(0, 65), (0, 66), (0, 10)], [], []⟩ = some (true, buf1, w1)) ∧
      buf1.cells = [65, 66] ++ NUL :: (List.replicate 8 255).drop 3 ∧
      ((∀ b ∈ [65, 66], b ≠ NUL) → buf1.cstr = [65, 66]) ∧
      ∃ fuel1 w2, ∀ fuel, fuel1 ≤ fuel →
        readLine (fun k => k) Conn.new fuel buf1 8 1000 w1 = some (false, buf1, w2)) :=
  ⟨readLine_terminator_equivalence (fun k => k) saneClock_id Conn.new 8 1000 1000 0 [65, 66]
      [CR, LF] ⟨List.replicate 8 255, []⟩ ⟨0, [(0, 65), (0, 66), (0, 13), (0, 10)], [], []⟩
      (Or.inl rfl) (by decide) (by decide) (by decide) (by decide) (by decide) (by decide)
      (by decide) (by decide) (by decide) (by decide),
    readLine_terminator_equivalence (fun k => k) saneClock_id Conn.new 8 1000 1000 0 [65, 66]
      [CR] ⟨List.replicate 8 255, []⟩ ⟨0, [(0, 65), (0, 66), (0, 13)], [], []⟩
      (Or.inr (Or.inl rfl)) (by decide) (by decide) (by decide) (by decide) (by decide)
      (by decide) (by decide) (by decide) (by decide) (by decide),
    readLine_terminator_equivalence (fun k => k) saneClock_id Conn.new 8 1000 1000 0 [65, 66]
      [LF] ⟨List.replicate 8 255, []⟩ ⟨0, [(0, 65), (0, 66), (0, 10)], [], []⟩
      (Or.inr (Or.inr rfl)) (by decide) (by decide) (by decide) (by decide) (by decide)
      (by decide) (by decide) (by decide) (by decide) (by decide)⟩

/-! ## Round trip -/

theorem strtoulDigits_decimal (ds : List Nat) (acc k : Nat) (h : ∀ d ∈ ds, IsDecimalDigit d) :
    strtoulDigits 10 ds acc k = (decimalValue acc ds, k + ds.length) := by
  induction ds generalizing acc k with
  | nil => simp [strtoulDigits, decimalValue]
  | cons d ds ih =>
    have hd : 48 ≤ d ∧ d ≤ 57 := h d (List.mem_cons_self _ _)
    have hlt : d - 48 < 10 := by omega
    simp only [strtoulDigits, digitVal, hd, and_self, if_true, hlt]
    rw [ih _ _ (fun x hx => h x (List.mem_cons_of_mem _ hx))]
    simp only [decimalValue, List.foldl_cons, List.length_cons, Prod.mk.injEq]
    constructor
    · congr 1
      omega
    · omega

theorem strtoul_printUnsigned (n : Nat) (h : n < U16) :
    strtoul (printUnsigned n) 0 = (n, (printUnsigned n).length) := by
  rcases Nat.eq_zero_or_pos n with h0 | hpos
  · subst h0
    decide
  · obtain ⟨d, rest, hD, hd1, hd2⟩ := printUnsigned_head n hpos h
    have hdig := printUnsigned_digits n
    have hval := printUnsigned_value n h
    have hsp : isspace d = false := by
      unfold isspace
      simp
      omega
    have hparse := strtoulDigits_decimal (printUnsigned n) 0 0 hdig
    rw [hval] at hparse
    rw [hD] at hparse ⊢
    have h45 : d ≠ 45 := by omega
    have h43 : d ≠ 43 := by omega
    have h48 : d ≠ 48 := by omega
    have hhex : hasHexPrefix (d :: rest) = false := by
      unfold hasHexPrefix
      split
      · rename_i heq
        simp only [List.cons.injEq] at heq
        omega
      · rfl
    have hn32 : ¬ U32 ≤ n := by
      simp only [U16, U32] at h ⊢
      omega
    simp [strtoul, List.takeWhile_cons, hsp, h45, h43, h48, hhex, hparse, hn32]

theorem verifyLine_accepts (b : Buffer) (p suf : List Nat) (htxt : b.cstr = p ++ COMMA :: suf)
    (hsuf : COMMA ∉ suf) (hconv : (strtoul suf 0).2 ≠ 0)
    (hcrc : (strtoul suf 0).1 % U16 = crc16_xmodem p) :
    verifyLine b = (true, b.write p.length NUL) ∧ (b.write p.length NUL).cstr = p := by
  have hfc := findCrc_eq_of_last_comma p suf 0 0 hsuf
  rw [← htxt] at hfc
  have hcs : (b.write p.length NUL).cstr = p := by
    unfold Buffer.cstr Buffer.write
    exact takeWhile_set_nul b.cells p suf htxt
  refine ⟨?_, hcs⟩
  unfold verifyLine
  simp only [hfc, findCrcAtLastComma, hconv, ne_eq, not_false_eq_true, decide_True, if_true, hcs,
    hcrc]

/-- A frame as `sendData` writes it with LF as terminator is accepted by the
checks of `receiveData`. -/
theorem verifyLine_frame (b : Buffer) (p : List Nat) (rest : List Nat)
    (hcells : b.cells = (p ++ COMMA :: printUnsigned (crc16_xmodem p)) ++ NUL :: rest)
    (hp : ∀ x ∈ p, x ≠ NUL) :
    verifyLine b = (true, b.write p.length NUL) ∧ (b.write p.length NUL).cstr = p := by
  have hdig := printUnsigned_digits (crc16_xmodem p)
  have hst := strtoul_printUnsigned (crc16_xmodem p) (crc16_xmodem_lt p)
  have hlen := (printUnsigned_length (crc16_xmodem p) (crc16_xmodem_lt p)).1
  have hnn : ∀ x ∈ p ++ COMMA :: printUnsigned (crc16_xmodem p), x ≠ NUL := by
    intro x hx
    rcases List.mem_append.mp hx with h1 | h1
    · exact hp x h1
    · rcases List.mem_cons.mp h1 with h2 | h2
      · rw [h2]
        decide
      · have := hdig x h2
        unfold IsDecimalDigit at this
        simp only [NUL]
        omega
  have hcstr := cstr_of_cells b _ rest hnn hcells
  apply verifyLine_accepts b p (printUnsigned (crc16_xmodem p)) hcstr
  · intro hmem
    have := hdig COMMA hmem
    unfold IsDecimalDigit COMMA at this
    omega
  · rw [hst]
    simp only
    omega
  · rw [hst]
    exact Nat.mod_eq_of_lt (crc16_xmodem_lt p)

/-! ## The passes of the receiveData loop -/

theorem receiveDataLoop_expired (clk : Clock) (c : Conn) (size ts inner fuel : Nat)
    (buf : Buffer) (w : World) (h : expired clk ts w.ops) :
    receiveDataLoop clk c size ts inner (fuel + 1) buf w = some (false, buf, w.tick 1) := by
  simp [receiveDataLoop, isTimedOut_eq, h]

theorem receiveDataLoop_accept (clk : Clock) (c : Conn) (size ts inner fuel : Nat)
    (buf b1 b2 : Buffer) (w w1 : World) (h : ¬ expired clk ts w.ops)
    (hr : readLine clk c inner buf size DEFAULT_TIMEOUT (w.tick 1) = some (true, b1, w1))
    (hv : verifyLine b1 = (true, b2)) :
    receiveDataLoop clk c size ts inner (fuel + 1) buf w = some (true, b2, w1) := by
  simp [receiveDataLoop, isTimedOut_eq, h, hr, hv]

theorem receiveDataLoop_reject (clk : Clock) (c : Conn) (size ts inner fuel : Nat)
    (buf b1 : Buffer) (w w1 : World) (h : ¬ expired clk ts w.ops)
    (hr : readLine clk c inner buf size DEFAULT_TIMEOUT (w.tick 1) = some (true, b1, w1))
    (hv : (verifyLine b1).1 = false) :
    receiveDataLoop clk c size ts inner (fuel + 1) buf w =
      receiveDataLoop clk c size ts inner fuel (verifyLine b1).2 w1 := by
  simp [receiveDataLoop, isTimedOut_eq, h, hr, hv]

theorem receiveDataLoop_no_line (clk : Clock) (c : Conn) (size ts inner fuel : Nat)
    (buf b1 : Buffer) (w w1 : World) (h : ¬ expired clk ts w.ops)
    (hr : readLine clk c inner buf size DEFAULT_TIMEOUT (w.tick 1) = some (false, b1, w1)) :
    receiveDataLoop clk c size ts inner (fuel + 1) buf w =
      receiveDataLoop clk c size ts inner fuel b1 w1 := by
  simp [receiveDataLoop, isTimedOut_eq, h, hr]

/-- C1, counterexample: the bytes that `sendData` writes for `CMD=1` with the
default terminator are all waiting, the capacity 16 is enough and the timeout
is 1 > 0, but the clock advances one millisecond per environment call: the
first check of the deadline, one call after the `millis()` that set it, finds
it expired, and `receiveData` returns false without reading a byte. -/
theorem receiveData_round_trip_needs_time :
    (sendData Conn.new [67, 77, 68, 61, 49] ⟨0, [], [], []⟩).output =
      [67, 77, 68, 61, 49, 44, 49, 53, 52, 55, 56, 10] ∧
    5 + 1 + (printUnsigned (crc16_xmodem [67, 77, 68, 61, 49])).length ≤ 16 - 1 ∧
    receiveData (fun k => k) Conn.new 30 ⟨List.replicate 16 255, []⟩ 16 1
        ⟨0, [(0, 67), (0, 77), (0, 68), (0, 61), (0, 49), (0, 44), (0, 49), (0, 53), (0, 52),
          (0, 55), (0, 56), (0, 10)], [], []⟩ =
      some (false, ⟨List.replicate 16 255, []⟩,
        ⟨2, [(0, 67), (0, 77), (0, 68), (0, 61), (0, 49), (0, 44), (0, 49), (0, 53), (0, 52),
          (0, 55), (0, 56), (0, 10)], [], []⟩) :=
  ⟨by decide, by decide, by decide⟩

/-- C1, amended: the bytes that `sendData(p)` writes with the default
terminator, all waiting on the stream, are received back as `p`: for a payload
without comma, CR, LF or NUL, a capacity with `len(p) + 1 + digits ≤ size - 1`,
and a clock that has advanced by less than `min(timeout, 1000)` milliseconds
when `receiveData` has made two environment calls per byte of the line and
eleven more (so it stays before both the deadline of `receiveData` and that of
its `readLine` while the bytes are consumed), `receiveData` returns true and
the buffer, read as a C string, is `p`. -/
theorem sendData_receiveData_round_trip (clk : Clock) (hm : Monotone clk) (cs c : Conn)
    (size t : Nat) (p : List Nat) (buf : Buffer) (w : World)
    (heol : cs.eol = LF)
    (hp : ∀ b ∈ p, b ≠ COMMA ∧ b ≠ CR ∧ b ≠ LF ∧ b ≠ NUL)
    (hfit : p.length + 1 + (printUnsigned (crc16_xmodem p)).length ≤ size - 1)
    (hsize : size < U16) (hcells : size ≤ buf.cells.length) (ht : t < U16)
    (hin : w.input.map Prod.snd = (sendData cs p ⟨0, [], [], []⟩).output)
    (harr : ∀ x ∈ w.input, x.1 ≤ clk w.ops)
    (hwin : clk (w.ops + 2 * (p.length + 1 + (printUnsigned (crc16_xmodem p)).length) + 11) <
      clk w.ops + min t DEFAULT_TIMEOUT) :
    ∃ fuel0 buf1 w1,
      (∀ fuel, fuel0 ≤ fuel → receiveData clk c fuel buf size t w = some (true, buf1, w1)) ∧
      buf1.cstr = p := by
  have hdig := printUnsigned_digits (crc16_xmodem p)
  have hwire := (sendData_wire_format cs p ⟨0, [], [], []⟩ (fun b hb => (hp b hb).2.2.2)).1
  rw [heol] at hwire
  simp only [List.nil_append] at hwire
  rw [hwire] at hin
  have hin2 : w.input.map Prod.snd = (p ++ COMMA :: printUnsigned (crc16_xmodem p)) ++ [LF] := by
    rw [hin]
    simp
  have hbody : ∀ b ∈ p ++ COMMA :: printUnsigned (crc16_xmodem p), b ≠ CR ∧ b ≠ LF := by
    intro x hx
    rcases List.mem_append.mp hx with h1 | h1
    · exact ⟨(hp x h1).2.1, (hp x h1).2.2.1⟩
    · rcases List.mem_cons.mp h1 with h2 | h2
      · rw [h2]
        decide
      · have := hdig x h2
        unfold IsDecimalDigit at this
        simp only [CR, LF]
        omega
  have hlenb : (p ++ COMMA :: printUnsigned (crc16_xmodem p)).length =
      p.length + 1 + (printUnsigned (crc16_xmodem p)).length := by
    simp
    omega
  have hmin1 : min t DEFAULT_TIMEOUT ≤ t := Nat.min_le_left _ _
  have hmin2 : min t DEFAULT_TIMEOUT ≤ DEFAULT_TIMEOUT := Nat.min_le_right _ _
  obtain ⟨fuel0, b1, w1, hrl, hcells1, _⟩ := readLine_one_line clk hm c size DEFAULT_TIMEOUT w.ops
    (p ++ COMMA :: printUnsigned (crc16_xmodem p)) [LF] buf (w.tick 2)
    (Or.inr (Or.inr rfl)) (by simp) hbody (by omega) hsize hcells (by decide)
    (by simpa using hin2) (by simpa using harr)
    (by
      rw [hlenb]
      have e : max (w.tick 2).ops w.ops = w.ops + 2 := by simp
      rw [e]
      have h2 : clk w.ops ≤ clk (w.tick 2).ops := hm (by simp)
      rw [show w.ops + 2 + 2 * (p.length + 1 + (printUnsigned (crc16_xmodem p)).length) + 9 =
        w.ops + 2 * (p.length + 1 + (printUnsigned (crc16_xmodem p)).length) + 11 by omega]
      omega)
  obtain ⟨hv, hcs⟩ := verifyLine_frame b1 p _ hcells1 (fun x hx => (hp x hx).2.2.2)
  have hne : ¬ expired clk (deadline clk t w) (w.tick 1).ops := by
    rw [deadline_eq]
    apply not_expired_of_lt clk t w.ops _ (by simp only [U16] at ht; omega) (hm (by simp))
    have : clk (w.tick 1).ops ≤
        clk (w.ops + 2 * (p.length + 1 + (printUnsigned (crc16_xmodem p)).length) + 11) :=
      hm (by simp; omega)
    omega
  refine ⟨fuel0 + 1, b1.write p.length NUL, w1, ?_, hcs⟩
  intro fuel hf
  unfold receiveData
  obtain ⟨f, rfl⟩ : ∃ f, fuel = f + 1 := ⟨fuel - 1, by omega⟩
  exact receiveDataLoop_accept clk c size _ (f + 1) f buf b1 _ (w.tick 1) w1 hne
    (by simpa using hrl (f + 1) (by omega)) hv

/-- C1, amended, on the payload `CMD=1` with timeout 100 and a clock that
advances one millisecond per environment call. -/
theorem sendData_receiveData_round_trip_witness :
    ∃ fuel0 buf1 w1,
      (∀ fuel, fuel0 ≤ fuel →
        receiveData (fun k => k) Conn.new fuel ⟨List.replicate 16 255, []⟩ 16 100
          ⟨0, [(0, 67), (0, 77), (0, 68), (0, 61), (0, 49), (0, 44), (0, 49), (0, 53), (0, 52),
            (0, 55), (0, 56), (0, 10)], [], []⟩ = some (true, buf1, w1)) ∧
      buf1.cstr = [67, 77, 68, 61, 49] :=
  sendData_receiveData_round_trip (fun k => k) (fun _ _ h => h) Conn.new Conn.new 16 100
    [67, 77, 68, 61, 49] ⟨List.replicate 16 255, []⟩
    ⟨0, [(0, 67), (0, 77), (0, 68), (0, 61), (0, 49), (0, 44), (0, 49), (0, 53), (0, 52),
      (0, 55), (0, 56), (0, 10)], [], []⟩
    rfl (by decide) (by decide) (by decide) (by decide) (by decide) (by decide) (by decide)
    (by decide)

/-! ## The inner deadline of receiveData -/

/-- C6 at the failing input: no byte ever arrives, the clock advances four
milliseconds per environment call, and the timeout is 200.  `receiveData`
returns false only after 255 environment calls, the last of which reads the
clock at 1016 ms: its `readLine` runs on its own default deadline of 1000 ms.
`waitUntilAvailable` with the same timeout returns after 52 calls, the last
of which reads the clock at 204 ms. -/
theorem receiveData_idle_overshoot :
    receiveData (fun k => 4 * k) Conn.new 300 ⟨List.replicate 16 255, []⟩ 16 200
        ⟨0, [], [], []⟩ =
      some (false, ⟨List.replicate 16 255, []⟩, ⟨255, [], [], []⟩) ∧
    waitUntilAvailable (fun k => 4 * k) 300 200 ⟨0, [], [], []⟩ =
      some (false, ⟨52, [], [], []⟩) := by
  decide

/-- C8 at the failing input: the line `AB,1` with a wrong checksum is waiting,
the valid frame `CMD=1,15478` arrives 500 ms after the call, the clock advances
four milliseconds per environment call, and the timeout is 100.  `receiveData`
returns true with `CMD=1` after 149 environment calls, the last of which (the
read of the LF) happens at 592 ms: the second `readLine` starts before the
deadline of 100 ms and runs on its own deadline of 1000 ms. -/
theorem receiveData_late_frame_accepted :
    (receiveData (fun k => 4 * k) Conn.new 300 ⟨List.replicate 16 255, []⟩ 16 100
      ⟨0, [(0, 65), (0, 66), (0, 44), (0, 49), (0, 10),
        (500, 67), (500, 77), (500, 68), (500, 61), (500, 49), (500, 44), (500, 49),
        (500, 53), (500, 52), (500, 55), (500, 56), (500, 10)], [], []⟩).map
      (fun r => (r.1, r.2.1.cstr, r.2.2.ops)) = some (true, [67, 77, 68, 61, 49], 149) := by
  decide

/-- C7 at the failing input: the line `AB,1` with a wrong checksum is waiting,
the valid frame `CMD=1,15478` arrives 1010 ms after the call, the clock advances
four milliseconds per environment call, and the timeout is 1200, so the frame
is delivered 190 ms before the deadline (reading its twelve bytes takes 96 ms).
`receiveData` returns false, after 534 environment calls, with the whole frame
consumed: the second `readLine` reaches its own deadline of 1000 ms in the
middle of the frame and gives up what it has read, and the third `readLine`
assembles the rest, `15478`, which has no comma.  The same frame arriving
after 900 ms is returned. -/
theorem receiveData_frame_lost_at_inner_deadline :
    (receiveData (fun k => 4 * k) Conn.new 300 ⟨List.replicate 16 255, []⟩ 16 1200
      ⟨0, [(0, 65), (0, 66), (0, 44), (0, 49), (0, 10),
        (1010, 67), (1010, 77), (1010, 68), (1010, 61), (1010, 49), (1010, 44), (1010, 49),
        (1010, 53), (1010, 52), (1010, 55), (1010, 56), (1010, 10)], [], []⟩).map
      (fun r => (r.1, r.2.1.cstr, r.2.2.input, r.2.2.ops)) =
      some (false, [49, 53, 52, 55, 56], [], 534) ∧
    (receiveData (fun k => 4 * k) Conn.new 300 ⟨List.replicate 16 255, []⟩ 16 1200
      ⟨0, [(0, 65), (0, 66), (0, 44), (0, 49), (0, 10),
        (900, 67), (900, 77), (900, 68), (900, 61), (900, 49), (900, 44), (900, 49),
        (900, 53), (900, 52), (900, 55), (900, 56), (900, 10)], [], []⟩).map
      (fun r => (r.1, r.2.1.cstr, r.2.2.input, r.2.2.ops)) =
      some (true, [67, 77, 68, 61, 49], [], 249) :=
  ⟨by decide, by decide⟩

/-- On a stream without data (at most LF bytes), for every sane clock and
every timeout of at most 1000 ms whose first deadline check passes,
`receiveData` returns false only after the default timeout of `readLine` has
run out: at least 1000 ms after the call, whatever the timeout. -/
theorem receiveData_idle_waits_inner_deadline (clk : Clock) (h : SaneClock clk) (c : Conn)
    (size t : Nat) (buf : Buffer) (w : World) (ht : t ≤ DEFAULT_TIMEOUT)
    (hin : ∀ x ∈ w.input, x.2 = LF) (hfirst : clk (w.ops + 1) < clk w.ops + t) :
    ∃ fuel0 w1,
      (∀ fuel, fuel0 ≤ fuel → receiveData clk c fuel buf size t w = some (false, buf, w1)) ∧
      clk w.ops + DEFAULT_TIMEOUT ≤ clk w1.ops := by
  have ht' : t ≤ 1000 := ht
  obtain ⟨fuelA, w1, hrl, hlo, hup, hops, _⟩ := readLine_blank_times_out clk h c size
    DEFAULT_TIMEOUT buf (w.tick 2) (by decide) (by simpa using hin)
  have hops' : w.ops + 2 ≤ w1.ops := hops
  have hlo' : clk (w.ops + 2) + 1000 ≤ clk w1.ops := hlo
  have hup' : clk w1.ops < clk (w.ops + 2) + 1000 + 3 * MAX_STEP := hup
  have hm0 : clk w.ops ≤ clk (w.ops + 2) := h.mono (by omega)
  have hs1 := h.step w.ops
  have hs2 : clk (w.ops + 2) ≤ clk (w.ops + 1) + MAX_STEP := h.step (w.ops + 1)
  have hne1 : ¬ expired clk (deadline clk t w) (w.tick 1).ops := by
    rw [deadline_eq]
    exact not_expired_of_lt clk t w.ops _ (by omega) (h.mono (by simp)) (by simpa using hfirst)
  have hex2 : expired clk (deadline clk t w) w1.ops := by
    rw [deadline_eq]
    apply expired_of_le clk t w.ops _ (by omega)
    simp only [MAX_STEP] at hup' hs1 hs2
    omega
  refine ⟨fuelA + 2, w1.tick 1, ?_, ?_⟩
  · intro fuel hf
    unfold receiveData
    obtain ⟨f, rfl⟩ : ∃ f, fuel = f + 2 := ⟨fuel - 2, by omega⟩
    show receiveDataLoop clk c size (deadline clk t w) (f + 2) ((f + 1) + 1) buf (w.tick 1) = _
    rw [receiveDataLoop_no_line clk c size _ (f + 2) (f + 1) buf buf (w.tick 1) w1 hne1
      (by simpa using hrl (f + 2) (by omega))]
    exact receiveDataLoop_expired clk c size _ (f + 2) f buf w1 hex2
  · have : clk w1.ops ≤ clk (w1.tick 1).ops := h.mono (by simp)
    show clk w.ops + 1000 ≤ clk (w1.tick 1).ops
    omega

/-! ## The overload of receiveData with a required start of line -/

theorem strncmpEq_iff (a b : List Nat) :
    strncmpEq a b b.length = true ↔ a.take b.length = b := by
  induction b generalizing a with
  | nil => simp [strncmpEq]
  | cons y b ih =>
    cases a with
    | nil => simp [strncmpEq]
    | cons x a =>
      simp only [List.length_cons, strncmpEq, Bool.and_eq_true, beq_iff_eq, List.take_succ_cons,
        List.cons.injEq]
      rw [ih a]

theorem cells_after_strip (cells pre suf : List Nat)
    (h : cells.takeWhile (fun x => decide (x ≠ NUL)) = pre ++ COMMA :: suf) :
    ∃ rest, cells.set pre.length NUL = pre ++ NUL :: rest := by
  have hsplit := List.takeWhile_append_dropWhile (fun x => decide (x ≠ NUL)) cells
  rw [h] at hsplit
  generalize List.dropWhile (fun x => decide (x ≠ NUL)) cells = d at hsplit
  refine ⟨suf ++ d, ?_⟩
  rw [← hsplit]
  rw [show pre ++ COMMA :: suf ++ d = pre ++ (COMMA :: (suf ++ d)) by simp]
  rw [List.set_append_right _ _ (le_refl _)]
  simp

theorem cstr_no_nul (b : Buffer) : ∀ x ∈ b.cstr, x ≠ NUL := by
  intro x hx
  have h2 := List.mem_takeWhile_imp hx
  simpa using h2

/-- Where `strcpy` is defined, with the empty prefix, and with a library that
copies forward, the call is the forward copy. -/
theorem strcpyFromOffset_defined (lib : OverlapCopy) (b : Buffer) (len : Nat)
    (h : len = 0 ∨ b.cstr.length < 2 * len ∨ lib = strcpyForward) :
    strcpyFromOffset lib b len = b.writeFrom 0 (b.cstr.drop len ++ [NUL]) := by
  unfold strcpyFromOffset
  by_cases hc : len = 0 ∨ b.cstr.length < 2 * len
  · rw [if_pos hc]
  · rw [if_neg hc]
    rcases h with h | h | h
    · exact absurd (Or.inl h) hc
    · exact absurd (Or.inr h) hc
    · rw [h]
      rfl

/-- On overlapping arguments the call is whatever the library does. -/
theorem strcpyFromOffset_overlap (lib : OverlapCopy) (b : Buffer) (len : Nat)
    (h0 : 0 < len) (h : 2 * len ≤ b.cstr.length) :
    strcpyFromOffset lib b len = lib b len := by
  unfold strcpyFromOffset
  rw [if_neg (by omega)]

theorem strcpyFromOffset_cstr (lib : OverlapCopy) (b : Buffer) (p rest : List Nat) (len : Nat)
    (hcells : b.cells = p ++ NUL :: rest) (hp : ∀ x ∈ p, x ≠ NUL)
    (hdef : len = 0 ∨ p.length < 2 * len ∨ lib = strcpyForward) :
    (strcpyFromOffset lib b len).cstr = p.drop len := by
  have hcs : b.cstr = p := cstr_of_cells b p rest hp hcells
  rw [strcpyFromOffset_defined lib b len (by rw [hcs]; exact hdef), hcs]
  have hlen : (p.drop len ++ [NUL]).length ≤ b.cells.length := by
    rw [hcells]
    simp
    omega
  have hc := writeFrom_cells b (p.drop len ++ [NUL]) hlen
  apply cstr_of_cells _ (p.drop len) (b.cells.drop (p.drop len ++ [NUL]).length)
    (fun x hx => hp x (List.mem_of_mem_drop hx))
  rw [hc]
  simp

theorem receiveDataPfxLoop_sound (lib : OverlapCopy) (clk : Clock) (c : Conn) (px : List Nat)
    (size ts inner fuel : Nat) (buffer : Buffer) (w : World) (r : Outcome)
    (hr : receiveDataPfxLoop lib clk c px size ts inner fuel buffer w = some r)
    (ht : r.1 = true) :
    ∃ b0 w0 b1, readLine clk c inner b0 size DEFAULT_TIMEOUT w0 = some (true, b1, r.2.2) ∧
      (verifyLine b1).1 = true ∧ strncmpEq (verifyLine b1).2.cstr px px.length = true ∧
      r.2.1 = strcpyFromOffset lib (verifyLine b1).2 px.length := by
  induction fuel generalizing buffer w with
  | zero => exact absurd hr (by simp [receiveDataPfxLoop])
  | succ fuel ih =>
    simp only [receiveDataPfxLoop] at hr
    by_cases h1 : (isTimedOut clk ts w).1 = true
    · simp only [h1, if_true, Option.some.injEq] at hr
      subst hr
      exact absurd ht (by simp)
    · rw [if_neg h1] at hr
      cases hq : readLine clk c inner buffer size DEFAULT_TIMEOUT (isTimedOut clk ts w).2 with
      | none => simp [hq] at hr
      | some q =>
        obtain ⟨ok, b, w1⟩ := q
        cases ok with
        | false =>
          simp only [hq] at hr
          exact ih b w1 hr
        | true =>
          simp only [hq] at hr
          by_cases hv : (verifyLine b).1 = true
          · simp only [hv, if_true] at hr
            by_cases hs : strncmpEq (verifyLine b).2.cstr px px.length = true
            · simp only [hs, if_true, Option.some.injEq] at hr
              subst hr
              exact ⟨buffer, _, b, hq, hv, hs, rfl⟩
            · simp only [hs] at hr
              exact ih _ w1 hr
          · simp only [hv] at hr
            exact ih _ w1 hr

theorem receiveDataPfxLoop_skip (lib : OverlapCopy) (clk : Clock) (c : Conn) (px : List Nat)
    (size ts inner fuel : Nat) (buf b1 : Buffer) (w w1 : World) (h : ¬ expired clk ts w.ops)
    (hr : readLine clk c inner buf size DEFAULT_TIMEOUT (w.tick 1) = some (true, b1, w1))
    (hv : (verifyLine b1).1 = true)
    (hs : (verifyLine b1).2.cstr.take px.length ≠ px) :
    receiveDataPfxLoop lib clk c px size ts inner (fuel + 1) buf w =
      receiveDataPfxLoop lib clk c px size ts inner fuel (verifyLine b1).2 w1 := by
  have hs2 : strncmpEq (verifyLine b1).2.cstr px px.length = false := by
    cases hq : strncmpEq (verifyLine b1).2.cstr px px.length with
    | false => rfl
    | true => exact absurd ((strncmpEq_iff _ _).mp hq) hs
  simp [receiveDataPfxLoop, isTimedOut_eq, h, hr, hv, hs2]

theorem receiveDataPfxLoop_accept (lib : OverlapCopy) (clk : Clock) (c : Conn) (px : List Nat)
    (size ts inner fuel : Nat) (buf b1 b2 : Buffer) (w w1 : World)
    (h : ¬ expired clk ts w.ops)
    (hr : readLine clk c inner buf size DEFAULT_TIMEOUT (w.tick 1) = some (true, b1, w1))
    (hv : verifyLine b1 = (true, b2)) (hs : strncmpEq b2.cstr px px.length = true) :
    receiveDataPfxLoop lib clk c px size ts inner (fuel + 1) buf w =
      some (true, strcpyFromOffset lib b2 px.length, w1) := by
  simp [receiveDataPfxLoop, isTimedOut_eq, h, hr, hv, hs]

/-- The prefix filter, up to the `strcpy`: with a required start `px` (a C
string), `receiveDataPfx` returns true only right after a `readLine` whose
line passed the checksum verification with a payload `p` that starts with the
bytes of `px`; the buffer handed back is what `strcpy(buffer, buffer + len(px))`
leaves of the buffer that holds `p`, which is `p` without its first `len(px)`
bytes when the prefix is empty, when it is longer than half of `p` (nothing
overlaps), or when the C library copies forward.  A loop pass whose line passes
the verification with a payload that does not start with `px` returns nothing:
the loop goes on to its next pass (the next line) with the same deadline. -/
theorem receiveDataPfx_filter (lib : OverlapCopy) (clk : Clock) (c : Conn) (px : List Nat)
    (size : Nat) (hpx : ∀ x ∈ px, x ≠ NUL) :
    (∀ fuel timeout buffer w r,
      receiveDataPfx lib clk c fuel px buffer size timeout w = some r → r.1 = true →
      ∃ b0 w0 b1 p suf,
        readLine clk c fuel b0 size DEFAULT_TIMEOUT w0 = some (true, b1, r.2.2) ∧
        b1.cstr = p ++ COMMA :: suf ∧ COMMA ∉ suf ∧ (strtoul suf 0).2 ≠ 0 ∧
        (strtoul suf 0).1 % U16 = crc16_xmodem p ∧
        p.take px.length = px ∧
        r.2.1 = strcpyFromOffset lib (b1.write p.length NUL) px.length ∧
        (b1.write p.length NUL).cstr = p ∧
        (px.length = 0 ∨ p.length < 2 * px.length ∨ lib = strcpyForward →
          r.2.1.cstr = p.drop px.length)) ∧
    (∀ ts inner fuel buf b1 w w1, ¬ expired clk ts w.ops →
      readLine clk c inner buf size DEFAULT_TIMEOUT (w.tick 1) = some (true, b1, w1) →
      (verifyLine b1).1 = true → (verifyLine b1).2.cstr.take px.length ≠ px →
      receiveDataPfxLoop lib clk c px size ts inner (fuel + 1) buf w =
        receiveDataPfxLoop lib clk c px size ts inner fuel (verifyLine b1).2 w1) := by
  refine ⟨?_, fun ts inner fuel buf b1 w w1 h hr hv hs =>
    receiveDataPfxLoop_skip lib clk c px size ts inner fuel buf b1 w w1 h hr hv hs⟩
  intro fuel timeout buffer w r hr ht
  unfold receiveDataPfx at hr
  rw [takeWhile_ne_NUL_of_forall px hpx] at hr
  obtain ⟨b0, w0, b1, hrl, hv, hs, hb⟩ :=
    receiveDataPfxLoop_sound lib clk c px size _ fuel fuel buffer _ r hr ht
  obtain ⟨p, suf, h1, h2, h3, h4, h5, h6⟩ := verifyLine_true b1 hv
  have hpre : p.take px.length = px := by
    rw [h6] at hs
    exact (strncmpEq_iff p px).mp hs
  obtain ⟨rest, hcells⟩ := cells_after_strip b1.cells p suf h1
  have hcells2 : (verifyLine b1).2.cells = p ++ NUL :: rest := by
    rw [h5]
    exact hcells
  have hpn : ∀ x ∈ p, x ≠ NUL := by
    intro x hx
    exact cstr_no_nul b1 x (by rw [h1]; exact List.mem_append_left _ hx)
  rw [h5] at hb h6
  refine ⟨b0, w0, b1, p, suf, hrl, h1, h2, h3, h4, hpre, hb, h6, ?_⟩
  intro hdef
  rw [hb, ← h5]
  exact strcpyFromOffset_cstr lib _ p rest px.length hcells2 hpn hdef

/-- The example of the specification: a valid frame for `OTHER` followed by a
valid frame for `CMD=1`, with `CMD` required.  Nothing overlaps in the
`strcpy`, and the call returns true with `=1` with either library. -/
theorem receiveDataPfx_filter_example :
    (receiveDataPfx strcpyForward (fun k => k) Conn.new 60 [67, 77, 68]
      ⟨List.replicate 16 255, []⟩ 16 1000
      ⟨0, [(0, 79), (0, 84), (0, 72), (0, 69), (0, 82), (0, 44), (0, 54), (0, 51), (0, 52),
        (0, 52), (0, 57), (0, 10), (0, 67), (0, 77), (0, 68), (0, 61), (0, 49), (0, 44),
        (0, 49), (0, 53), (0, 52), (0, 55), (0, 56), (0, 10)], [], []⟩).map
      (fun r => (r.1, r.2.1.cstr)) = some (true, [61, 49]) ∧
    (receiveDataPfx strcpyTwoWords (fun k => k) Conn.new 60 [67, 77, 68]
      ⟨List.replicate 16 255, []⟩ 16 1000
      ⟨0, [(0, 79), (0, 84), (0, 72), (0, 69), (0, 82), (0, 44), (0, 54), (0, 51), (0, 52),
        (0, 52), (0, 57), (0, 10), (0, 67), (0, 77), (0, 68), (0, 61), (0, 49), (0, 44),
        (0, 49), (0, 53), (0, 52), (0, 55), (0, 56), (0, 10)], [], []⟩).map
      (fun r => (r.1, r.2.1.cstr)) = some (true, [61, 49]) :=
  ⟨by decide, by decide⟩

/-- C5, the code at the failing input: with `C` required and the frame of
`CMD=1` waiting, the line passes the checks, the buffer holds `CMD=1`, and
`strcpy(buffer, buffer + 1)` is called to move the five bytes `MD=1` NUL from
index 1 to index 0.  Source and destination overlap, so the buffer that
`receiveData` hands back with its true is whatever the C library leaves:
`MD=1` with a forward byte loop, `M=11` with a copy in two words. -/
theorem receiveDataPfx_overlapping_strcpy (lib : OverlapCopy) :
    receiveDataPfx lib (fun k => k) Conn.new 30 [67] ⟨List.replicate 16 255, []⟩ 16 1000
        ⟨0, [(0, 67), (0, 77), (0, 68), (0, 61), (0, 49), (0, 44), (0, 49), (0, 53), (0, 52),
          (0, 55), (0, 56), (0, 10)], [], []⟩ =
      some (true,
        lib ⟨[67, 77, 68, 61, 49, 0, 49, 53, 52, 55, 56, 0, 255, 255, 255, 255],
          [5, 11, 10, 9, 8, 7, 6, 5, 4, 3, 2, 1, 0]⟩ 1,
        ⟨27, [], [], []⟩) ∧
    Buffer.cstr ⟨[67, 77, 68, 61, 49, 0, 49, 53, 52, 55, 56, 0, 255, 255, 255, 255],
      [5, 11, 10, 9, 8, 7, 6, 5, 4, 3, 2, 1, 0]⟩ = [67, 77, 68, 61, 49] ∧
    (strcpyForward ⟨[67, 77, 68, 61, 49, 0, 49, 53, 52, 55, 56, 0, 255, 255, 255, 255],
      [5, 11, 10, 9, 8, 7, 6, 5, 4, 3, 2, 1, 0]⟩ 1).cstr = [77, 68, 61, 49] ∧
    (strcpyTwoWords ⟨[67, 77, 68, 61, 49, 0, 49, 53, 52, 55, 56, 0, 255, 255, 255, 255],
      [5, 11, 10, 9, 8, 7, 6, 5, 4, 3, 2, 1, 0]⟩ 1).cstr = [77, 61, 49, 49] := by
  refine ⟨?_, by decide, by decide, by decide⟩
  unfold receiveDataPfx
  have e : List.takeWhile (fun x => decide (x ≠ NUL)) [67] = [67] := by decide
  rw [e]
  have h := receiveDataPfxLoop_accept lib (fun k => k) Conn.new [67] 16
    (deadline (fun k => k) 1000 ⟨0, [(0, 67), (0, 77), (0, 68), (0, 61), (0, 49), (0, 44),
      (0, 49), (0, 53), (0, 52), (0, 55), (0, 56), (0, 10)], [], []⟩) 30 29
    ⟨List.replicate 16 255, []⟩
    ⟨[67, 77, 68, 61, 49, 44, 49, 53, 52, 55, 56, 0, 255, 255, 255, 255],
      [11, 10, 9, 8, 7, 6, 5, 4, 3, 2, 1, 0]⟩
    ⟨[67, 77, 68, 61, 49, 0, 49, 53, 52, 55, 56, 0, 255, 255, 255, 255],
      [5, 11, 10, 9, 8, 7, 6, 5, 4, 3, 2, 1, 0]⟩
    ⟨1, [(0, 67), (0, 77), (0, 68), (0, 61), (0, 49), (0, 44), (0, 49), (0, 53), (0, 52),
      (0, 55), (0, 56), (0, 10)], [], []⟩
    ⟨27, [], [], []⟩ (by decide) (by decide) (by decide) (by decide)
  rw [show [67].length = 1 from rfl,
    strcpyFromOffset_overlap lib _ 1 (by decide) (by decide)] at h
  exact h

/-! ## Reading one line out of a longer stream -/

/-- Blank lines before a line: while nothing is stored, LF bytes are consumed
and ignored. -/
theorem readLine_skip_blank (clk : Clock) (hm : Monotone clk) (c : Conn) (size ts K B m : Nat)
    (rest : List (Nat × Nat)) (lead : List (Nat × Nat)) (s : ReadLineState)
    (hlen : s.len = 0) (hcr : s.seenCR = false) (hin : s.world.input = lead ++ rest)
    (hl : ∀ x ∈ lead, x.1 ≤ clk K ∧ x.2 = LF)
    (hnt : ∀ k, s.world.ops ≤ k → k ≤ B → ¬ expired clk ts k)
    (hB : Budget K B s.world.ops (lead.length + m)) :
    ∃ n k, readLineIter clk c size ts n s = some
        { len := 0, seenCR := false, ts_waitLF := s.ts_waitLF, buffer := s.buffer,
          world := { s.world with ops := k, input := rest } } ∧
      s.world.ops ≤ k ∧ Budget K B k m := by
  induction lead generalizing s with
  | nil =>
    refine ⟨0, s.world.ops, ?_, by omega, by simpa using hB⟩
    obtain ⟨len, cr, tw, buf, w⟩ := s
    obtain ⟨k, inp, out, dg⟩ := w
    simp only at hcr hin hlen
    subst hcr hlen
    simp only [List.nil_append] at hin
    subst hin
    simp [readLineIter]
  | cons x lead ih =>
    obtain ⟨a, b⟩ := x
    have hx := hl (a, b) (List.mem_cons_self _ _)
    have hb : b = LF := hx.2
    subst hb
    have hB1 : Budget K B s.world.ops ((lead.length + m) + 1) := by
      unfold Budget at hB ⊢
      simp only [List.length_cons] at hB
      omega
    obtain ⟨j, hj, haj, hbj⟩ := readLine_wait clk hm c size ts K B (lead.length + m) a LF
      (lead ++ rest) hx.1 K s (by omega) hcr (by simpa using hin) hnt hB1
    have hstep := readLineStep_byte clk c size ts (s.withWorld (s.world.tick (2 * j))) a LF
      (lead ++ rest) hcr
      (hnt _ (Nat.le_add_right _ _) (by
        unfold Budget at hbj
        show s.world.ops + 2 * j ≤ B
        omega))
      (by simpa using hin) haj
    rw [readLineByte_lf_blank clk size (s.withWorld (s.world.tick (2 * j))) _ hlen] at hstep
    obtain ⟨n, k, hn, hk, hbk⟩ := ih
      { len := s.len, seenCR := false, ts_waitLF := s.ts_waitLF, buffer := s.buffer,
        world := { s.world with ops := s.world.ops + 2 * j + 2, input := lead ++ rest } }
      hlen rfl rfl (fun y hy => hl y (List.mem_cons_of_mem _ hy))
      (fun k hk1 hk2 => hnt k (by simp only at hk1; omega) hk2)
      (by
        show Budget K B (s.world.ops + 2 * j + 2) (lead.length + m)
        unfold Budget at hbj ⊢
        omega)
    refine ⟨j + (1 + n), k, ?_, ?_, hbk⟩
    · have h1 := readLineIter_one clk c size ts _ _ hstep
      have h2 := readLineIter_trans clk c size ts 1 n _ _ _ h1 hn
      have h3 := readLineIter_trans clk c size ts j (1 + n) _ _ _ hj h2
      rw [h3]
    · simp only at hk
      omega

/-- One successful `readLine` inside a longer stream: after any blank lines
(`lead`), the bytes `bp` of a line that fits and its terminator byte `tb` (CR
or LF), everything having arrived by call `K` and the deadline lying beyond
call `B`.  The buffer then holds the line and its NUL; the stream is left at
`rest`, or one LF further when the terminator was CR and `rest` starts with LF. -/
theorem readLine_reads_line (clk : Clock) (hm : Monotone clk) (c : Conn)
    (size t K B m : Nat) (lead bp : List (Nat × Nat)) (a tb : Nat) (rest : List (Nat × Nat))
    (buf : Buffer) (w : World)
    (htb : tb = CR ∨ tb = LF)
    (hlead : ∀ x ∈ lead, x.1 ≤ clk K ∧ x.2 = LF)
    (hbp : ∀ x ∈ bp, x.1 ≤ clk K ∧ x.2 ≠ CR ∧ x.2 ≠ LF) (ha : a ≤ clk K)
    (hne : bp ≠ []) (hfit : bp.length ≤ size - 1) (hsize : size < U16)
    (hcells : size ≤ buf.cells.length) (ht : t ≤ U16)
    (hin : w.input = lead ++ (bp ++ (a, tb) :: rest))
    (hB : Budget K B (w.ops + 1) (lead.length + (bp.length + 4 + m)))
    (hwin : clk B < clk w.ops + t) :
    ∃ fuel0 buf1 w1,
      (∀ fuel, fuel0 ≤ fuel → readLine clk c fuel buf size t w = some (true, buf1, w1)) ∧
      buf1.cells = bp.map Prod.snd ++ NUL :: buf.cells.drop (bp.length + 1) ∧
      (w1.input = rest ∨ (tb = CR ∧ ∃ a2, rest = (a2, LF) :: w1.input)) ∧
      w.ops ≤ w1.ops ∧ Budget K B w1.ops m := by
  have hpos : 0 < bp.length := List.length_pos.mpr hne
  have hst := stored_line_cells size (bp.map Prod.snd) buf (by simp; omega)
    hcells hsize
  simp only [List.length_map] at hst
  have hnt := not_expired_window clk hm t B w (by simp only [U16] at ht; omega) hwin
  obtain ⟨n0, k0, hskip, hk0, hbk0⟩ := readLine_skip_blank clk hm c size (deadline clk t w) K B
    (bp.length + 4 + m) (bp ++ (a, tb) :: rest) lead (readLineInit clk buf w) rfl rfl hin hlead
    hnt hB
  have hk0' : w.ops + 1 ≤ k0 := hk0
  have hnt0 : ∀ k, k0 ≤ k → k ≤ B → ¬ expired clk (deadline clk t w) k :=
    fun k hk1 hk2 => hnt k (by omega) hk2
  have hlen0 : 0 < (storeBytes size (bp.map Prod.snd) 0 buf).1 := by
    rw [hst.1]
    exact hpos
  rcases htb with h | h
  · subst h
    obtain ⟨n, k, inp, hloop, hinp, hk, hbk⟩ := readLine_line_cr clk hm c size (deadline clk t w)
      K B m rest bp a
      { len := 0, seenCR := false, ts_waitLF := (readLineInit clk buf w).ts_waitLF,
        buffer := (readLineInit clk buf w).buffer,
        world := { (readLineInit clk buf w).world with
          ops := k0, input := bp ++ (a, CR) :: rest } }
      rfl rfl hbp ha hnt0 hbk0 hlen0
    refine ⟨n0 + (n + 1),
      (storeBytes size (bp.map Prod.snd) 0 buf).2.write
        (storeBytes size (bp.map Prod.snd) 0 buf).1 NUL,
      { (readLineInit clk buf w).world with ops := k, input := inp },
      ?_, hst.2, ?_, ?_, hbk⟩
    · intro fuel hf
      unfold readLine
      rw [show fuel = n0 + (n + ((fuel - (n0 + (n + 1))) + 1)) by omega]
      rw [readLineLoop_of_iter clk c size _ n0 _ _ _ hskip]
      exact hloop _
    · rcases hinp with h1 | ⟨a2, h2⟩
      · exact Or.inl h1
      · exact Or.inr ⟨rfl, a2, h2⟩
    · show w.ops ≤ k
      have hk' : k0 ≤ k := hk
      omega
  · subst h
    obtain ⟨n, k, hloop, hk, hbk⟩ := readLine_line_lf clk hm c size (deadline clk t w)
      K B m rest bp a
      { len := 0, seenCR := false, ts_waitLF := (readLineInit clk buf w).ts_waitLF,
        buffer := (readLineInit clk buf w).buffer,
        world := { (readLineInit clk buf w).world with
          ops := k0, input := bp ++ (a, LF) :: rest } }
      rfl rfl hbp ha hnt0
      (by
        show Budget K B k0 (bp.length + 1 + m)
        unfold Budget at hbk0 ⊢
        omega)
      hlen0
    refine ⟨n0 + (n + 1),
      (storeBytes size (bp.map Prod.snd) 0 buf).2.write
        (storeBytes size (bp.map Prod.snd) 0 buf).1 NUL,
      { (readLineInit clk buf w).world with ops := k, input := rest },
      ?_, hst.2, Or.inl rfl, ?_, hbk⟩
    · intro fuel hf
      unfold readLine
      rw [show fuel = n0 + (n + ((fuel - (n0 + (n + 1))) + 1)) by omega]
      rw [readLineLoop_of_iter clk c size _ n0 _ _ _ hskip]
      exact hloop _
    · show w.ops ≤ k
      have hk' : k0 + 2 * n + 2 ≤ k := hk
      omega

/-! ## Retry past a bad line -/

theorem verifyLine_rejects (b : Buffer)
    (h : COMMA ∉ b.cstr ∨ ∃ pre suf, b.cstr = pre ++ COMMA :: suf ∧ COMMA ∉ suf ∧
      ((strtoul suf 0).2 = 0 ∨ (strtoul suf 0).1 % U16 ≠ crc16_xmodem pre)) :
    (verifyLine b).1 = false := by
  rcases h with h | ⟨pre, suf, htxt, hsuf, hbad⟩
  · have hf : (findCrc b.cstr 0 0).1 = false := findCrcLoop_no_comma b.cstr 0 0 _ h
    simp [verifyLine, hf]
  · have hfc := findCrc_eq_of_last_comma pre suf 0 0 hsuf
    rw [← htxt] at hfc
    have hcs : (b.write pre.length NUL).cstr = pre := by
      unfold Buffer.cstr Buffer.write
      exact takeWhile_set_nul b.cells pre suf htxt
    unfold verifyLine
    simp only [hfc, findCrcAtLastComma]
    rcases hbad with h0 | hne
    · simp [h0]
    · by_cases hc : (strtoul suf 0).2 = 0
      · simp [hc]
      · simp only [ne_eq, hc, not_false_eq_true, decide_True, if_true, hcs]
        simp only [decide_eq_false_iff_not]
        exact fun he => hne he.symm

theorem takeWhile_append_nul (l rest : List Nat) :
    (l ++ NUL :: rest).takeWhile (fun x => decide (x ≠ NUL)) =
      l.takeWhile (fun x => decide (x ≠ NUL)) := by
  induction l with
  | nil => simp
  | cons x l ih =>
    simp only [List.cons_append, List.takeWhile_cons]
    split
    · rw [ih]
    · rfl

theorem verifyLine_cells_length (b : Buffer) :
    (verifyLine b).2.cells.length = b.cells.length := by
  unfold verifyLine
  simp only
  split <;> simp [Buffer.write]

/-- The pairs of a terminator: its first byte is CR or LF, and what follows
it is at most one LF. -/
theorem terminator_pairs (tp : List (Nat × Nat)) (term : List Nat)
    (hterm : term = [CR, LF] ∨ term = [CR] ∨ term = [LF]) (h : tp.map Prod.snd = term) :
    ∃ a tb more, tp = (a, tb) :: more ∧ (tb = CR ∨ tb = LF) ∧ more.length ≤ 1 ∧
      ∀ x ∈ more, x.2 = LF := by
  rcases hterm with rfl | rfl | rfl
  · match tp, h with
    | [(a1, b1), (a2, b2)], h =>
      simp only [List.map_cons, List.map_nil, List.cons.injEq, and_true] at h
      exact ⟨a1, b1, [(a2, b2)], rfl, Or.inl h.1, by simp, by simp [h.2]⟩
  · match tp, h with
    | [(a1, b1)], h =>
      simp only [List.map_cons, List.map_nil, List.cons.injEq, and_true] at h
      exact ⟨a1, b1, [], rfl, Or.inl h, by simp, by simp⟩
  · match tp, h with
    | [(a1, b1)], h =>
      simp only [List.map_cons, List.map_nil, List.cons.injEq, and_true] at h
      exact ⟨a1, b1, [], rfl, Or.inr h, by simp, by simp⟩

/-- Retry past a bad line within the first second: a complete non-empty line
that fails the verification (no comma, no numeral after the last comma, or a
checksum other than the CRC of what stands before the last comma), followed
by the frame of a payload `p` (without CR, LF or NUL) as `sendData` writes it,
each ended by CR LF, CR or LF and each fitting in `size - 1` bytes, all of it
having arrived by some environment call `K` with both the deadline of
`receiveData` and 1000 ms after the call still ahead once the bytes have been
consumed: `receiveData` returns true with `p` in the buffer; the bad line does
not make it return false. -/
theorem receiveData_retries_past_bad_line (clk : Clock) (hm : Monotone clk) (c : Conn)
    (size t K : Nat) (bad p term1 term2 : List Nat) (buf : Buffer) (w : World)
    (hterm1 : term1 = [CR, LF] ∨ term1 = [CR] ∨ term1 = [LF])
    (hterm2 : term2 = [CR, LF] ∨ term2 = [CR] ∨ term2 = [LF])
    (hbadne : bad ≠ []) (hbad : ∀ b ∈ bad, b ≠ CR ∧ b ≠ LF) (hbadfit : bad.length ≤ size - 1)
    (hfail : COMMA ∉ bad.takeWhile (fun x => decide (x ≠ NUL)) ∨
      ∃ pre suf, bad.takeWhile (fun x => decide (x ≠ NUL)) = pre ++ COMMA :: suf ∧
        COMMA ∉ suf ∧
        ((strtoul suf 0).2 = 0 ∨ (strtoul suf 0).1 % U16 ≠ crc16_xmodem pre))
    (hp : ∀ b ∈ p, b ≠ CR ∧ b ≠ LF ∧ b ≠ NUL)
    (hfit : p.length + 1 + (printUnsigned (crc16_xmodem p)).length ≤ size - 1)
    (hsize : size < U16) (hcells : size ≤ buf.cells.length) (ht : t < U16)
    (hin : w.input.map Prod.snd =
      (bad ++ term1) ++ ((p ++ COMMA :: printUnsigned (crc16_xmodem p)) ++ term2))
    (harr : ∀ x ∈ w.input, x.1 ≤ clk K)
    (hwin : clk (max w.ops K +
        2 * (bad.length + (p.length + 1 + (printUnsigned (crc16_xmodem p)).length)) + 23) <
      clk w.ops + min t DEFAULT_TIMEOUT) :
    ∃ fuel0 buf1 w1,
      (∀ fuel, fuel0 ≤ fuel → receiveData clk c fuel buf size t w = some (true, buf1, w1)) ∧
      buf1.cstr = p := by
  have hdig := printUnsigned_digits (crc16_xmodem p)
  have hmin1 : min t DEFAULT_TIMEOUT ≤ t := Nat.min_le_left _ _
  have hmin2 : min t DEFAULT_TIMEOUT ≤ DEFAULT_TIMEOUT := Nat.min_le_right _ _
  have hframe : ∀ b ∈ p ++ COMMA :: printUnsigned (crc16_xmodem p), b ≠ CR ∧ b ≠ LF := by
    intro x hx
    rcases List.mem_append.mp hx with h1 | h1
    · exact ⟨(hp x h1).1, (hp x h1).2.1⟩
    · rcases List.mem_cons.mp h1 with h2 | h2
      · rw [h2]
        decide
      · have := hdig x h2
        unfold IsDecimalDigit at this
        simp only [CR, LF]
        omega
  have hlenf : (p ++ COMMA :: printUnsigned (crc16_xmodem p)).length =
      p.length + 1 + (printUnsigned (crc16_xmodem p)).length := by
    simp
    omega
  -- the stream, split into the two lines and their terminators
  obtain ⟨l1, l2, hsplit, hl1, hl2⟩ := pairs_of_map_snd w.input _ _ hin
  obtain ⟨bp, tp1, h1split, hbp, htp1⟩ := pairs_of_map_snd l1 bad term1 hl1
  obtain ⟨fp, tp2, h2split, hfp, htp2⟩ := pairs_of_map_snd l2 _ term2 hl2
  obtain ⟨a1, tb1, more1, rfl, htb1, hm1len, hm1⟩ := terminator_pairs tp1 term1 hterm1 htp1
  obtain ⟨a2, tb2, more2, rfl, htb2, hm2len, hm2⟩ := terminator_pairs tp2 term2 hterm2 htp2
  subst h1split h2split
  have hlenbp : bp.length = bad.length := by rw [← hbp, List.length_map]
  have hlenfp : fp.length = p.length + 1 + (printUnsigned (crc16_xmodem p)).length := by
    rw [← hlenf, ← hfp, List.length_map]
  have hinput : w.input = [] ++ (bp ++ (a1, tb1) :: (more1 ++ (fp ++ (a2, tb2) :: more2))) := by
    rw [hsplit]
    simp
  have harr2 : ∀ x, x ∈ bp ∨ x = (a1, tb1) ∨ x ∈ more1 ∨ x ∈ fp ∨ x = (a2, tb2) →
      x.1 ≤ clk K := by
    intro x hx
    apply harr x
    rw [hinput]
    simp only [List.nil_append, List.mem_append, List.mem_cons]
    rcases hx with h | h | h | h | h <;> simp only [h, true_or, or_true]
  have hbpp : ∀ x ∈ bp, x.1 ≤ clk K ∧ x.2 ≠ CR ∧ x.2 ≠ LF := fun x hx =>
    ⟨harr2 x (Or.inl hx), hbad x.2 (by rw [← hbp]; exact List.mem_map_of_mem _ hx)⟩
  have hfpp : ∀ x ∈ fp, x.1 ≤ clk K ∧ x.2 ≠ CR ∧ x.2 ≠ LF := fun x hx =>
    ⟨harr2 x (Or.inr (Or.inr (Or.inr (Or.inl hx)))),
      hframe x.2 (by rw [← hfp]; exact List.mem_map_of_mem _ hx)⟩
  have hfpne : fp ≠ [] := by
    intro h
    rw [h] at hlenfp
    simp only [List.length_nil] at hlenfp
    omega
  -- first pass: the bad line is read
  obtain ⟨fuelA, b1, w1, hrl1, hcells1, hinp1, hops1, hbud1⟩ := readLine_reads_line clk hm c size
    DEFAULT_TIMEOUT K
    (max w.ops K +
      2 * (bad.length + (p.length + 1 + (printUnsigned (crc16_xmodem p)).length)) + 23)
    (fp.length + 6) [] bp a1 tb1 (more1 ++ (fp ++ (a2, tb2) :: more2)) buf (w.tick 2)
    htb1 (by simp) hbpp (harr2 _ (Or.inr (Or.inl rfl)))
    (by
      intro h
      rw [h] at hlenbp
      exact hbadne (List.length_eq_zero.mp hlenbp.symm))
    (by omega) hsize hcells (by decide) (by simpa using hinput)
    (by
      unfold Budget
      simp only [tick_ops, List.length_nil]
      omega)
    (by
      have h2 : clk w.ops ≤ clk (w.tick 2).ops := hm (by simp)
      omega)
  have hops1' : w.ops + 2 ≤ w1.ops := hops1
  have hcs1 : b1.cstr = bad.takeWhile (fun x => decide (x ≠ NUL)) := by
    unfold Buffer.cstr
    rw [hcells1, hbp, takeWhile_append_nul]
  have hv1 : (verifyLine b1).1 = false := verifyLine_rejects b1 (by rw [hcs1]; exact hfail)
  have hlen1 : size ≤ (verifyLine b1).2.cells.length := by
    rw [verifyLine_cells_length, hcells1]
    simp
    omega
  -- what is left on the stream: the frame, after at most one LF
  obtain ⟨lead2, hin2, hlead2len, hlead2⟩ : ∃ lead2,
      w1.input = lead2 ++ (fp ++ (a2, tb2) :: more2) ∧ lead2.length ≤ 1 ∧
      ∀ x ∈ lead2, x.1 ≤ clk K ∧ x.2 = LF := by
    rcases hinp1 with h | ⟨_, a3, h⟩
    · exact ⟨more1, h, hm1len, fun x hx =>
        ⟨harr2 x (Or.inr (Or.inr (Or.inl hx))), hm1 x hx⟩⟩
    · cases more1 with
      | nil =>
        exfalso
        cases fp with
        | nil => exact hfpne rfl
        | cons y fp =>
          simp only [List.nil_append, List.cons_append, List.cons.injEq] at h
          have := (hfpp y (List.mem_cons_self _ _)).2.2
          rw [h.1] at this
          exact this rfl
      | cons y more1 =>
        have : more1 = [] := by
          simp only [List.length_cons] at hm1len
          exact List.length_eq_zero.mp (by omega)
        subst this
        simp only [List.cons_append, List.nil_append, List.cons.injEq] at h
        exact ⟨[], by simpa using h.2.symm, by simp, by simp⟩
  -- second pass: the frame is read
  obtain ⟨fuelB, b2, w2, hrl2, hcells2, _, _, _⟩ := readLine_reads_line clk hm c size
    DEFAULT_TIMEOUT K
    (max w.ops K +
      2 * (bad.length + (p.length + 1 + (printUnsigned (crc16_xmodem p)).length)) + 23)
    0 lead2 fp a2 tb2 more2 (verifyLine b1).2 (w1.tick 1)
    htb2 hlead2 hfpp (harr2 _ (Or.inr (Or.inr (Or.inr (Or.inr rfl))))) hfpne
    (by omega) hsize hlen1 (by decide) (by simpa using hin2)
    (by
      unfold Budget at hbud1 ⊢
      simp only [tick_ops]
      omega)
    (by
      have h2 : clk w.ops ≤ clk (w1.tick 1).ops := hm (by simp; omega)
      omega)
  rw [hfp] at hcells2
  obtain ⟨hv2, hcs2⟩ := verifyLine_frame b2 p _ hcells2 (fun x hx => (hp x hx).2.2)
  -- the two checks of the outer deadline
  have hBm : ∀ k, w.ops ≤ k → k ≤ max w.ops K +
      2 * (bad.length + (p.length + 1 + (printUnsigned (crc16_xmodem p)).length)) + 23 →
      ¬ expired clk (deadline clk t w) k := by
    intro k hk1 hk2
    rw [deadline_eq]
    apply not_expired_of_lt clk t w.ops k (by simp only [U16] at ht; omega) (hm hk1)
    have := hm hk2
    omega
  have hne1 : ¬ expired clk (deadline clk t w) (w.tick 1).ops :=
    hBm _ (by simp) (by simp; omega)
  have hne2 : ¬ expired clk (deadline clk t w) w1.ops :=
    hBm _ (by omega) (by
      unfold Budget at hbud1
      omega)
  refine ⟨max fuelA fuelB + 2, b2.write p.length NUL, w2, ?_, hcs2⟩
  intro fuel hf
  unfold receiveData
  obtain ⟨f, rfl⟩ : ∃ f, fuel = f + 2 := ⟨fuel - 2, by omega⟩
  have hA : fuelA ≤ f + 2 := by omega
  have hB : fuelB ≤ f + 2 := by omega
  show receiveDataLoop clk c size (deadline clk t w) (f + 2) ((f + 1) + 1) buf (w.tick 1) = _
  rw [receiveDataLoop_reject clk c size _ (f + 2) (f + 1) buf b1 (w.tick 1) w1 hne1
    (by simpa using hrl1 (f + 2) hA) hv1]
  exact receiveDataLoop_accept clk c size _ (f + 2) f _ b2 _ w1 w2 hne2 (hrl2 (f + 2) hB) hv2

/-- The retry on the line `AB,1` (wrong checksum) followed by the frame
`CMD=1,15478`, both ended by LF and waiting on the stream. -/
theorem receiveData_retries_past_bad_line_witness :
    ∃ fuel0 buf1 w1,
      (∀ fuel, fuel0 ≤ fuel →
        receiveData (fun k => k) Conn.new fuel ⟨List.replicate 16 255, []⟩ 16 1000
          ⟨0, [(0, 65), (0, 66), (0, 44), (0, 49), (0, 10),
            (0, 67), (0, 77), (0, 68), (0, 61), (0, 49), (0, 44), (0, 49), (0, 53), (0, 52),
            (0, 55), (0, 56), (0, 10)], [], []⟩ = some (true, buf1, w1)) ∧
      buf1.cstr = [67, 77, 68, 61, 49] :=
  receiveData_retries_past_bad_line (fun k => k) (fun _ _ h => h) Conn.new 16 1000 0
    [65, 66, 44, 49] [67, 77, 68, 61, 49] [LF] [LF] ⟨List.replicate 16 255, []⟩
    ⟨0, [(0, 65), (0, 66), (0, 44), (0, 49), (0, 10),
      (0, 67), (0, 77), (0, 68), (0, 61), (0, 49), (0, 44), (0, 49), (0, 53), (0, 52),
      (0, 55), (0, 56), (0, 10)], [], []⟩
    (Or.inr (Or.inr rfl)) (Or.inr (Or.inr rfl)) (by decide) (by decide) (by decide)
    (Or.inr ⟨[65, 66], [49], by decide, by decide, Or.inr (by decide)⟩)
    (by decide) (by decide) (by decide) (by decide) (by decide) (by decide) (by decide)
    (by decide)

/-! ## Wraparound of the deadline -/

/-- C16: with the deadline `ts = (s + t) mod 2^32` set at start time `s` for a
timeout `t < 2^16`, `isTimedOut(ts)` called when the clock reads
`(s + e) mod 2^32`, for an elapsed time `e < 2^31`, returns true exactly when
`e ≥ t`; so a deadline that wraps past 2^32 is not seen as expired at `e = 0`
when `t > 0`.  `deadline` computes this `ts` from the clock reading `s mod 2^32`. -/
theorem isTimedOut_wraparound (clk : Clock) (w : World) (s t e : Nat)
    (ht : t < 65536) (he : e < 2147483648) (hnow : clk w.ops % U32 = (s + e) % U32) :
    ((isTimedOut clk ((s + t) % U32) w).1 = true ↔ t ≤ e) ∧
    (∀ w0 : World, clk w0.ops = s → deadline clk t w0 = (s + t) % U32) ∧
    (0 < t → e = 0 → (isTimedOut clk ((s + t) % U32) w).1 = false) := by
  have key : (isTimedOut clk ((s + t) % U32) w).1 = true ↔ t ≤ e := by
    rw [isTimedOut_eq]
    simp only [decide_eq_true_eq]
    unfold expired
    rw [hnow]
    simp only [U32]
    omega
  refine ⟨key, ?_, ?_⟩
  · intro w0 h0
    rw [deadline_eq, h0]
    simp only [U32]
    omega
  · intro ht0 he0
    cases hq : (isTimedOut clk ((s + t) % U32) w).1 with
    | false => rfl
    | true =>
      have := key.mp hq
      omega

/-- C16 at a deadline that wraps: start time `2^32 - 10`, timeout 100. -/
theorem isTimedOut_wraparound_witness :
    ((isTimedOut (fun _ => 4294967286) ((4294967286 + 100) % U32) ⟨0, [], [], []⟩).1 = true ↔
      100 ≤ 0) ∧
    ((isTimedOut (fun k => 4294967286 + 100 * k) ((4294967286 + 100) % U32)
      ⟨1, [], [], []⟩).1 = true ↔ 100 ≤ 100) :=
  ⟨(isTimedOut_wraparound (fun _ => 4294967286) ⟨0, [], [], []⟩ 4294967286 100 0
      (by decide) (by decide) (by decide)).1,
    (isTimedOut_wraparound (fun k => 4294967286 + 100 * k) ⟨1, [], [], []⟩ 4294967286 100 100
      (by decide) (by decide) (by decide)).1⟩

/-! ## The base of the checksum numeral -/

theorem strtoulDigits_append (ds g : List Nat) (acc k : Nat) (h : ∀ d ∈ ds, IsDecimalDigit d) :
    strtoulDigits 10 (ds ++ g) acc k = strtoulDigits 10 g (decimalValue acc ds) (k + ds.length) := by
  induction ds generalizing acc k with
  | nil => simp [decimalValue]
  | cons d ds ih =>
    have hd : 48 ≤ d ∧ d ≤ 57 := h d (List.mem_cons_self _ _)
    have hlt : d - 48 < 10 := by omega
    rw [List.cons_append]
    simp only [strtoulDigits, digitVal, hd, and_self, if_true, hlt]
    rw [ih _ _ (fun x hx => h x (List.mem_cons_of_mem _ hx))]
    simp only [decimalValue, List.foldl_cons, List.length_cons]
    rw [Nat.mul_comm acc 10, Nat.add_assoc k 1, Nat.add_comm 1]

theorem strtoulDigits_count (b : Nat) (g : List Nat) (acc k : Nat) :
    k ≤ (strtoulDigits b g acc k).2 ∧
      ((strtoulDigits b g acc k).2 = k → (strtoulDigits b g acc k).1 = acc) := by
  induction g generalizing acc k with
  | nil => simp [strtoulDigits]
  | cons c cs ih =>
    unfold strtoulDigits
    cases hv : digitVal c with
    | none => simp
    | some d =>
      by_cases hlt : d < b
      · simp only [hlt, if_true]
        have := (ih (acc * b + d) (k + 1)).1
        exact ⟨by omega, fun h => by omega⟩
      · simp [hlt]

/-- On a decimal numeral without leading zero, followed by any text, `strtoul`
with base 0 reads in base ten from the first digit on. -/
theorem strtoul_decimal_head (d : Nat) (ds g : List Nat) (hd : 49 ≤ d ∧ d ≤ 57)
    (hds : ∀ x ∈ ds, IsDecimalDigit x) :
    strtoul (d :: ds ++ g) 0 =
      ((if U32 ≤ (strtoulDigits 10 g (decimalValue 0 (d :: ds)) (ds.length + 1)).1 then U32 - 1
        else (strtoulDigits 10 g (decimalValue 0 (d :: ds)) (ds.length + 1)).1),
       (strtoulDigits 10 g (decimalValue 0 (d :: ds)) (ds.length + 1)).2) := by
  have hall : ∀ x ∈ d :: ds, IsDecimalDigit x := by
    intro x hx
    rcases List.mem_cons.mp hx with h | h
    · rw [h]
      exact ⟨by omega, hd.2⟩
    · exact hds x h
  have hsp : isspace d = false := by
    unfold isspace
    simp
    omega
  have hparse := strtoulDigits_append (d :: ds) g 0 0 hall
  simp only [List.length_cons, Nat.zero_add] at hparse
  have hcnt := (strtoulDigits_count 10 g (decimalValue 0 (d :: ds)) (ds.length + 1)).1
  have hne : (strtoulDigits 10 g (decimalValue 0 (d :: ds)) (ds.length + 1)).2 ≠ 0 := by omega
  have h45 : d ≠ 45 := by omega
  have h43 : d ≠ 43 := by omega
  have h48 : d ≠ 48 := by omega
  have hhex : hasHexPrefix (d :: (ds ++ g)) = false := by
    unfold hasHexPrefix
    split
    · rename_i heq
      simp only [List.cons.injEq] at heq
      omega
    · rfl
  rw [List.cons_append] at hparse ⊢
  simp [strtoul, List.takeWhile_cons, hsp, h45, h43, h48, hhex, hparse, hne]
/-- C11, counterexample: on the text `a,010` the suffix is a run of decimal
digits of base-10 value ten, and `findCrc` returns true with `crc` eight: base 0
makes `strtoul` read a numeral with a leading zero in base 8. -/
theorem findCrc_leading_zero_read_as_octal :
    (∀ c ∈ [48, 49, 48], IsDecimalDigit c) ∧ decimalValue 0 [48, 49, 48] = 10 ∧
    findCrc ([97] ++ COMMA :: [48, 49, 48]) 0 0 = (true, 8, 1) ∧
    (findCrc ([97] ++ COMMA :: [48, 49, 48]) 0 0).2.1 ≠ decimalValue 0 [48, 49, 48] := by
  refine ⟨?_, by decide, by decide, by decide⟩
  intro c hc
  unfold IsDecimalDigit
  simp only [List.mem_cons, List.mem_singleton, List.not_mem_nil, or_false] at hc
  omega

/-- C11, amended: for a text `p + "," + d` where `d` is a non-empty run of
decimal digits that is `0` itself or does not start with `0`, of base-10 value
at most 65535, `findCrc` returns true with `crc` the base-10 value of `d` and
`cptr` at that comma. -/
theorem findCrc_reads_decimal (p d : List Nat) (crc0 cptr0 : Nat) (hne : d ≠ [])
    (hdig : ∀ c ∈ d, IsDecimalDigit c) (hval : decimalValue 0 d ≤ 65535)
    (hlead : d.head? = some 48 → d = [48]) :
    findCrc (p ++ COMMA :: d) crc0 cptr0 = (true, decimalValue 0 d, p.length) := by
  have hcomma : COMMA ∉ d := by
    intro hmem
    have := hdig COMMA hmem
    unfold IsDecimalDigit COMMA at this
    omega
  rw [findCrc_eq_of_last_comma p d crc0 cptr0 hcomma]
  cases d with
  | nil => exact absurd rfl hne
  | cons c ds =>
    by_cases h48 : c = 48
    · have := hlead (by simp [h48])
      rw [this]
      have h0 : strtoul [48] 0 = (0, 1) := by decide
      unfold findCrcAtLastComma
      rw [h0]
      simp [decimalValue]
    · have hc := hdig c (List.mem_cons_self _ _)
      unfold IsDecimalDigit at hc
      have hst := strtoul_decimal_head c ds [] ⟨by omega, hc.2⟩
        (fun x hx => hdig x (List.mem_cons_of_mem _ hx))
      simp only [List.append_nil, strtoulDigits] at hst
      have h32 : ¬ U32 ≤ decimalValue 0 (c :: ds) := by
        simp only [U32]
        omega
      simp only [h32, if_false] at hst
      unfold findCrcAtLastComma
      rw [hst]
      simp only [ne_eq, Nat.add_one_ne_zero, not_false_eq_true, decide_True, Prod.mk.injEq,
        true_and, and_true]
      simp only [U16]
      omega

/-- C11, amended, on the text `a,12345`. -/
theorem findCrc_reads_decimal_witness :
    findCrc ([97] ++ COMMA :: [49, 50, 51, 52, 53]) 0 0 =
      (true, decimalValue 0 [49, 50, 51, 52, 53], [97].length) :=
  findCrc_reads_decimal [97] [49, 50, 51, 52, 53] 0 0 (by decide)
    (by
      intro c hc
      unfold IsDecimalDigit
      simp only [List.mem_cons, List.mem_singleton, List.not_mem_nil, or_false] at hc
      omega)
    (by decide) (by decide)

/-! ## A lone CR -/

/-- C14, the code on the failing inputs: with the bytes CR, `X` waiting (and
with a CR alone), `readLine` with size 8 returns true after storing only the
NUL at index 0, so the line it reports is empty; the `X` is left in the stream. -/
theorem readLine_cr_yields_empty_line :
    readLine (fun k => 4 * k) Conn.new 20 ⟨[255, 255, 255, 255, 255, 255, 255, 255], []⟩ 8 1000
        ⟨0, [(0, CR), (0, 88)], [], []⟩ =
      some (true, ⟨[NUL, 255, 255, 255, 255, 255, 255, 255], [0]⟩, ⟨6, [(0, 88)], [], []⟩) ∧
    readLine (fun k => 4 * k) Conn.new 20 ⟨[255, 255, 255, 255, 255, 255, 255, 255], []⟩ 8 1000
        ⟨0, [(0, CR)], [], []⟩ =
      some (true, ⟨[NUL, 255, 255, 255, 255, 255, 255, 255], [0]⟩, ⟨6, [], [], []⟩) ∧
    Buffer.cstr ⟨[NUL, 255, 255, 255, 255, 255, 255, 255], [0]⟩ = [] :=
  ⟨by decide, by decide, by decide⟩

/-- The exit taken after a CR, for every clock, size and timeout: when the
first byte on the stream is a CR that has arrived by the first `read()`, what
follows it is not an LF, and the deadline is not expired at the first two
checks, `readLine` returns true with nothing stored but the NUL at index 0. -/
theorem readLine_lone_cr (clk : Clock) (c : Conn) (size t a : Nat) (rest : List (Nat × Nat))
    (buf : Buffer) (w : World) (hin : w.input = (a, CR) :: rest) (ha : a ≤ clk (w.ops + 2))
    (hrest : rest = [] ∨ ∃ a2 b rest2, rest = (a2, b) :: rest2 ∧ b ≠ LF)
    (h1 : ¬ expired clk (deadline clk t w) (w.ops + 1))
    (h2 : ¬ expired clk (deadline clk t w) (w.ops + 4)) :
    ∀ fuel, 2 ≤ fuel → readLine clk c fuel buf size t w =
      some (true, buf.write 0 NUL, { w with ops := w.ops + 6, input := rest }) := by
  intro fuel hf
  obtain ⟨f, rfl⟩ : ∃ f, fuel = f + 2 := ⟨fuel - 2, by omega⟩
  have s1 : readLineStep clk c size (deadline clk t w) (readLineInit clk buf w) =
      .inl { len := 0, seenCR := true, ts_waitLF := (clk (w.ops + 3) % U32 + 50) % U32,
             buffer := buf, world := { w with ops := w.ops + 4, input := rest } } := by
    rw [readLineStep_byte clk c size _ (readLineInit clk buf w) a CR rest rfl h1 hin ha,
      readLineByte_cr]
    rfl
  have s2 : readLineStep clk c size (deadline clk t w)
      { len := 0, seenCR := true, ts_waitLF := (clk (w.ops + 3) % U32 + 50) % U32,
        buffer := buf, world := { w with ops := w.ops + 4, input := rest } } =
      .inr (readLineOk 0 buf { w with ops := w.ops + 6, input := rest }) := by
    rw [readLineStep_cr_end clk c size _ _ rfl h2 (by
      rcases hrest with h | ⟨a2, b, rest2, h, hb⟩
      · exact Or.inl h
      · exact Or.inr (Or.inr ⟨a2, b, rest2, h, hb⟩))]
    rfl
  unfold readLine
  simp only [readLineLoop, s1, s2]
  rfl

/-! ## waitUntilAvailable -/

theorem readyAt_congr (clk : Clock) (w w1 : World) (k : Nat) (h : w1.input = w.input) :
    readyAt clk w1 k = readyAt clk w k := by
  simp [readyAt, available, h]

theorem waitUntilAvailableLoop_spec (clk : Clock) (ts : Nat) (fuel : Nat) (w : World)
    (r : Bool × World) (h : waitUntilAvailableLoop clk ts fuel w = some r) :
    r.2.input = w.input ∧ r.2.output = w.output ∧ r.2.diag = w.diag ∧
    (r.1 = true ↔ ∃ j, (∀ i, i ≤ j → ¬ expired clk ts (w.ops + 2 * i)) ∧
      readyAt clk w (w.ops + 2 * j + 1) = true) := by
  induction fuel generalizing w with
  | zero => simp [waitUntilAvailableLoop] at h
  | succ fuel ih =>
    unfold waitUntilAvailableLoop at h
    simp only [isTimedOut_eq, decide_eq_true_eq] at h
    by_cases he : expired clk ts w.ops
    · rw [if_pos he] at h
      cases Option.some.inj h
      refine ⟨rfl, rfl, rfl, ?_⟩
      constructor
      · intro hf
        cases hf
      · rintro ⟨j, hj, _⟩
        exact absurd he (hj 0 (Nat.zero_le _))
    · rw [if_neg he] at h
      by_cases ha : (available clk (w.tick 1)).1 > 0
      · rw [if_pos ha] at h
        cases Option.some.inj h
        refine ⟨rfl, rfl, rfl, ?_⟩
        constructor
        · intro _
          refine ⟨0, ?_, ?_⟩
          · intro i hi
            have : i = 0 := by omega
            subst this
            exact he
          · simpa [readyAt, World.tick] using ha
        · intro _
          rfl
      · rw [if_neg ha] at h
        have hrec := ih (available clk (w.tick 1)).2 h
        have hin : (available clk (w.tick 1)).2.input = w.input := rfl
        have hops : (available clk (w.tick 1)).2.ops = w.ops + 2 := rfl
        have hcg : ∀ k, readyAt clk (available clk (w.tick 1)).2 k = readyAt clk w k :=
          fun k => readyAt_congr clk w _ k hin
        rw [hin, hops] at hrec
        simp only [hcg] at hrec
        refine ⟨hrec.1, hrec.2.1, hrec.2.2.1, ?_⟩
        rw [hrec.2.2.2]
        constructor
        · rintro ⟨j, hj, hr⟩
          refine ⟨j + 1, ?_, ?_⟩
          · intro i hi
            rcases Nat.eq_zero_or_pos i with h0 | hpos
            · subst h0
              exact he
            · have := hj (i - 1) (by omega)
              have e : w.ops + 2 + 2 * (i - 1) = w.ops + 2 * i := by omega
              rwa [e] at this
          · have e : w.ops + 2 * (j + 1) + 1 = w.ops + 2 + 2 * j + 1 := by omega
            rw [e]
            exact hr
        · rintro ⟨j, hj, hr⟩
          rcases Nat.eq_zero_or_pos j with h0 | hpos
          · subst h0
            exfalso
            apply ha
            simpa [readyAt, World.tick] using hr
          · refine ⟨j - 1, ?_, ?_⟩
            · intro i hi
              have := hj (i + 1) (by omega)
              have e : w.ops + 2 * (i + 1) = w.ops + 2 + 2 * i := by omega
              rwa [e] at this
            · have e : w.ops + 2 + 2 * (j - 1) + 1 = w.ops + 2 * j + 1 := by omega
              rw [e]
              exact hr

theorem waitUntilAvailableLoop_returns (clk : Clock) (ts : Nat) (i : Nat) (w : World)
    (h : expired clk ts (w.ops + 2 * i)) :
    ∃ r, ∀ f, waitUntilAvailableLoop clk ts (i + 1 + f) w = some r := by
  induction i generalizing w with
  | zero =>
    refine ⟨(false, w.tick 1), fun f => ?_⟩
    have e : 0 + 1 + f = f + 1 := by omega
    rw [e]
    unfold waitUntilAvailableLoop
    simp only [isTimedOut_eq, decide_eq_true_eq]
    rw [if_pos (by simpa using h)]
  | succ i ih =>
    by_cases he : expired clk ts w.ops
    · refine ⟨(false, w.tick 1), fun f => ?_⟩
      have e : i + 1 + 1 + f = (i + 1 + f) + 1 := by omega
      rw [e]
      unfold waitUntilAvailableLoop
      simp only [isTimedOut_eq, decide_eq_true_eq]
      rw [if_pos he]
    · by_cases ha : (available clk (w.tick 1)).1 > 0
      · refine ⟨(true, (available clk (w.tick 1)).2), fun f => ?_⟩
        have e : i + 1 + 1 + f = (i + 1 + f) + 1 := by omega
        rw [e]
        unfold waitUntilAvailableLoop
        simp only [isTimedOut_eq, decide_eq_true_eq]
        rw [if_neg he, if_pos ha]
      · have hops : (available clk (w.tick 1)).2.ops = w.ops + 2 := rfl
        obtain ⟨r, hr⟩ := ih (available clk (w.tick 1)).2 (by
          rw [hops]
          have e : w.ops + 2 + 2 * i = w.ops + 2 * (i + 1) := by omega
          rw [e]
          exact h)
        refine ⟨r, fun f => ?_⟩
        have e : i + 1 + 1 + f = (i + 1 + f) + 1 := by omega
        rw [e]
        unfold waitUntilAvailableLoop
        simp only [isTimedOut_eq, decide_eq_true_eq]
        rw [if_neg he, if_neg ha]
        exact hr f

/-- C13: when `waitUntilAvailable(timeout)` returns, the pending input (and
what has been written to the stream) is what it was before the call, and the
result is true exactly when some poll of `available()` reported a byte while
every check of the deadline up to that poll still found it not expired; with
a sane clock the call does return. -/
theorem waitUntilAvailable_frame (clk : Clock) (timeout : Nat) (w : World) :
    (∀ fuel r, waitUntilAvailable clk fuel timeout w = some r →
      r.2.input = w.input ∧ r.2.output = w.output ∧
      (r.1 = true ↔ ∃ j,
        (∀ i, i ≤ j → ¬ expired clk (deadline clk timeout w) (w.ops + 1 + 2 * i)) ∧
        readyAt clk w (w.ops + 2 + 2 * j) = true)) ∧
    (SaneClock clk → timeout ≤ 65535 →
      ∃ fuel0 r, ∀ fuel, fuel0 ≤ fuel → waitUntilAvailable clk fuel timeout w = some r) := by
  constructor
  · intro fuel r h
    unfold waitUntilAvailable at h
    have hs := waitUntilAvailableLoop_spec clk _ fuel _ r h
    have hin : (millis clk w).2.input = w.input := rfl
    have hops : (millis clk w).2.ops = w.ops + 1 := rfl
    have hcg : ∀ k, readyAt clk (millis clk w).2 k = readyAt clk w k :=
      fun k => readyAt_congr clk w _ k hin
    rw [hops] at hs
    simp only [hcg] at hs
    refine ⟨hs.1, hs.2.1, ?_⟩
    rw [hs.2.2.2]
    constructor
    · rintro ⟨j, hj, hr⟩
      refine ⟨j, hj, ?_⟩
      have e : w.ops + 2 + 2 * j = w.ops + 1 + 2 * j + 1 := by omega
      rw [e]
      exact hr
    · rintro ⟨j, hj, hr⟩
      refine ⟨j, hj, ?_⟩
      have e : w.ops + 2 + 2 * j = w.ops + 1 + 2 * j + 1 := by omega
      rw [← e]
      exact hr
  · intro hc ht
    have hst := hc.step w.ops
    obtain ⟨i, _, hi, _, _⟩ := exists_first_expired clk hc timeout w.ops (w.ops + 1)
      (by omega) (by omega) (by simp only [MAX_STEP] at hst ⊢; omega)
    obtain ⟨r, hr⟩ := waitUntilAvailableLoop_returns clk (deadline clk timeout w) i
      (millis clk w).2 (by rw [deadline_eq]; exact hi)
    refine ⟨i + 1, r, fun fuel hf => ?_⟩
    obtain ⟨f, rfl⟩ := Nat.exists_eq_add_of_le hf
    exact hr f

/-- C13 at a stream whose only byte arrives at time 3, with timeout 5 and the
clock that advances one millisecond per environment call. -/
theorem waitUntilAvailable_frame_witness :
    (∃ fuel0 r, ∀ fuel, fuel0 ≤ fuel →
      waitUntilAvailable (fun k => k) fuel 5 ⟨0, [(3, 65)], [], []⟩ = some r) ∧
    (waitUntilAvailable (fun k => k) 9 5 ⟨0, [(3, 65)], [], []⟩).map
      (fun r => (r.1, r.2.input)) = some (true, [(3, 65)]) :=
  ⟨(waitUntilAvailable_frame (fun k => k) 5 ⟨0, [(3, 65)], [], []⟩).2 saneClock_id (by decide),
    by decide⟩

/-! ## The empty prefix -/

theorem receiveDataPfxLoop_nil (lib : OverlapCopy) (clk : Clock) (c : Conn)
    (size ts inner fuel : Nat) (buffer : Buffer) (w : World) :
    receiveDataPfxLoop lib clk c [] size ts inner fuel buffer w =
      (receiveDataLoop clk c size ts inner fuel buffer w).map
        (fun r => if r.1 then (true, strcpyFromOffset lib r.2.1 0, r.2.2) else r) := by
  induction fuel generalizing buffer w with
  | zero => rfl
  | succ fuel ih =>
    unfold receiveDataPfxLoop receiveDataLoop
    by_cases ht : (isTimedOut clk ts w).1 = true
    · simp [ht]
    · simp only [ht, if_false, Bool.false_eq_true]
      cases hrl : readLine clk c inner buffer size DEFAULT_TIMEOUT (isTimedOut clk ts w).2 with
      | none => rfl
      | some o =>
        obtain ⟨ok, b, w1⟩ := o
        cases ok with
        | false => exact ih b w1
        | true =>
          by_cases hv : (verifyLine b).1 = true
          · simp [hv, strncmpEq]
          · simp only [hv, if_false, Bool.false_eq_true]
            exact ih _ w1

theorem strcpyFromOffset_zero_cells (lib : OverlapCopy) (b : Buffer)
    (h : (verifyLine b).1 = true) :
    (strcpyFromOffset lib (verifyLine b).2 0).cells = (verifyLine b).2.cells := by
  obtain ⟨p, suf, htxt, _, _, _, hv, hcs⟩ := verifyLine_true b h
  obtain ⟨rest, hrest⟩ := cells_after_strip b.cells p suf htxt
  have hcells : (verifyLine b).2.cells = p ++ NUL :: rest := by
    rw [hv]
    exact hrest
  unfold strcpyFromOffset
  rw [if_pos (Or.inl rfl), hcs, List.drop_zero, writeFrom_cells _ _ (by rw [hcells]; simp),
    hcells]
  simp

/-- C17: with the empty prefix the overload of `receiveData` that filters on a
prefix returns what `receiveData(buffer, size, timeout)` returns on the same
stream, clock, size and timeout (and for the same number of passes), whatever
the C library: the same boolean, the same buffer contents and the same
environment afterwards, hence the same bytes consumed. -/
theorem receiveDataPfx_empty_prefix (lib : OverlapCopy) (clk : Clock) (c : Conn) (fuel : Nat)
    (buffer : Buffer) (size timeout : Nat) (w : World) :
    (receiveDataPfx lib clk c fuel [] buffer size timeout w).map
        (fun r => (r.1, r.2.1.cells, r.2.2)) =
      (receiveData clk c fuel buffer size timeout w).map
        (fun r => (r.1, r.2.1.cells, r.2.2)) := by
  unfold receiveDataPfx receiveData
  rw [List.takeWhile_nil, receiveDataPfxLoop_nil]
  cases hr : receiveDataLoop clk c size (deadline clk timeout w) fuel fuel buffer
      (millis clk w).2 with
  | none => rfl
  | some r =>
    cases h1 : r.1 with
    | false => simp [h1]
    | true =>
      obtain ⟨b0, w0, b1, _, hv, hb⟩ := receiveDataLoop_sound clk c size _ fuel fuel buffer
        (millis clk w).2 r hr h1
      simp only [Option.map_some', h1, if_true, Option.some.injEq, Prod.mk.injEq, true_and,
        and_true]
      rw [← hb]
      exact strcpyFromOffset_zero_cells lib b1 hv

/-! ## Lines longer than the buffer, and a buffer of size zero -/

/-- What `readLine` does with a line that ends in LF, whatever the size: the
stores are those of `storeBytes`, then the NUL; the line and its LF are
consumed.  Needs that something has been stored when the LF is read. -/
theorem readLine_lf_any_size (clk : Clock) (hm : Monotone clk) (c : Conn)
    (size t K B m : Nat) (bp : List (Nat × Nat)) (a : Nat) (rest : List (Nat × Nat))
    (buf : Buffer) (w : World)
    (hbp : ∀ x ∈ bp, x.1 ≤ clk K ∧ x.2 ≠ CR ∧ x.2 ≠ LF) (ha : a ≤ clk K) (ht : t ≤ U16)
    (hin : w.input = bp ++ (a, LF) :: rest)
    (hB : Budget K B (w.ops + 1) (bp.length + 1 + m))
    (hwin : clk B < clk w.ops + t)
    (hlen : 0 < (storeBytes size (bp.map Prod.snd) 0 buf).1) :
    ∃ fuel0 w1,
      (∀ fuel, fuel0 ≤ fuel → readLine clk c fuel buf size t w = some
        (readLineOk (storeBytes size (bp.map Prod.snd) 0 buf).1
          (storeBytes size (bp.map Prod.snd) 0 buf).2 w1)) ∧
      w1.input = rest ∧ w1.output = w.output ∧ w.ops ≤ w1.ops ∧ Budget K B w1.ops m := by
  have hnt := not_expired_window clk hm t B w (by simp only [U16] at ht; omega) hwin
  obtain ⟨n, k, hloop, hk, hbk⟩ := readLine_line_lf clk hm c size (deadline clk t w)
    K B m rest bp a (readLineInit clk buf w) rfl hin hbp ha hnt hB hlen
  refine ⟨n + 1, { (readLineInit clk buf w).world with ops := k, input := rest }, ?_, rfl, rfl,
    ?_, hbk⟩
  · intro fuel hf
    unfold readLine
    rw [show fuel = n + ((fuel - (n + 1)) + 1) by omega]
    exact hloop _
  · show w.ops ≤ k
    have hk' : w.ops + 1 + 2 * n + 2 ≤ k := hk
    omega

theorem storeBytes_truncates (size : Nat) (bytes : List Nat) (len : Nat) (buf : Buffer)
    (h : len ≤ (size + U16 - 1) % U16) :
    storeBytes size bytes len buf =
      (min (len + bytes.length) ((size + U16 - 1) % U16),
        buf.writeFrom len (bytes.take ((size + U16 - 1) % U16 - len))) := by
  induction bytes generalizing len buf with
  | nil => simp [storeBytes, Buffer.writeFrom, h]
  | cons b bs ih =>
    by_cases hlt : len < (size + U16 - 1) % U16
    · simp only [storeBytes, hlt, if_true]
      rw [ih (len + 1) _ (by omega)]
      have e : (size + U16 - 1) % U16 - len = ((size + U16 - 1) % U16 - (len + 1)) + 1 := by
        omega
      rw [e, List.take_succ_cons, Buffer.writeFrom, List.length_cons]
      congr 2
      omega
    · simp only [storeBytes, hlt, if_false]
      rw [ih len buf h]
      have e : (size + U16 - 1) % U16 - len = 0 := by omega
      rw [e]
      simp only [List.take_zero, List.length_cons, Prod.mk.injEq, and_true]
      omega

theorem writeFrom_writes (buf : Buffer) (i : Nat) (bytes : List Nat) :
    (buf.writeFrom i bytes).writes = (List.range' i bytes.length).reverse ++ buf.writes := by
  induction bytes generalizing i buf with
  | nil => simp [Buffer.writeFrom]
  | cons b bs ih =>
    rw [Buffer.writeFrom, ih]
    simp [Buffer.write, List.range'_succ]
/-- The buffer after `readLine` has stored a line of any length: the first
`size - 1` bytes at most, the NUL, and what the buffer held beyond. -/
theorem truncated_line_cells (size : Nat) (bytes : List Nat) (buf : Buffer)
    (h1 : 1 ≤ size) (h2 : size ≤ buf.cells.length) (h3 : size < U16) :
    (storeBytes size bytes 0 buf).1 = min bytes.length (size - 1) ∧
    ((storeBytes size bytes 0 buf).2.write (storeBytes size bytes 0 buf).1 NUL).cells =
      bytes.take (size - 1) ++ NUL :: buf.cells.drop (min bytes.length (size - 1) + 1) := by
  have hcap : (size + U16 - 1) % U16 = size - 1 := by
    simp only [U16] at h3 ⊢
    omega
  rw [storeBytes_truncates size bytes 0 buf (Nat.zero_le _), hcap]
  simp only [Nat.zero_add, Nat.sub_zero, true_and]
  have hl : (bytes.take (size - 1)).length = min bytes.length (size - 1) := by
    rw [List.length_take, Nat.min_comm]
  have := writeFrom_write_eq buf 0 (bytes.take (size - 1)) NUL
  rw [Nat.zero_add, hl] at this
  rw [this, writeFrom_cells buf _ (by rw [List.length_append, hl]; simp; omega)]
  rw [List.length_append, hl]
  simp

/-- C15, counterexample: with size 1 the line `AB` LF, waiting in the stream
from the start, is consumed and `readLine` returns false at its deadline; and
with size 3 the line with the empty body (a lone LF) does the same.  In both
runs the clock advances 100 ms per environment call and the timeout is 1000. -/
theorem readLine_truncated_to_nothing_fails :
    readLine (fun k => 100 * k) Conn.new 40 ⟨[255], []⟩ 1 1000
        ⟨0, [(0, 65), (0, 66), (0, LF)], [], []⟩ =
      some (false, ⟨[255], []⟩, ⟨12, [], [], []⟩) ∧
    readLine (fun k => 100 * k) Conn.new 40 ⟨[255, 255, 255], []⟩ 3 1000
        ⟨0, [(0, LF)], [], []⟩ =
      some (false, ⟨[255, 255, 255], []⟩, ⟨12, [], [], []⟩) :=
  ⟨by decide, by decide⟩

/-- C15, amended: for `2 ≤ size` and a non-empty line body without CR or LF,
followed by LF, the bytes having arrived by some environment call `K` with the
deadline still ahead once `readLine` has had its calls to consume them:
`readLine` returns true, the buffer holds the first `min(len(body), size - 1)`
bytes of the body and the NUL, the whole line and its LF are consumed, and
those bytes are what a `readLine` with a size that fits the body stores, cut to
`size - 1`. -/
theorem readLine_truncates (clk : Clock) (hm : Monotone clk) (c : Conn)
    (size t K : Nat) (bp : List (Nat × Nat)) (a : Nat) (rest : List (Nat × Nat))
    (buf : Buffer) (w : World)
    (hsize : 2 ≤ size) (hsz : size < U16) (hcells : size ≤ buf.cells.length)
    (hne : bp ≠ []) (hbp : ∀ x ∈ bp, x.1 ≤ clk K ∧ x.2 ≠ CR ∧ x.2 ≠ LF) (ha : a ≤ clk K)
    (ht : t ≤ U16) (hin : w.input = bp ++ (a, LF) :: rest)
    (hwin : clk (max w.ops K + 2 * bp.length + 3) < clk w.ops + t) :
    ∃ fuel0 buf1 w1,
      (∀ fuel, fuel0 ≤ fuel → readLine clk c fuel buf size t w = some (true, buf1, w1)) ∧
      buf1.cells = (bp.map Prod.snd).take (size - 1) ++
        NUL :: buf.cells.drop (min bp.length (size - 1) + 1) ∧
      w1.input = rest ∧
      ∀ size2 buf2, size2 < U16 → bp.length + 1 ≤ size2 → size2 ≤ buf2.cells.length →
        ∃ fuel2 buf3 w3,
          (∀ fuel, fuel2 ≤ fuel →
            readLine clk c fuel buf2 size2 t w = some (true, buf3, w3)) ∧
          w3.input = rest ∧ buf3.cells.take bp.length = bp.map Prod.snd ∧
          buf1.cells.take (min bp.length (size - 1)) =
            (buf3.cells.take bp.length).take (size - 1) := by
  have hpos : 0 < bp.length := List.length_pos.mpr hne
  have hB : Budget K (max w.ops K + 2 * bp.length + 3) (w.ops + 1) (bp.length + 1 + 0) := by
    unfold Budget
    omega
  have hst := truncated_line_cells size (bp.map Prod.snd) buf (by omega) hcells hsz
  rw [List.length_map] at hst
  obtain ⟨fuel0, w1, hrun, hw1, _⟩ := readLine_lf_any_size clk hm c size t K _ 0 bp a rest buf w
    hbp ha ht hin hB hwin (by rw [hst.1]; omega)
  refine ⟨fuel0, _, w1, hrun, hst.2, hw1, ?_⟩
  intro size2 buf2 h1 h2 h3
  have hst2 := truncated_line_cells size2 (bp.map Prod.snd) buf2 (by omega) h3 h1
  rw [List.length_map] at hst2
  obtain ⟨fuel2, w3, hrun2, hw3, _⟩ := readLine_lf_any_size clk hm c size2 t K _ 0 bp a rest
    buf2 w hbp ha ht hin hB hwin (by rw [hst2.1]; omega)
  have hbig : (bp.map Prod.snd).take (size2 - 1) = bp.map Prod.snd :=
    List.take_of_length_le (by rw [List.length_map]; omega)
  have hc3 : ((storeBytes size2 (bp.map Prod.snd) 0 buf2).2.write
      (storeBytes size2 (bp.map Prod.snd) 0 buf2).1 NUL).cells.take bp.length =
      bp.map Prod.snd := by
    rw [hst2.2, hbig, List.take_left' (by rw [List.length_map])]
  refine ⟨fuel2, _, w3, hrun2, hw3, hc3, ?_⟩
  rw [hc3]
  show ((storeBytes size (bp.map Prod.snd) 0 buf).2.write
      (storeBytes size (bp.map Prod.snd) 0 buf).1 NUL).cells.take _ = _
  rw [hst.2, List.take_left' (by rw [List.length_take, List.length_map, Nat.min_comm])]

/-- C15, amended, on the line `ABCDE` LF read with size 4: the buffer gets `ABC`. -/
theorem readLine_truncates_witness :
    ∃ fuel0 buf1 w1,
      (∀ fuel, fuel0 ≤ fuel → readLine (fun k => k) Conn.new fuel ⟨[255, 255, 255, 255], []⟩
        4 1000 ⟨0, [(0, 65), (0, 66), (0, 67), (0, 68), (0, 69), (0, LF), (0, 70)], [], []⟩ =
          some (true, buf1, w1)) ∧
      buf1.cells = [65, 66, 67, 0] ∧ w1.input = [(0, 70)] := by
  obtain ⟨fuel0, buf1, w1, h1, h2, h3, _⟩ := readLine_truncates (fun k => k) (fun _ _ h => h)
    Conn.new 4 1000 0 [(0, 65), (0, 66), (0, 67), (0, 68), (0, 69)] 0 [(0, 70)]
    ⟨[255, 255, 255, 255], []⟩
    ⟨0, [(0, 65), (0, 66), (0, 67), (0, 68), (0, 69), (0, LF), (0, 70)], [], []⟩
    (by decide) (by decide) (by decide) (by decide) (by decide) (by decide) (by decide) rfl
    (by decide)
  exact ⟨fuel0, buf1, w1, h1, by rw [h2]; decide, h3⟩
/-- C19: with `size = 0` the capacity test of `readLine` compares `len` with
`size - 1` wrapped to 65535, so for a line of `n ≥ 1` content bytes (at most
65535 of them, none CR or LF) followed by LF, all arrived by environment call
`K` with the deadline still ahead, `readLine` returns true after storing at the
indices `0..n` (the bytes, then the NUL) of a buffer that was given no
capacity; the stores are recorded latest first, and with no cells to hold
them the buffer's own cells stay as they were. -/
theorem readLine_size_zero_unguarded (clk : Clock) (hm : Monotone clk) (c : Conn)
    (t K : Nat) (bp : List (Nat × Nat)) (a : Nat) (rest : List (Nat × Nat))
    (buf : Buffer) (w : World)
    (hne : bp ≠ []) (hn : bp.length ≤ 65535)
    (hbp : ∀ x ∈ bp, x.1 ≤ clk K ∧ x.2 ≠ CR ∧ x.2 ≠ LF) (ha : a ≤ clk K)
    (ht : t ≤ U16) (hin : w.input = bp ++ (a, LF) :: rest)
    (hwin : clk (max w.ops K + 2 * bp.length + 3) < clk w.ops + t) :
    ∃ fuel0 buf1 w1,
      (∀ fuel, fuel0 ≤ fuel → readLine clk c fuel buf 0 t w = some (true, buf1, w1)) ∧
      buf1.writes = (List.range (bp.length + 1)).reverse ++ buf.writes ∧
      (∀ i, i ≤ bp.length → i ∈ buf1.writes ∧ ¬ i < 0) ∧
      (buf.cells = [] → buf1.cells = []) ∧
      w1.input = rest := by
  have hpos : 0 < bp.length := List.length_pos.mpr hne
  have hB : Budget K (max w.ops K + 2 * bp.length + 3) (w.ops + 1) (bp.length + 1 + 0) := by
    unfold Budget
    omega
  have hcap : (0 + U16 - 1) % U16 = 65535 := by decide
  have hst : storeBytes 0 (bp.map Prod.snd) 0 buf =
      (bp.length, buf.writeFrom 0 (bp.map Prod.snd)) := by
    rw [storeBytes_fits 0 _ 0 buf (by rw [hcap, List.length_map]; omega), List.length_map,
      Nat.zero_add]
  obtain ⟨fuel0, w1, hrun, hw1, _⟩ := readLine_lf_any_size clk hm c 0 t K _ 0 bp a rest buf w
    hbp ha ht hin hB hwin (by rw [hst]; exact hpos)
  rw [hst] at hrun
  have hwr := writeFrom_write_eq buf 0 (bp.map Prod.snd) NUL
  rw [Nat.zero_add, List.length_map] at hwr
  have hwrites : ((buf.writeFrom 0 (bp.map Prod.snd)).write bp.length NUL).writes =
      (List.range (bp.length + 1)).reverse ++ buf.writes := by
    rw [hwr, writeFrom_writes, List.range_eq_range']
    simp
  refine ⟨fuel0, (buf.writeFrom 0 (bp.map Prod.snd)).write bp.length NUL, w1, hrun, hwrites,
    ?_, ?_, hw1⟩
  · intro i hi
    refine ⟨?_, Nat.not_lt_zero i⟩
    rw [hwrites]
    apply List.mem_append_left
    rw [List.mem_reverse, List.mem_range]
    omega
  · intro hc
    have hlen : ∀ (vs : List Nat) (b : Buffer) (i : Nat), (b.writeFrom i vs).cells.length =
        b.cells.length := by
      intro vs
      induction vs with
      | nil => intro b i; rfl
      | cons v vs ih =>
        intro b i
        rw [Buffer.writeFrom, ih]
        simp [Buffer.write]
    apply List.eq_nil_of_length_eq_zero
    rw [hwr, hlen, hc]
    rfl

/-- C19 on the line `AB` LF read with size 0 into a buffer without cells. -/
theorem readLine_size_zero_unguarded_witness :
    ∃ fuel0 buf1 w1,
      (∀ fuel, fuel0 ≤ fuel → readLine (fun k => k) Conn.new fuel ⟨[], []⟩ 0 1000
        ⟨0, [(0, 65), (0, 66), (0, LF)], [], []⟩ = some (true, buf1, w1)) ∧
      buf1.writes = [2, 1, 0] ∧ buf1.cells = [] ∧ w1.input = [] := by
  obtain ⟨fuel0, buf1, w1, h1, h2, _, h4, h5⟩ := readLine_size_zero_unguarded (fun k => k)
    (fun _ _ h => h) Conn.new 1000 0 [(0, 65), (0, 66)] 0 [] ⟨[], []⟩
    ⟨0, [(0, 65), (0, 66), (0, LF)], [], []⟩
    (by decide) (by decide) (by decide) (by decide) (by decide) rfl (by decide)
  exact ⟨fuel0, buf1, w1, h1, by rw [h2]; decide, h4 rfl, h5⟩

/-! ## Numerals above 16 bits and text after the numeral -/

theorem U32_lt_pow : U32 < 10 ^ 32 := by decide

theorem printUnsigned_value_long (n : Nat) (h : n < U32) :
    decimalValue 0 (printUnsigned n) = n := by
  rw [printUnsigned_eq, printNumberLoop_value]
  · simp [decimalValue]
  · have := U32_lt_pow
    omega

theorem printUnsigned_head_long (n : Nat) (hn : 0 < n) (h : n < U32) :
    ∃ d rest, printUnsigned n = d :: rest ∧ 49 ≤ d ∧ d ≤ 57 := by
  rw [printUnsigned_eq]
  apply printNumberLoop_head 32 n [] hn
  have := U32_lt_pow
  omega

theorem strtoul_plain (c : Nat) (cs : List Nat) (hsp : isspace c = false) (h45 : c ≠ 45)
    (h43 : c ≠ 43) :
    strtoul (c :: cs) 0 =
      if hasHexPrefix (c :: cs) = true then
        (if (strtoulDigits 16 (cs.drop 1) 0 0).2 = 0 then (0, 0)
          else ((if U32 ≤ (strtoulDigits 16 (cs.drop 1) 0 0).1 then U32 - 1
            else (strtoulDigits 16 (cs.drop 1) 0 0).1), 2 + (strtoulDigits 16 (cs.drop 1) 0 0).2))
      else
        (if (strtoulDigits (if c = 48 then 8 else 10) (c :: cs) 0 0).2 = 0 then (0, 0)
          else ((if U32 ≤ (strtoulDigits (if c = 48 then 8 else 10) (c :: cs) 0 0).1 then U32 - 1
            else (strtoulDigits (if c = 48 then 8 else 10) (c :: cs) 0 0).1),
            (strtoulDigits (if c = 48 then 8 else 10) (c :: cs) 0 0).2)) := by
  by_cases hhex : hasHexPrefix (c :: cs) = true
  · simp [strtoul, List.takeWhile_cons, hsp, h45, h43, hhex]
  · simp [strtoul, List.takeWhile_cons, hsp, h45, h43, hhex]

theorem strtoul_zero_then_text (g : List Nat) :
    (hasHexPrefix (48 :: g) = true → (strtoul (48 :: g) 0).2 ≠ 1) ∧
    (hasHexPrefix (48 :: g) = false →
      strtoul (48 :: g) 0 =
        ((if U32 ≤ (strtoulDigits 8 g 0 1).1 then U32 - 1 else (strtoulDigits 8 g 0 1).1),
          (strtoulDigits 8 g 0 1).2)) := by
  have hp := strtoul_plain 48 g (by decide) (by decide) (by decide)
  have hcnt := (strtoulDigits_count 8 g 0 1).1
  have hne : (strtoulDigits 8 g 0 1).2 ≠ 0 := by omega
  have hdig : strtoulDigits 8 (48 :: g) 0 0 = strtoulDigits 8 g 0 1 := by
    simp [strtoulDigits, digitVal]
  constructor
  · intro hhex
    rw [hp, if_pos hhex]
    split_ifs <;> simp only <;> omega
  · intro hhex
    rw [hp, if_neg (by simp [hhex])]
    simp only [if_true, hdig]
    rw [if_neg hne]

/-- When `strtoul` with base 0 stops right after the decimal rendering of `N`,
the value it returns is `N`. -/
theorem strtoul_numeral_then_text (N : Nat) (g : List Nat) (hN : N < U32)
    (hstop : (strtoul (printUnsigned N ++ g) 0).2 = (printUnsigned N).length) :
    (strtoul (printUnsigned N ++ g) 0).1 = N := by
  rcases Nat.eq_zero_or_pos N with h0 | hpos
  · subst h0
    rw [printUnsigned_zero] at hstop ⊢
    have hz := strtoul_zero_then_text g
    cases hh : hasHexPrefix (48 :: g) with
    | true => exact absurd hstop (hz.1 hh)
    | false =>
      have e := hz.2 hh
      rw [List.singleton_append] at hstop ⊢
      rw [e] at hstop ⊢
      have h1 := (strtoulDigits_count 8 g 0 1).2 hstop
      simp only [h1]
      decide
  · obtain ⟨d, ds, hD, hd1, hd2⟩ := printUnsigned_head_long N hpos hN
    have hdig := printUnsigned_digits N
    have hval := printUnsigned_value_long N hN
    rw [hD] at hdig hval hstop ⊢
    have e := strtoul_decimal_head d ds g ⟨hd1, hd2⟩
      (fun x hx => hdig x (List.mem_cons_of_mem _ hx))
    rw [hval] at e
    rw [e] at hstop ⊢
    have h1 := (strtoulDigits_count 10 g N (ds.length + 1)).2 hstop
    simp only [h1]
    rw [if_neg (by omega)]

theorem strtoulDigits_stop (b : Nat) (g : List Nat) (acc k : Nat) (hb : b ≤ 10)
    (hg : ∀ c rest, g = c :: rest → ¬ IsDecimalDigit c) :
    strtoulDigits b g acc k = (acc, k) := by
  cases g with
  | nil => rfl
  | cons c rest =>
    have hc : ¬ (48 ≤ c ∧ c ≤ 57) := hg c rest rfl
    unfold strtoulDigits digitVal
    simp only [hc, if_false]
    split_ifs <;> simp <;> omega

/-- A text that is empty or starts with a byte that is not a decimal digit
(and, after the numeral `0`, not `x` or `X` either) stops `strtoul` right after
the decimal rendering of `N`. -/
theorem strtoul_stops_at_text (N : Nat) (g : List Nat) (hN : N < U32)
    (hg : ∀ c rest, g = c :: rest → ¬ IsDecimalDigit c ∧ (N = 0 → c ≠ 120 ∧ c ≠ 88)) :
    (strtoul (printUnsigned N ++ g) 0).2 = (printUnsigned N).length := by
  rcases Nat.eq_zero_or_pos N with h0 | hpos
  · subst h0
    rw [printUnsigned_zero, List.singleton_append]
    have hh : hasHexPrefix (48 :: g) = false := by
      cases g with
      | nil => rfl
      | cons c rest =>
        have := ((hg c rest rfl).2 rfl)
        cases rest with
        | nil => rfl
        | cons d rest2 => simp [hasHexPrefix, this.1, this.2]
    rw [(strtoul_zero_then_text g).2 hh,
      strtoulDigits_stop 8 g 0 1 (by decide) (fun c rest h => (hg c rest h).1)]
    rfl
  · obtain ⟨d, ds, hD, hd1, hd2⟩ := printUnsigned_head_long N hpos hN
    have hdig := printUnsigned_digits N
    rw [hD] at hdig ⊢
    rw [strtoul_decimal_head d ds g ⟨hd1, hd2⟩ (fun x hx => hdig x (List.mem_cons_of_mem _ hx)),
      strtoulDigits_stop 10 g _ _ (by decide) (fun c rest h => (hg c rest h).1)]
    rfl
/-- C18: `findCrc` keeps the value that `strtoul` (base 0) parsed, reduced
modulo 2^16, and what follows the numeral is ignored.  For a payload `p`
(no CR, LF or NUL), a number `N < 2^32` with `N mod 65536 = crc16_xmodem(p)`,
and a text `g` (no comma, CR, LF or NUL) at which `strtoul` stops right after
the decimal rendering of `N`: on the line `p,N g` `findCrc` returns true with
`crc = N mod 65536` at that comma, any buffer holding that line passes the
checks with `p` left in it, and when the line and an LF wait on the stream, it
fits the buffer and the clock stays before the deadlines while the bytes are
consumed, `receiveData` returns true with the buffer equal to `p`. -/
theorem receiveData_accepts_modulo_and_trailing_text (clk : Clock) (hm : Monotone clk)
    (c : Conn) (size t N : Nat) (p g : List Nat) (buf : Buffer) (w : World)
    (hp : ∀ b ∈ p, b ≠ CR ∧ b ≠ LF ∧ b ≠ NUL)
    (hg : ∀ b ∈ g, b ≠ COMMA ∧ b ≠ CR ∧ b ≠ LF ∧ b ≠ NUL)
    (hN : N < U32) (hcrc : N % U16 = crc16_xmodem p)
    (hstop : (strtoul (printUnsigned N ++ g) 0).2 = (printUnsigned N).length)
    (hfit : p.length + 1 + ((printUnsigned N).length + g.length) ≤ size - 1)
    (hsize : size < U16) (hcells : size ≤ buf.cells.length) (ht : t < U16)
    (hin : w.input.map Prod.snd = (p ++ COMMA :: (printUnsigned N ++ g)) ++ [LF])
    (harr : ∀ x ∈ w.input, x.1 ≤ clk w.ops)
    (hwin : clk (w.ops + 2 * (p.length + 1 + ((printUnsigned N).length + g.length)) + 11) <
      clk w.ops + min t DEFAULT_TIMEOUT) :
    findCrc (p ++ COMMA :: (printUnsigned N ++ g)) 0 0 = (true, N % U16, p.length) ∧
    (∀ b : Buffer, b.cstr = p ++ COMMA :: (printUnsigned N ++ g) →
      verifyLine b = (true, b.write p.length NUL) ∧ (b.write p.length NUL).cstr = p) ∧
    ∃ fuel0 buf1 w1,
      (∀ fuel, fuel0 ≤ fuel → receiveData clk c fuel buf size t w = some (true, buf1, w1)) ∧
      buf1.cstr = p := by
  have hdig := printUnsigned_digits N
  have hval := strtoul_numeral_then_text N g hN hstop
  have hlen1 : 1 ≤ (printUnsigned N).length := by
    rw [printUnsigned_eq]
    have := printNumberLoop_length 32 N 32 [] (by decide) (by decide)
      (by have := U32_lt_pow; omega)
    simpa using this.1
  have hconv : (strtoul (printUnsigned N ++ g) 0).2 ≠ 0 := by omega
  have hsuf : COMMA ∉ printUnsigned N ++ g := by
    intro hmem
    rcases List.mem_append.mp hmem with h | h
    · have := hdig COMMA h
      unfold IsDecimalDigit COMMA at this
      omega
    · exact (hg COMMA h).1 rfl
  have hverify : ∀ b : Buffer, b.cstr = p ++ COMMA :: (printUnsigned N ++ g) →
      verifyLine b = (true, b.write p.length NUL) ∧ (b.write p.length NUL).cstr = p :=
    fun b hb => verifyLine_accepts b p _ hb hsuf hconv (by rw [hval]; exact hcrc)
  refine ⟨?_, hverify, ?_⟩
  · rw [findCrc_eq_of_last_comma p _ 0 0 hsuf]
    unfold findCrcAtLastComma
    rw [hval]
    simp [hconv]
  have hbody : ∀ b ∈ p ++ COMMA :: (printUnsigned N ++ g), b ≠ CR ∧ b ≠ LF := by
    intro x hx
    rcases List.mem_append.mp hx with h1 | h1
    · exact ⟨(hp x h1).1, (hp x h1).2.1⟩
    · rcases List.mem_cons.mp h1 with h2 | h2
      · rw [h2]
        decide
      · rcases List.mem_append.mp h2 with h3 | h3
        · have := hdig x h3
          unfold IsDecimalDigit at this
          simp only [CR, LF]
          omega
        · exact ⟨(hg x h3).2.1, (hg x h3).2.2.1⟩
  have hnn : ∀ b ∈ p ++ COMMA :: (printUnsigned N ++ g), b ≠ NUL := by
    intro x hx
    rcases List.mem_append.mp hx with h1 | h1
    · exact (hp x h1).2.2
    · rcases List.mem_cons.mp h1 with h2 | h2
      · rw [h2]
        decide
      · rcases List.mem_append.mp h2 with h3 | h3
        · have := hdig x h3
          unfold IsDecimalDigit at this
          simp only [NUL]
          omega
        · exact (hg x h3).2.2.2
  have hlenb : (p ++ COMMA :: (printUnsigned N ++ g)).length =
      p.length + 1 + ((printUnsigned N).length + g.length) := by
    simp
    omega
  have hmin1 : min t DEFAULT_TIMEOUT ≤ t := Nat.min_le_left _ _
  have hmin2 : min t DEFAULT_TIMEOUT ≤ DEFAULT_TIMEOUT := Nat.min_le_right _ _
  obtain ⟨fuel0, b1, w1, hrl, hcells1, _⟩ := readLine_one_line clk hm c size DEFAULT_TIMEOUT w.ops
    (p ++ COMMA :: (printUnsigned N ++ g)) [LF] buf (w.tick 2)
    (Or.inr (Or.inr rfl)) (by simp) hbody (by omega) hsize hcells (by decide)
    (by simpa using hin) (by simpa using harr)
    (by
      rw [hlenb]
      have e : max (w.tick 2).ops w.ops = w.ops + 2 := by simp
      rw [e]
      have h2 : clk w.ops ≤ clk (w.tick 2).ops := hm (by simp)
      rw [show w.ops + 2 + 2 * (p.length + 1 + ((printUnsigned N).length + g.length)) + 9 =
        w.ops + 2 * (p.length + 1 + ((printUnsigned N).length + g.length)) + 11 by omega]
      omega)
  obtain ⟨hv, hcs⟩ := hverify b1 (cstr_of_cells b1 _ _ hnn hcells1)
  have hne : ¬ expired clk (deadline clk t w) (w.tick 1).ops := by
    rw [deadline_eq]
    apply not_expired_of_lt clk t w.ops _ (by simp only [U16] at ht; omega) (hm (by simp))
    have : clk (w.tick 1).ops ≤
        clk (w.ops + 2 * (p.length + 1 + ((printUnsigned N).length + g.length)) + 11) :=
      hm (by simp; omega)
    omega
  refine ⟨fuel0 + 1, b1.write p.length NUL, w1, ?_, hcs⟩
  intro fuel hf
  unfold receiveData
  obtain ⟨f, rfl⟩ : ∃ f, fuel = f + 1 := ⟨fuel - 1, by omega⟩
  exact receiveDataLoop_accept clk c size _ (f + 1) f buf b1 _ (w.tick 1) w1 hne
    (by simpa using hrl (f + 1) (by omega)) hv

/-- C18 on the line `CMD=1,81014 ok`: the payload `CMD=1` has CRC 15478, and
81014 = 15478 + 65536. -/
theorem receiveData_accepts_modulo_and_trailing_text_witness :
    findCrc ([67, 77, 68, 61, 49] ++ COMMA :: (printUnsigned 81014 ++ [32, 111, 107])) 0 0 =
      (true, 81014 % U16, 5) ∧
    ∃ fuel0 buf1 w1,
      (∀ fuel, fuel0 ≤ fuel →
        receiveData (fun _ => 0) Conn.new fuel ⟨List.replicate 16 255, []⟩ 16 1
          ⟨0, [(0, 67), (0, 77), (0, 68), (0, 61), (0, 49), (0, 44), (0, 56), (0, 49), (0, 48),
            (0, 49), (0, 52), (0, 32), (0, 111), (0, 107), (0, 10)], [], []⟩ =
          some (true, buf1, w1)) ∧
      buf1.cstr = [67, 77, 68, 61, 49] := by
  have h := receiveData_accepts_modulo_and_trailing_text (fun _ => 0) (fun _ _ _ => le_rfl)
    Conn.new 16 1 81014 [67, 77, 68, 61, 49] [32, 111, 107] ⟨List.replicate 16 255, []⟩
    ⟨0, [(0, 67), (0, 77), (0, 68), (0, 61), (0, 49), (0, 44), (0, 56), (0, 49), (0, 48),
      (0, 49), (0, 52), (0, 32), (0, 111), (0, 107), (0, 10)], [], []⟩
    (by decide) (by decide) (by decide) (by decide) (by decide) (by decide) (by decide)
    (by decide) (by decide) (by decide) (by decide) (by decide)
  exact ⟨h.1, h.2.2⟩

/-! ## CRC-16/XMODEM -/

theorem testBit_mod_U16 (x i : Nat) :
    (x % 65536).testBit i = (decide (i < 16) && x.testBit i) :=
  Nat.testBit_mod_two_pow x 16 i

theorem and_top_ne_zero_iff (x : Nat) : x &&& 0x8000 ≠ 0 ↔ x.testBit 15 = true := by
  have h := Nat.and_two_pow x 15
  have e : (0x8000 : Nat) = 2 ^ 15 := by decide
  rw [e, h]
  cases x.testBit 15 <;> simp

theorem crc_xmodem_bit_testBit (x i : Nat) :
    (crc_xmodem_bit x).testBit i =
      (decide (i < 16) && ((decide (1 ≤ i) && x.testBit (i - 1)) ^^
        (x.testBit 15 && CRC16_POLY.testBit i))) := by
  unfold crc_xmodem_bit U16
  by_cases h : x.testBit 15 = true
  · rw [if_pos ((and_top_ne_zero_iff x).mpr h)]
    simp [h, CRC16_POLY, testBit_mod_U16]
  · rw [if_neg (fun hc => h ((and_top_ne_zero_iff x).mp hc))]
    simp [h, testBit_mod_U16]

theorem poly_testBit_high (i : Nat) (h : ¬ i < 16) : CRC16_POLY.testBit i = false := by
  apply Nat.testBit_lt_two_pow
  have h1 : (2 : Nat) ^ 16 ≤ 2 ^ i := Nat.pow_le_pow_right (by decide) (by omega)
  have h2 : CRC16_POLY < 2 ^ 16 := by decide
  omega

theorem crcShiftIn_testBit (r : Nat) (b : Bool) (i : Nat) :
    (crcShiftIn r b).testBit i =
      (decide (i < 16) && ((decide (1 ≤ i) && r.testBit (i - 1)) ^^
        ((r.testBit 15 != b) && CRC16_POLY.testBit i))) := by
  unfold crcShiftIn U16
  by_cases hi : i < 16
  · by_cases h : (r.testBit 15 != b) = true
    · rw [if_pos h]
      simp [h, hi, testBit_mod_U16]
    · rw [if_neg h]
      simp [h, hi, testBit_mod_U16]
  · have hp := poly_testBit_high i hi
    by_cases h : (r.testBit 15 != b) = true
    · rw [if_pos h]
      simp [hi, hp, testBit_mod_U16]
    · rw [if_neg h]
      simp [hi, testBit_mod_U16]

theorem crcShiftIn_lt (r : Nat) (b : Bool) : crcShiftIn r b < U16 := by
  unfold crcShiftIn
  have h1 : (r <<< 1) % U16 < U16 := Nat.mod_lt _ (by decide)
  split
  · have e : U16 = 2 ^ 16 := by decide
    rw [e] at h1 ⊢
    exact Nat.xor_lt_two_pow h1 (by decide)
  · exact h1

/-- One round of the avr-libc bit loop on a register that still has the
unprocessed message bits `y` added in, against the reference register: the
top bit of `y` is the message bit shifted in, the rest of `y` moves up. -/
theorem crc_xmodem_bit_xor (r y : Nat) :
    crc_xmodem_bit (r ^^^ y) = crcShiftIn r (y.testBit 15) ^^^ ((y <<< 1) % U16) := by
  apply Nat.eq_of_testBit_eq
  intro i
  simp only [crc_xmodem_bit_testBit, Nat.testBit_xor, crcShiftIn_testBit, U16, testBit_mod_U16,
    Nat.testBit_shiftLeft, ge_iff_le]
  cases decide (i < 16) <;> cases decide (1 ≤ i) <;> cases r.testBit (i - 1) <;>
    cases y.testBit (i - 1) <;> cases r.testBit 15 <;> cases y.testBit 15 <;>
    cases CRC16_POLY.testBit i <;> rfl
theorem shiftLeft_mod_step (y n : Nat) :
    ((((y <<< 1) % U16) <<< n) % U16) = (y <<< (n + 1)) % U16 := by
  simp only [Nat.shiftLeft_eq, Nat.pow_succ, Nat.pow_zero, Nat.one_mul]
  rw [Nat.mul_mod, Nat.mod_mod, ← Nat.mul_mod, Nat.mul_assoc, Nat.mul_comm 2 (2 ^ n)]

/-- Running `n` rounds of the avr-libc bit loop on a register with the message
bits `y` added in at the top is shifting the top `n` bits of `y` into the
reference register, the rest of `y` staying added in. -/
theorem crc_xmodem_bit_iterate (n : Nat) (hn : n ≤ 16) (r y : Nat) (hy : y < U16) :
    crc_xmodem_bit^[n] (r ^^^ y) =
      ((List.range n).map (fun j => y.testBit (15 - j))).foldl crcShiftIn r ^^^
        ((y <<< n) % U16) := by
  induction n generalizing r y with
  | zero =>
    simp only [Function.iterate_zero, id_eq, List.range_zero, List.map_nil, List.foldl_nil,
      Nat.shiftLeft_zero]
    rw [Nat.mod_eq_of_lt hy]
  | succ n ih =>
    rw [Function.iterate_succ_apply, crc_xmodem_bit_xor,
      ih (by omega) _ _ (Nat.mod_lt _ (by decide)), shiftLeft_mod_step,
      List.range_succ_eq_map, List.map_cons, List.foldl_cons, List.map_map]
    congr 2
    apply List.map_congr_left
    intro j hj
    have hj' : j < n := List.mem_range.mp hj
    simp only [Function.comp, U16, testBit_mod_U16, Nat.testBit_shiftLeft]
    have h1 : 15 - j < 16 := by omega
    have h2 : 15 - j ≥ 1 := by omega
    simp only [h1, h2, decide_True, Bool.true_and]
    congr 1

theorem testBit_mod_256 (x i : Nat) :
    (x % 256).testBit i = (decide (i < 8) && x.testBit i) :=
  Nat.testBit_mod_two_pow x 8 i

/-- The avr-libc byte update is the reference register after the eight bits
of the byte, most significant first. -/
theorem crc_xmodem_update_eq (crc data : Nat) (h : crc < U16) :
    crc_xmodem_update crc data = (bitsMsbFirst data).foldl crcShiftIn crc := by
  unfold crc_xmodem_update
  have hy : ((data % 256) <<< 8) % U16 < U16 := Nat.mod_lt _ (by decide)
  have hx : crc ^^^ (((data % 256) <<< 8) % U16) < U16 := by
    have e : U16 = 2 ^ 16 := by decide
    rw [e] at h hy ⊢
    exact Nat.xor_lt_two_pow h hy
  rw [Nat.mod_eq_of_lt hx, crc_xmodem_bit_iterate 8 (by decide) crc _ hy]
  have hz : ((((data % 256) <<< 8) % U16) <<< 8) % U16 = 0 := by
    simp only [Nat.shiftLeft_eq, U16]
    omega
  rw [hz, Nat.xor_zero]
  unfold bitsMsbFirst
  congr 1
  apply List.map_congr_left
  intro j hj
  have hj' : j < 8 := List.mem_range.mp hj
  simp only [U16, testBit_mod_U16, Nat.testBit_shiftLeft, testBit_mod_256]
  have h1 : 15 - j < 16 := by omega
  have h2 : 15 - j ≥ 8 := by omega
  have h3 : 15 - j - 8 < 8 := by omega
  have h4 : 15 - j - 8 = 7 - j := by omega
  have h5 : 7 - j < 8 := by omega
  simp only [h1, h2, h4, h5, decide_True, Bool.true_and]

theorem crc16_xmodem_loop_eq (buf : List Nat) (crc : Nat) (h : crc < U16) :
    crc16_xmodem_loop buf crc = (buf.flatMap bitsMsbFirst).foldl crcShiftIn crc := by
  induction buf generalizing crc with
  | nil => rfl
  | cons b bs ih =>
    rw [crc16_xmodem_loop, ih _ (crc_xmodem_update_lt crc b), crc_xmodem_update_eq crc b h,
      List.flatMap_cons, List.foldl_append]

theorem crc16_xmodem_loop_foldl (buf : List Nat) (crc : Nat) :
    crc16_xmodem_loop buf crc = buf.foldl crc_xmodem_update crc := by
  induction buf generalizing crc with
  | nil => rfl
  | cons b bs ih => rw [crc16_xmodem_loop, ih, List.foldl_cons]

/-- C12: `crc16_xmodem` is CRC-16/XMODEM: on every byte sequence it is the fold
of avr-libc's documented `_crc_xmodem_update` from 0 and equals the reference
MSB-first CRC with polynomial 0x1021, register initially 0, no reflection and
no final XOR; being a function of the bytes alone, it gives 0 on the empty
sequence and 0x31C3 = 12739 on the ASCII bytes `123456789`. -/
theorem crc16_xmodem_is_reference (buf : List Nat) :
    crc16_xmodem buf = crc16XmodemReference buf ∧
    crc16_xmodem buf = buf.foldl crc_xmodem_update 0 ∧
    crc16_xmodem [] = 0 ∧
    crc16_xmodem [49, 50, 51, 52, 53, 54, 55, 56, 57] = 0x31C3 ∧
    crc16XmodemReference [49, 50, 51, 52, 53, 54, 55, 56, 57] = 12739 := by
  exact ⟨crc16_xmodem_loop_eq buf 0 (by decide), crc16_xmodem_loop_foldl buf 0, rfl, by decide,
    by decide⟩

end SerialConnect
